import Mathlib

/-!
Verification development for the loopana loop-nest analyzer.

This file contains a shallow embedding, translated from the Rust sources, of:

* the affine-expression IR (`src/representations/affine_expr.rs`):
  the `AffineExpr` and `Coeff` data types, `Coeff::normalize`,
  `Coeff::simplify`, `AffineExpr::simplify`, the `Display` printers and the
  nom parser (`parse_expr` and its helpers);
* the instruction IR (`src/representations/instruction.rs`): data types,
  printer and parser;
* the loop IR (`src/representations/loops.rs`) and the transform algebra
  (`src/passes/transform_pass.rs`);
* the pass workspace and pipeline (`src/passes/workspace.rs`,
  `src/passes/pass_pipeline.rs`, `src/passes/passes.rs`, the derive-generated
  `run` of `pass_derive`), together with the concrete passes
  `MemAccessAnalysis` and `FreeDimAnalysis`.

Rust `i32` values are modelled as `Int`; machine overflow is irrelevant to the
statements proved here except in the integer-literal parser, where the i32
range check performed by `str::parse::<i32>` is modelled explicitly.
Rust `panic!`/`unwrap` failures inside the transform code are modelled as an
`Except` error value.  Strings are modelled as `List Char` at parser level;
Rust `char::is_alphabetic`/`is_alphanumeric` are modelled by the ASCII
predicates `Char.isAlpha`/`Char.isAlphanum` (all identifiers occurring in the
repository are ASCII).
-/

/-! ## The affine IR (from `src/representations/affine_expr.rs`) -/

/-- `Coeff` from `affine_expr.rs`: a constant or metaparameter coefficient. -/
inductive Coeff : Type where
  | Const : Int → Coeff
  | ConstVar : String → Coeff
  | Mul : Coeff → Coeff → Coeff
deriving DecidableEq, Repr

/-- `AffineExpr` from `affine_expr.rs`. -/
inductive AffineExpr : Type where
  | Var : String → AffineExpr
  | Const : Int → AffineExpr
  | Add : AffineExpr → AffineExpr → AffineExpr
  | Sub : AffineExpr → AffineExpr → AffineExpr
  | Mul : Coeff → AffineExpr → AffineExpr
  | Div : AffineExpr → Coeff → AffineExpr
  | Mod : AffineExpr → Coeff → AffineExpr
deriving DecidableEq, Repr

/-- Structural size of a coefficient (used for termination of `normalize`). -/
def Coeff.csize : Coeff → Nat
  | .Const _ => 1
  | .ConstVar _ => 1
  | .Mul l r => l.csize + r.csize + 1

/-- `Coeff::simplify` from `affine_expr.rs`, translated arm by arm
(first-match semantics as in Rust). -/
def Coeff.simplify : Coeff → Coeff
  | .Const c => .Const c
  | .ConstVar v => .ConstVar v
  | .Mul a b =>
    let e1 := a.simplify
    let e2 := b.simplify
    match e1, e2 with
    | .Const 0, _ => .Const 0
    | _, .Const 0 => .Const 0
    | .Const 1, e => e
    | e, .Const 1 => e
    | .Const c1, .Const c2 => .Const (c1 * c2)
    | .Const c1, .Mul m1 m2 =>
      (match m1, m2 with
       | .Const c2, f2 => .Mul (.Const (c1 * c2)) f2
       | f1, .Const c2 => .Mul (.Const (c1 * c2)) f1
       | f1, f2 => .Mul (.Const c1) (.Mul f1 f2))
    | .Mul m1 m2, .Const c1 =>
      (match m1, m2 with
       | .Const c2, f2 => .Mul (.Const (c1 * c2)) f2
       | f1, .Const c2 => .Mul (.Const (c1 * c2)) f1
       | f1, f2 => .Mul (.Const c1) (.Mul f1 f2))
    | f1, f2 => .Mul f1 f2

theorem Coeff.csize_pos (c : Coeff) : 0 < c.csize := by
  cases c <;> simp [Coeff.csize]

/-- `Coeff::simplify` never increases the structural size. -/
theorem Coeff.simplify_csize (c : Coeff) : c.simplify.csize ≤ c.csize := by
  induction c with
  | Const c => simp [Coeff.simplify, Coeff.csize]
  | ConstVar v => simp [Coeff.simplify, Coeff.csize]
  | Mul a b iha ihb =>
    have ha := Coeff.csize_pos a
    have hb := Coeff.csize_pos b
    simp only [Coeff.simplify]
    split <;> (try split) <;> (try simp_all [Coeff.csize]) <;> omega

/-- Fuelled recursion for `Coeff::normalize` (the Rust recursion descends
into the result of `simplify`, so it is not structural; `csize` fuel is
always sufficient by `Coeff.simplify_csize`, see `Coeff.normalize_unfold`). -/
def Coeff.normalizeGo : Nat → Coeff → Coeff
  | 0, c => c
  | fuel + 1, c =>
    match c.simplify with
    | .Const _ => c
    | .ConstVar _ => c
    | .Mul e1 e2 =>
      let e1n := Coeff.normalizeGo fuel e1
      let e2n := Coeff.normalizeGo fuel e2
      match e1n, e2n with
      | .Const _, .Const _ => .Mul e2n e1n
      | .Const _, _ => .Mul e2n e1n
      | _, .Const _ => .Mul e2n e1n
      | _, _ => .Mul e1n e2n

/-- `Coeff::normalize` from `affine_expr.rs`: simplifies, then recursively
normalizes the children of a product and swaps them whenever one side is a
constant (translated arm by arm from the source, including the arm order;
`Coeff.normalize_unfold` below shows this definition satisfies exactly the
recursion written in the source). -/
def Coeff.normalize (c : Coeff) : Coeff := Coeff.normalizeGo c.csize c

theorem Coeff.normalizeGo_fuel (fuel : Nat) :
    ∀ (fuel2 : Nat) (c : Coeff), c.csize ≤ fuel → c.csize ≤ fuel2 →
      Coeff.normalizeGo fuel c = Coeff.normalizeGo fuel2 c := by
  induction fuel with
  | zero =>
    intro fuel2 c h _
    have := Coeff.csize_pos c
    omega
  | succ fuel ih =>
    intro fuel2 c h h2
    have := Coeff.csize_pos c
    cases fuel2 with
    | zero => omega
    | succ fuel2 =>
      simp only [Coeff.normalizeGo]
      have hsz := Coeff.simplify_csize c
      cases hsc : c.simplify with
      | Const _ => rfl
      | ConstVar _ => rfl
      | Mul e1 e2 =>
        rw [hsc] at hsz
        simp only [Coeff.csize] at hsz
        have he1 := Coeff.csize_pos e1
        have he2 := Coeff.csize_pos e2
        dsimp only
        rw [ih fuel2 e1 (by omega) (by omega), ih fuel2 e2 (by omega) (by omega)]

/-- The fuelled `Coeff.normalize` satisfies exactly the recursion of the Rust
source: simplify, return `self` on `Const`/`ConstVar`, and otherwise
normalize the two children of the simplified product and reorder them
according to the (swap-happy) constant arms. -/
theorem Coeff.normalize_unfold (c : Coeff) :
    c.normalize =
      match c.simplify with
      | .Const _ => c
      | .ConstVar _ => c
      | .Mul e1 e2 =>
        match e1.normalize, e2.normalize with
        | .Const _, .Const _ => .Mul e2.normalize e1.normalize
        | .Const _, _ => .Mul e2.normalize e1.normalize
        | _, .Const _ => .Mul e2.normalize e1.normalize
        | _, _ => .Mul e1.normalize e2.normalize := by
  have hpos := Coeff.csize_pos c
  have hsz := Coeff.simplify_csize c
  unfold Coeff.normalize
  match hn : c.csize, hpos with
  | n + 1, _ =>
    simp only [Coeff.normalizeGo]
    cases hsc : c.simplify with
    | Const _ => rfl
    | ConstVar _ => rfl
    | Mul e1 e2 =>
      rw [hsc, hn] at hsz
      simp only [Coeff.csize] at hsz
      have he1 := Coeff.csize_pos e1
      have he2 := Coeff.csize_pos e2
      dsimp only
      rw [Coeff.normalizeGo_fuel n e1.csize e1 (by omega) (by omega),
          Coeff.normalizeGo_fuel n e2.csize e2 (by omega) (by omega)]

/-- `AffineExpr::simplify` from `affine_expr.rs`, translated arm by arm with
the same first-match order as the Rust `match` (including the four `Sub`
constant-floating arms exactly as written in the source; the comments in the
source describe different rewrites than the code performs). -/
def AffineExpr.simplify : AffineExpr → AffineExpr
  | .Const c => .Const c
  | .Var v => .Var v
  | .Add a b =>
    let e1 := a.simplify
    let e2 := b.simplify
    match e1, e2 with
    | .Const c1, .Const c2 => .Const (c1 + c2)
    | .Const 0, e => e
    | e, .Const 0 => e
    | .Const c1, .Add f1 f2 =>
      (match f1, f2 with
       | .Const c2, g2 => .Add (.Const (c1 + c2)) g2
       | g1, .Const c2 => .Add (.Const (c1 + c2)) g1
       | g1, g2 => .Add (.Const c1) (.Add g1 g2))
    | .Add f1 f2, .Const c1 =>
      (match f1, f2 with
       | .Const c2, g2 => .Add (.Const (c1 + c2)) g2
       | g1, .Const c2 => .Add (.Const (c1 + c2)) g1
       | g1, g2 => .Add (.Const c1) (.Add g1 g2))
    | .Const c1, .Sub f1 f2 =>
      (match f1, f2 with
       | .Const c2, g2 => .Add (.Const (c1 - c2)) g2
       | g1, .Const c2 => .Sub (.Const (c1 + c2)) g1
       | g1, g2 => .Add (.Const c1) (.Sub g1 g2))
    | .Sub f1 f2, .Const c =>
      (match f1, f2 with
       | .Const c1, g2 => .Add (.Const (c - c1)) g2
       | g1, .Const c1 => .Sub (.Const (c1 + c)) g1
       | g1, g2 => .Add (.Const c) (.Sub g1 g2))
    | e, .Const c => .Add (.Const c) e
    | f1, f2 => .Add f1 f2
  | .Sub a b => .Sub a b
  | .Mul coeff e => .Mul coeff.normalize e.simplify
  | .Div e coeff => .Div e.simplify coeff.normalize
  | .Mod e coeff => .Mod e.simplify coeff.normalize

/-! ## Evaluation (modelled from the spec)

Modelled from the spec: the repository has no evaluator for the sum-typed
`AffineExpr` under `src/` (only the abandoned `AffineExpression` in
`src/affine.rs` has one).  Section 4.1 of the spec defines evaluation of an
`AffineExpr` under a mapping `vars -> i32` as standard arithmetic with `/`
integer division and `%` integer modulo, `Coeff::ConstVar` resolved from the
same mapping, and failure (`UnboundVariable`) when a referenced name is
missing.  Division and modulo are modelled with `Int.tdiv`/`Int.tmod`,
which truncate toward zero exactly as Rust `i32` division and remainder do. -/

/-- Modelled from the spec: evaluation of a coefficient under a binding. -/
def Coeff.eval (env : String → Option Int) : Coeff → Option Int
  | .Const c => some c
  | .ConstVar v => env v
  | .Mul l r => do pure ((← l.eval env) * (← r.eval env))

/-- Modelled from the spec: evaluation of an affine expression under a
binding; `none` models the `UnboundVariable` failure. -/
def AffineExpr.eval (env : String → Option Int) : AffineExpr → Option Int
  | .Var v => env v
  | .Const c => some c
  | .Add l r => do pure ((← l.eval env) + (← r.eval env))
  | .Sub l r => do pure ((← l.eval env) - (← r.eval env))
  | .Mul c e => do pure ((← c.eval env) * (← e.eval env))
  | .Div e c => do pure (Int.tdiv (← e.eval env) (← c.eval env))
  | .Mod e c => do pure (Int.tmod (← e.eval env) (← c.eval env))

/-! ## The instruction IR (from `src/representations/instruction.rs`) -/

/-- `ConditionSuffix` from `instruction.rs`. -/
inductive ConditionSuffix : Type where
  | EQ | NE | LT | LE | GT | GE
deriving DecidableEq, Repr

/-- `Operand` from `instruction.rs`. -/
inductive Operand : Type where
  | Reg : String → Operand
  | Imm : Int → Operand
deriving DecidableEq, Repr

/-- `DataAccess` from `instruction.rs`. -/
structure DataAccess : Type where
  arrayName : String
  addr : List AffineExpr
  reg : String
  condSuffix : Option ConditionSuffix
  cond : Option String
deriving DecidableEq, Repr

/-- `Compute` from `instruction.rs`. -/
structure Compute : Type where
  op : String
  src : List Operand
  dst : String
  condSuffix : Option ConditionSuffix
  cond : Option String
deriving DecidableEq, Repr

/-- `Instruction` from `instruction.rs`. -/
inductive Instruction : Type where
  | DataLoad : DataAccess → Instruction
  | DataStore : DataAccess → Instruction
  | Compute : Compute → Instruction
deriving DecidableEq, Repr

/-! ## The loop IR (from `src/representations/loops.rs` and `mapping.rs`) -/

/-- `MappingType` from `src/representations/mapping.rs`. -/
inductive MappingType : Type where
  | Spatial : String → MappingType
  | TemporalTODO
  | InterTile
  | IntraTile
deriving DecidableEq, Repr

/-- `LoopIter` from `loops.rs`; bounds and step are Rust `i32`. -/
structure LoopIter : Type where
  iterName : String
  bounds : Int × Int
  step : Int
deriving DecidableEq, Repr

instance : Inhabited LoopIter := ⟨{ iterName := "", bounds := (0, 0), step := 1 }⟩

/-- `LoopProperties` from `loops.rs`; the `HashMap<String, MappingType>` is
modelled as an association list. -/
structure LoopProperties : Type where
  mapping : List (String × MappingType)
deriving DecidableEq, Repr

/-- `LoopNest` from `loops.rs`. -/
structure LoopNest : Type where
  iters : List LoopIter
  body : List Instruction
  properties : Option LoopProperties
deriving DecidableEq, Repr

/-! ## The transform algebra (from `src/representations/transforms.rs` and
`src/passes/transform_pass.rs`) -/

/-- `Transform` from `transforms.rs` (all five variants). -/
inductive Transform : Type where
  | MapSpatial : String → Transform
  | MapTemporal : String → Transform
  | Tiling : String × String × Int → Transform
  | Renaming : String × String → Transform
  | Reorder : String × String → Transform
deriving DecidableEq, Repr

/-- Failure modes of `Transforming::apply` in `transform_pass.rs`.  The Rust
implementation signals the first three by `panic!`/`unwrap`; they are modelled
as error values.  `noMatchArm` models the fact that several `match`
expressions in `transform_pass.rs` have no arm at all for the
`MapSpatial`/`MapTemporal` variants of `Transform` (the `match` statements
there are non-exhaustive over the five-variant `Transform` enum). -/
inductive TransError : Type where
  | tileOverCoeffVar : String → TransError
  | nonDivisibleTile : String → Int → Int → TransError
  | iterNotFound : String → TransError
  | noMatchArm : TransError
deriving DecidableEq, Repr

/-- `impl Transforming for Coeff` from `transform_pass.rs`, arm by arm.
The `(Coeff::Const(_), _)` and `(Coeff::Mul(..), _)` arms use a wildcard for
the transform; the `ConstVar` arms only cover `Tiling`, `Renaming` and
`Reorder`, so `ConstVar` paired with a mapping transform has no arm. -/
def Coeff.applyT (t : Transform) : Coeff → Except TransError Coeff
  | .Const c => pure (.Const c)
  | .ConstVar v =>
    match t with
    | .Tiling (old, _, _) =>
      if v = old then throw (.tileOverCoeffVar v) else pure (.ConstVar v)
    | .Renaming (oldIter, newIter) =>
      if v = oldIter then pure (.ConstVar newIter) else pure (.ConstVar v)
    | .Reorder _ => pure (.ConstVar v)
    | .MapSpatial _ => throw .noMatchArm
    | .MapTemporal _ => throw .noMatchArm
  | .Mul l r => do pure (.Mul (← l.applyT t) (← r.applyT t))

/-- `impl Transforming for AffineExpr` from `transform_pass.rs`, arm by arm.
As in the source, only the `Var` arms inspect the transform (and they have no
arm for the mapping transforms); all other arms are wildcards that recurse. -/
def AffineExpr.applyT (t : Transform) : AffineExpr → Except TransError AffineExpr
  | .Var v =>
    match t with
    | .Tiling (old, tnew, factor) =>
      if v = old then
        pure (.Add (.Mul (.Const factor) (.Var tnew)) (.Var v))
      else pure (.Var v)
    | .Renaming (oldIter, newIter) =>
      if v = oldIter then pure (.Var newIter) else pure (.Var v)
    | .Reorder _ => pure (.Var v)
    | .MapSpatial _ => throw .noMatchArm
    | .MapTemporal _ => throw .noMatchArm
  | .Const c => pure (.Const c)
  | .Add l r => do pure (.Add (← l.applyT t) (← r.applyT t))
  | .Sub l r => do pure (.Sub (← l.applyT t) (← r.applyT t))
  | .Mul c e => do pure (.Mul (← c.applyT t) (← e.applyT t))
  | .Div e c => do pure (.Div (← e.applyT t) (← c.applyT t))
  | .Mod e c => do pure (.Mod (← e.applyT t) (← c.applyT t))

/-- The address-rewriting loop of `impl Transforming for DataAccess` from
`transform_pass.rs`: an address index that is exactly `Var(old)` under a
`Tiling` transform is kept unchanged and followed by a fresh index
`Var(new)`; every other index is rewritten by `AffineExpr::apply`. -/
def tileAddr (t : Transform) : List AffineExpr → Except TransError (List AffineExpr)
  | [] => pure []
  | idx :: rest =>
    match t, idx with
    | .Tiling (old, tnew, _), .Var v =>
      if v = old then do
        pure (.Var v :: .Var tnew :: (← tileAddr t rest))
      else do
        pure ((← AffineExpr.applyT t (.Var v)) :: (← tileAddr t rest))
    | _, _ => do pure ((← idx.applyT t) :: (← tileAddr t rest))

/-- `impl Transforming for DataAccess` from `transform_pass.rs`. -/
def DataAccess.applyT (t : Transform) (da : DataAccess) : Except TransError DataAccess := do
  pure { da with addr := ← tileAddr t da.addr }

/-- `impl Transforming for Compute` from `transform_pass.rs`: the identity. -/
def Compute.applyT (_ : Transform) (c : Compute) : Except TransError Compute :=
  pure c

/-- `impl Transforming for Instruction` from `transform_pass.rs`. -/
def Instruction.applyT (t : Transform) : Instruction → Except TransError Instruction
  | .DataLoad da => do pure (.DataLoad (← da.applyT t))
  | .DataStore da => do pure (.DataStore (← da.applyT t))
  | .Compute c => do pure (.Compute (← c.applyT t))

/-- `impl Transforming for LoopIter` from `transform_pass.rs`.  The source
matches only `Tiling`, `Renaming` and `Reorder`; there is no arm for the
mapping transforms.  The non-divisibility `panic!` is the error value. -/
def LoopIter.applyT (t : Transform) (it : LoopIter) : Except TransError LoopIter :=
  match t with
  | .Tiling (old, _, factor) =>
    if it.iterName = old then
      if Int.tmod it.bounds.2 factor ≠ 0 then
        throw (.nonDivisibleTile it.iterName it.bounds.2 factor)
      else
        pure { iterName := old, bounds := (it.bounds.1, Int.tdiv it.bounds.2 factor),
               step := it.step }
    else pure it
  | .Renaming (oldIter, newIter) =>
    if it.iterName = oldIter then
      pure { iterName := newIter, bounds := it.bounds, step := it.step }
    else pure it
  | .Reorder _ => pure it
  | .MapSpatial _ => throw .noMatchArm
  | .MapTemporal _ => throw .noMatchArm

/-- `impl Transforming for LoopProperties` from `transform_pass.rs`: the
source unconditionally returns `self.clone()` (the arms that would update the
mapping are commented out). -/
def LoopProperties.applyT (_ : Transform) (p : LoopProperties) : LoopProperties := p

/-- List.mapM specialised to Except, preserving the source iteration order
(the first failing element short-circuits, as a Rust panic would). -/
def mapExcept {α β ε : Type} (f : α → Except ε β) : List α → Except ε (List β)
  | [] => pure []
  | x :: xs => do pure ((← f x) :: (← mapExcept f xs))

/-- `impl Transforming for LoopNest` from `transform_pass.rs`.  The source
match covers only `Tiling`, `Reorder` and `Renaming`; the mapping transforms
have no arm.  For `Tiling`, the iterators are transformed first (surfacing a
`NonDivisibleTile` panic), then the body, then the new inner iterator is
built from the original iterator found by name (`unwrap` panics when the
iterator is absent) and inserted immediately after the outer iterator. -/
def LoopNest.applyT (t : Transform) (nest : LoopNest) : Except TransError LoopNest :=
  match t with
  | .Tiling (old, tnew, factor) => do
    let newIters ← mapExcept (LoopIter.applyT t) nest.iters
    let newBody ← mapExcept (Instruction.applyT t) nest.body
    let newProperties := nest.properties.map (LoopProperties.applyT t)
    let oldIter ←
      match nest.iters.find? (fun it => it.iterName = old) with
      | some it => pure it
      | none => throw (.iterNotFound old)
    let newIter : LoopIter := { iterName := tnew, bounds := (0, factor), step := oldIter.step }
    let idx ←
      match newIters.findIdx? (fun it => it.iterName = old) with
      | some i => pure i
      | none => throw (.iterNotFound old)
    pure { iters := newIters.take (idx + 1) ++ newIter :: newIters.drop (idx + 1),
           body := newBody, properties := newProperties }
  | .Reorder (iter1, iter2) => do
    let newIters ← mapExcept (LoopIter.applyT t) nest.iters
    let newBody ← mapExcept (Instruction.applyT t) nest.body
    let newProperties := nest.properties.map (LoopProperties.applyT t)
    let idx1 ←
      match newIters.findIdx? (fun it => it.iterName = iter1) with
      | some i => pure i
      | none => throw (.iterNotFound iter1)
    let idx2 ←
      match newIters.findIdx? (fun it => it.iterName = iter2) with
      | some i => pure i
      | none => throw (.iterNotFound iter2)
    pure { iters := (newIters.set idx1 (newIters.getD idx2 default)).set idx2
             (newIters.getD idx1 default),
           body := newBody, properties := newProperties }
  | .Renaming _ => do
    let newIters ← mapExcept (LoopIter.applyT t) nest.iters
    let newBody ← mapExcept (Instruction.applyT t) nest.body
    let newProperties := nest.properties.map (LoopProperties.applyT t)
    pure { iters := newIters, body := newBody, properties := newProperties }
  | .MapSpatial _ => throw .noMatchArm
  | .MapTemporal _ => throw .noMatchArm

/-! ## Tiling as substitution: relating the source to the spec formula -/

/-- Whether `old` occurs as a `ConstVar` inside a coefficient. -/
def Coeff.usesCV (old : String) : Coeff → Bool
  | .Const _ => false
  | .ConstVar v => v = old
  | .Mul l r => l.usesCV old || r.usesCV old

/-- Whether `old` occurs as a `ConstVar` coefficient anywhere in an
expression (the condition under which the source tiling panics with
`TileOverCoeffVar`). -/
def AffineExpr.usesCV (old : String) : AffineExpr → Bool
  | .Var _ => false
  | .Const _ => false
  | .Add l r => l.usesCV old || r.usesCV old
  | .Sub l r => l.usesCV old || r.usesCV old
  | .Mul c e => c.usesCV old || e.usesCV old
  | .Div e c => e.usesCV old || c.usesCV old
  | .Mod e c => e.usesCV old || c.usesCV old

/-- Modelled from the spec sentence for claim C1 (refinement reference):
rewrite each occurrence of `Var(old)` in an address expression to
`Add(Mul(Const(factor), Var(new)), Var(old))`, leaving everything else
(including coefficients) unchanged. -/
def specTileRewrite (old tnew : String) (factor : Int) : AffineExpr → AffineExpr
  | .Var v =>
    if v = old then .Add (.Mul (.Const factor) (.Var tnew)) (.Var v) else .Var v
  | .Const c => .Const c
  | .Add l r => .Add (specTileRewrite old tnew factor l) (specTileRewrite old tnew factor r)
  | .Sub l r => .Sub (specTileRewrite old tnew factor l) (specTileRewrite old tnew factor r)
  | .Mul c e => .Mul c (specTileRewrite old tnew factor e)
  | .Div e c => .Div (specTileRewrite old tnew factor e) c
  | .Mod e c => .Mod (specTileRewrite old tnew factor e) c

theorem Coeff.applyT_tiling_id (old tnew : String) (factor : Int) (c : Coeff)
    (h : c.usesCV old = false) :
    c.applyT (.Tiling (old, tnew, factor)) = pure c := by
  induction c with
  | Const v => rfl
  | ConstVar v =>
    simp [Coeff.usesCV] at h
    simp [Coeff.applyT, h]
  | Mul l r ihl ihr =>
    simp [Coeff.usesCV] at h
    simp [Coeff.applyT, ihl h.1, ihr h.2]

/-- On expressions that do not use `old` as a coefficient variable, the
source `AffineExpr::apply` for `Tiling` computes exactly the substitution
described by the spec. -/
theorem AffineExpr.applyT_tiling_spec (old tnew : String) (factor : Int)
    (e : AffineExpr) (h : e.usesCV old = false) :
    e.applyT (.Tiling (old, tnew, factor)) = pure (specTileRewrite old tnew factor e) := by
  induction e with
  | Var v =>
    by_cases hv : v = old <;> simp [AffineExpr.applyT, specTileRewrite, hv]
  | Const c => rfl
  | Add l r ihl ihr =>
    simp [AffineExpr.usesCV] at h
    simp [AffineExpr.applyT, ihl h.1, ihr h.2, specTileRewrite]
  | Sub l r ihl ihr =>
    simp [AffineExpr.usesCV] at h
    simp [AffineExpr.applyT, ihl h.1, ihr h.2, specTileRewrite]
  | Mul c e ih =>
    simp [AffineExpr.usesCV] at h
    simp [AffineExpr.applyT, Coeff.applyT_tiling_id old tnew factor c h.1, ih h.2,
      specTileRewrite]
  | Div e c ih =>
    simp [AffineExpr.usesCV] at h
    simp [AffineExpr.applyT, Coeff.applyT_tiling_id old tnew factor c h.2, ih h.1,
      specTileRewrite]
  | Mod e c ih =>
    simp [AffineExpr.usesCV] at h
    simp [AffineExpr.applyT, Coeff.applyT_tiling_id old tnew factor c h.2, ih h.1,
      specTileRewrite]

/-- The address loop of `DataAccess::apply` under `Tiling`: a bare `Var(old)`
index is kept and followed by the fresh `Var(new)` index; every other index
is rewritten by the spec substitution. -/
theorem tileAddr_spec (old tnew : String) (factor : Int) (addr : List AffineExpr)
    (h : ∀ e ∈ addr, e.usesCV old = false) :
    tileAddr (.Tiling (old, tnew, factor)) addr =
      pure (addr.flatMap fun idx =>
        if idx = .Var old then [.Var old, .Var tnew]
        else [specTileRewrite old tnew factor idx]) := by
  induction addr with
  | nil => rfl
  | cons idx rest ih =>
    have hidx : idx.usesCV old = false := h idx (by simp)
    have hrest : ∀ e ∈ rest, e.usesCV old = false := fun e he => h e (by simp [he])
    rw [List.flatMap_cons]
    cases idx with
    | Var v =>
      by_cases hv : v = old
      · subst hv
        simp [tileAddr, ih hrest]
      · have : (AffineExpr.Var v ≠ AffineExpr.Var old) := by simp [hv]
        simp [tileAddr, hv, ih hrest, this, AffineExpr.applyT, specTileRewrite]
    | Const c =>
      simp [tileAddr, ih hrest, AffineExpr.applyT_tiling_spec old tnew factor _ hidx]
    | Add l r =>
      simp [tileAddr, ih hrest, AffineExpr.applyT_tiling_spec old tnew factor _ hidx]
    | Sub l r =>
      simp [tileAddr, ih hrest, AffineExpr.applyT_tiling_spec old tnew factor _ hidx]
    | Mul c e =>
      simp [tileAddr, ih hrest, AffineExpr.applyT_tiling_spec old tnew factor _ hidx]
    | Div e c =>
      simp [tileAddr, ih hrest, AffineExpr.applyT_tiling_spec old tnew factor _ hidx]
    | Mod e c =>
      simp [tileAddr, ih hrest, AffineExpr.applyT_tiling_spec old tnew factor _ hidx]

/-! ## Claim C1: tiling of address expressions -/

/-- C1, counterexample.  The claim states that `Tiling(old, new, factor)`
rewrites each occurrence of `Var(old)` in every address expression to
`Add(Mul(Const(factor), Var(new)), Var(old))`, and in particular that tiling
the nest `for n in (0..200)` with body `Rb <= B[n]` by `Tiling(n, simd, 4)`
yields the body `Rb <= B[4*simd + n]`.  On the source, an address index that
is exactly `Var(n)` is instead kept unchanged and followed by a fresh
separate index `Var(simd)`: the body becomes `Rb <= B[n][simd]`, which is
not the claimed body. -/
theorem C1_counterexample :
    LoopNest.applyT (.Tiling ("n", "simd", 4))
      { iters := [{ iterName := "n", bounds := (0, 200), step := 1 }],
        body := [.DataLoad { arrayName := "B", addr := [.Var "n"], reg := "Rb",
                             condSuffix := none, cond := none }],
        properties := none } =
      .ok { iters := [{ iterName := "n", bounds := (0, 50), step := 1 },
                      { iterName := "simd", bounds := (0, 4), step := 1 }],
            body := [.DataLoad { arrayName := "B",
                                 addr := [.Var "n", .Var "simd"], reg := "Rb",
                                 condSuffix := none, cond := none }],
            properties := none } ∧
    [AffineExpr.Var "n", AffineExpr.Var "simd"] ≠
      [AffineExpr.Add (.Mul (.Const 4) (.Var "simd")) (.Var "n")] :=
  ⟨rfl, by decide⟩

/-- C1, amended.  Applying `Tiling(old, new, factor)` to a `DataAccess`
(whose address expressions do not use `old` as a `ConstVar` coefficient)
rewrites the address list index-wise: an index that is exactly `Var(old)` is
kept as `Var(old)` followed by a new separate index `Var(new)`, while every
other index has each occurrence of `Var(old)` rewritten to
`Add(Mul(Const(factor), Var(new)), Var(old))` (the substitution
`specTileRewrite` stated by the spec); in particular the example nest body
`Rb <= B[n]` becomes `Rb <= B[n][simd]` under `Tiling(n, simd, 4)`. -/
theorem C1_tiling_amended :
    (∀ (old tnew : String) (factor : Int) (da : DataAccess),
      (∀ e ∈ da.addr, e.usesCV old = false) →
      DataAccess.applyT (.Tiling (old, tnew, factor)) da =
        .ok { da with addr := da.addr.flatMap fun idx =>
                if idx = .Var old then [.Var old, .Var tnew]
                else [specTileRewrite old tnew factor idx] }) ∧
    LoopNest.applyT (.Tiling ("n", "simd", 4))
      { iters := [{ iterName := "n", bounds := (0, 200), step := 1 }],
        body := [.DataLoad { arrayName := "B", addr := [.Var "n"], reg := "Rb",
                             condSuffix := none, cond := none }],
        properties := none } =
      .ok { iters := [{ iterName := "n", bounds := (0, 50), step := 1 },
                      { iterName := "simd", bounds := (0, 4), step := 1 }],
            body := [.DataLoad { arrayName := "B",
                                 addr := [.Var "n", .Var "simd"], reg := "Rb",
                                 condSuffix := none, cond := none }],
            properties := none } := by
  constructor
  · intro old tnew factor da h
    simp [DataAccess.applyT, tileAddr_spec old tnew factor da.addr h]
    rfl
  · rfl

/-- C1, witness for `C1_tiling_amended`: the general address rewrite applied
to a concrete access `B[n][n + 1]` under `Tiling(n, simd, 4)`. -/
theorem C1_witness :
    (∀ e ∈ [AffineExpr.Var "n", AffineExpr.Add (.Var "n") (.Const 1)],
       e.usesCV "n" = false) ∧
    DataAccess.applyT (.Tiling ("n", "simd", 4))
      { arrayName := "B", addr := [.Var "n", .Add (.Var "n") (.Const 1)],
        reg := "Rb", condSuffix := none, cond := none } =
      .ok { arrayName := "B",
            addr := [AffineExpr.Var "n", AffineExpr.Add (.Var "n") (.Const 1)].flatMap
              fun idx =>
                if idx = .Var "n" then [.Var "n", .Var "simd"]
                else [specTileRewrite "n" "simd" 4 idx],
            reg := "Rb", condSuffix := none, cond := none } :=
  ⟨by decide, C1_tiling_amended.1 "n" "simd" 4
    { arrayName := "B", addr := [.Var "n", .Add (.Var "n") (.Const 1)],
      reg := "Rb", condSuffix := none, cond := none } (by decide)⟩

/-! ## Claim C2: MapSpatial / MapTemporal -/

/-- C2.  The claim states that applying `MapSpatial(iter)` sets the nest
property mapping entry for `iter` to `Spatial(iter)` and `MapTemporal(iter)`
sets it to `Temporal`, leaving other entries unchanged.  In the source,
`LoopNest::apply` (and `LoopIter::apply`, and the `ConstVar`/`Var` arms of
`Coeff::apply`/`AffineExpr::apply`) match only `Tiling`, `Renaming` and
`Reorder` — there is no arm at all for the mapping transforms — and
`LoopProperties::apply` unconditionally returns `self` unchanged, so no
mapping entry is ever written.  This theorem evaluates the code at the
failing input: applying `MapSpatial n`/`MapTemporal n` to a nest whose
properties hold an empty mapping falls into the missing match arm, and
`LoopProperties::apply` is the identity for every transform. -/
theorem C2_mapping_not_updated :
    LoopNest.applyT (.MapSpatial "n")
      { iters := [{ iterName := "n", bounds := (0, 8), step := 1 }],
        body := [], properties := some { mapping := [] } } = .error .noMatchArm ∧
    LoopNest.applyT (.MapTemporal "n")
      { iters := [{ iterName := "n", bounds := (0, 8), step := 1 }],
        body := [], properties := some { mapping := [] } } = .error .noMatchArm ∧
    (∀ (t : Transform) (p : LoopProperties), LoopProperties.applyT t p = p) :=
  ⟨rfl, rfl, fun _ _ => rfl⟩

/-! ## Claim C3: value preservation of simplification -/

/-- C3.  The claim states that `AffineExpr::simplify` preserves evaluation
under every binding that covers all variables.  It does not: on
`e = 1 + (2 - x)` the source arm for `Add(Const, Sub(..))` (whose own
comments describe the rewrites `Add(c1, Sub(e, c2)) = Add(c1 - c2, e)` and
`Add(c1, Sub(c2, e)) = Sub(c1 + c2, e)`) matches the two inner patterns in
the wrong order and rewrites the expression to `-1 + x`; under the binding
`x = 0` the original evaluates to `3` and the simplified form to `-1`. -/
theorem C3_simplify_not_value_preserving :
    AffineExpr.simplify (.Add (.Const 1) (.Sub (.Const 2) (.Var "x"))) =
      .Add (.Const (-1)) (.Var "x") ∧
    AffineExpr.eval (fun v => if v = "x" then some 0 else none)
      (.Add (.Const 1) (.Sub (.Const 2) (.Var "x"))) = some 3 ∧
    AffineExpr.eval (fun v => if v = "x" then some 0 else none)
      (AffineExpr.simplify (.Add (.Const 1) (.Sub (.Const 2) (.Var "x")))) =
      some (-1) :=
  ⟨by decide, by decide, by decide⟩

/-! ## Claim C4: Coeff::normalize canonical form -/

/-- C4.  The claim states that `Coeff::normalize` preserves the denoted value
and returns a canonical form in which, in every multiplication with exactly
one constant factor, the constant is the left child.  The value is indeed
preserved on the input below, but the source arm
`(Coeff::Const(_), _) => Coeff::Mul(e2, e1)` swaps a constant *onto the
right*: `normalize(Mul(Const 2, ConstVar M_a)) = Mul(ConstVar M_a, Const 2)`
— the constant ends up as the right child, contradicting the doc comment of
`normalize` ("always putting the constant on the left"). -/
theorem C4_normalize_constant_on_right :
    Coeff.normalize (.Mul (.Const 2) (.ConstVar "M_a")) =
      .Mul (.ConstVar "M_a") (.Const 2) ∧
    Coeff.eval (fun v => if v = "M_a" then some 5 else none)
      (.Mul (.Const 2) (.ConstVar "M_a")) = some 10 ∧
    Coeff.eval (fun v => if v = "M_a" then some 5 else none)
      (Coeff.normalize (.Mul (.Const 2) (.ConstVar "M_a"))) = some 10 ∧
    Coeff.normalize (.Mul (.Const 2) (.ConstVar "M_a")) ≠
      .Mul (.Const 2) (.ConstVar "M_a") :=
  ⟨by decide, by decide, by decide, by decide⟩

/-! ## Claim C8: tiling of the iterator list -/

theorem mapExcept_pure {α ε : Type} (f : α → Except ε α) (xs : List α)
    (h : ∀ x ∈ xs, f x = pure x) : mapExcept f xs = pure xs := by
  induction xs with
  | nil => rfl
  | cons x xs ih =>
    have hx := h x (by simp)
    have hxs := ih (fun y hy => h y (by simp [hy]))
    simp [mapExcept, hx, hxs]

theorem mapExcept_split_ok {α ε : Type} (f : α → Except ε α) (pre post : List α)
    (a a2 : α) (hpre : ∀ x ∈ pre, f x = pure x) (ha : f a = pure a2)
    (hpost : ∀ x ∈ post, f x = pure x) :
    mapExcept f (pre ++ a :: post) = pure (pre ++ a2 :: post) := by
  induction pre with
  | nil =>
    simp [mapExcept, ha, mapExcept_pure f post hpost]
  | cons p pre ih =>
    have hp := hpre p (by simp)
    have hpre2 := ih (fun y hy => hpre y (by simp [hy]))
    simp [mapExcept, hp, hpre2]

theorem mapExcept_split_err {α ε : Type} (f : α → Except ε α) (pre : List α)
    (post : List α) (a : α) (err : ε) (hpre : ∀ x ∈ pre, f x = pure x)
    (ha : f a = .error err) :
    mapExcept f (pre ++ a :: post) = .error err := by
  induction pre with
  | nil => simp [mapExcept, ha]; rfl
  | cons p pre ih =>
    have hp := hpre p (by simp)
    have hpre2 := ih (fun y hy => hpre y (by simp [hy]))
    simp [mapExcept, hp, hpre2]

theorem find?_split {α : Type} (p : α → Bool) (pre post : List α) (a : α)
    (hpre : ∀ x ∈ pre, p x = false) (ha : p a = true) :
    (pre ++ a :: post).find? p = some a := by
  induction pre with
  | nil => simp [List.find?, ha]
  | cons x pre ih =>
    have hx := hpre x (by simp)
    have := ih (fun y hy => hpre y (by simp [hy]))
    simp [List.find?, hx, this]

theorem findIdx?_split {α : Type} (p : α → Bool) (pre post : List α) (a : α)
    (hpre : ∀ x ∈ pre, p x = false) (ha : p a = true) :
    (pre ++ a :: post).findIdx? p = some pre.length := by
  induction pre with
  | nil => simp [List.findIdx?_cons, ha]
  | cons x pre ih =>
    have hx := hpre x (by simp)
    have := ih (fun y hy => hpre y (by simp [hy]))
    simp [List.findIdx?_cons, hx, this]

theorem take_split {α : Type} (pre post : List α) (a : α) :
    (pre ++ a :: post).take (pre.length + 1) = pre ++ [a] := by
  induction pre with
  | nil => simp
  | cons x pre ih => simp [ih]

theorem drop_split {α : Type} (pre post : List α) (a : α) :
    (pre ++ a :: post).drop (pre.length + 1) = post := by
  induction pre with
  | nil => simp
  | cons x pre ih => simp [ih]

theorem LoopIter.applyT_tiling_other (old tnew : String) (factor : Int)
    (it : LoopIter) (h : it.iterName ≠ old) :
    it.applyT (.Tiling (old, tnew, factor)) = pure it := by
  simp [LoopIter.applyT, h]

/-- Definitional reduction lemmas for the `Except` monad operations used by
the transform embedding. -/
theorem exceptBind_ok {ε α β : Type} (a : α) (f : α → Except ε β) :
    (Except.ok a : Except ε α) >>= f = f a := rfl

theorem exceptBind_err {ε α β : Type} (e : ε) (f : α → Except ε β) :
    (Except.error e : Except ε α) >>= f = .error e := rfl

theorem exceptPure_eq {ε α : Type} (a : α) : (pure a : Except ε α) = .ok a := rfl

theorem exceptThrow_eq {ε α : Type} (e : ε) : (throw e : Except ε α) = .error e := rfl

/-- C8.  For a loop nest whose iterator list is `pre ++ [old ↦ (lo,hi), step] ++
post` with `old` not occurring in `pre` or `post`: if `factor` divides `hi`
(and the body transforms to `body2`), `Tiling(old, new, factor)` produces an
outer iterator still named `old` with bounds `(lo, hi/factor)` followed
immediately by a new inner iterator `new` with bounds `(0, factor)` and the
same step, with `pre`, `post`, the transformed body and the properties
otherwise unchanged; and if `hi % factor ≠ 0` the transform fails with
`NonDivisibleTile{old, hi, factor}`. -/
theorem C8_tiling_iters (old tnew : String) (factor lo hi st : Int)
    (pre post : List LoopIter) (body body2 : List Instruction)
    (props : Option LoopProperties)
    (hpre : ∀ it ∈ pre, it.iterName ≠ old)
    (hpost : ∀ it ∈ post, it.iterName ≠ old) :
    (Int.tmod hi factor = 0 →
      mapExcept (Instruction.applyT (.Tiling (old, tnew, factor))) body = .ok body2 →
      LoopNest.applyT (.Tiling (old, tnew, factor))
        { iters := pre ++ { iterName := old, bounds := (lo, hi), step := st } :: post,
          body := body, properties := props } =
      .ok { iters := pre ++
              { iterName := old, bounds := (lo, Int.tdiv hi factor), step := st } ::
              { iterName := tnew, bounds := (0, factor), step := st } :: post,
            body := body2, properties := props }) ∧
    (Int.tmod hi factor ≠ 0 →
      LoopNest.applyT (.Tiling (old, tnew, factor))
        { iters := pre ++ { iterName := old, bounds := (lo, hi), step := st } :: post,
          body := body, properties := props } =
      .error (.nonDivisibleTile old hi factor)) := by
  constructor
  · intro hdvd hbody
    have hmap : mapExcept (LoopIter.applyT (.Tiling (old, tnew, factor)))
        (pre ++ { iterName := old, bounds := (lo, hi), step := st } :: post) =
        pure (pre ++ { iterName := old, bounds := (lo, Int.tdiv hi factor), step := st }
          :: post) := by
      apply mapExcept_split_ok
      · exact fun it hit => LoopIter.applyT_tiling_other old tnew factor it (hpre it hit)
      · simp [LoopIter.applyT, hdvd]
      · exact fun it hit => LoopIter.applyT_tiling_other old tnew factor it (hpost it hit)
    have hfind : (pre ++ { iterName := old, bounds := (lo, hi), step := st } :: post).find?
        (fun it => it.iterName = old) = some { iterName := old, bounds := (lo, hi), step := st } := by
      apply find?_split
      · intro x hx
        simp [hpre x hx]
      · simp
    have hidx : (pre ++ { iterName := old, bounds := (lo, Int.tdiv hi factor), step := st }
        :: post).findIdx? (fun it => it.iterName = old) = some pre.length := by
      apply findIdx?_split
      · intro x hx
        simp [hpre x hx]
      · simp
    simp only [LoopNest.applyT, hmap, hbody, hfind, hidx, exceptPure_eq,
      exceptBind_ok]
    rw [take_split, drop_split]
    cases props <;> simp [LoopProperties.applyT]
  · intro hndvd
    have hmap : mapExcept (LoopIter.applyT (.Tiling (old, tnew, factor)))
        (pre ++ { iterName := old, bounds := (lo, hi), step := st } :: post) =
        .error (.nonDivisibleTile old hi factor) := by
      apply mapExcept_split_err
      · exact fun it hit => LoopIter.applyT_tiling_other old tnew factor it (hpre it hit)
      · simp [LoopIter.applyT, hndvd, exceptThrow_eq]
    simp only [LoopNest.applyT, hmap, exceptBind_err]

/-- C8, witness: tiling `for n in (0..200)` with body `Rb <= B[n]` by 4
succeeds producing `n in (0..50)` followed by `simd in (0..4)`, and tiling
the same nest by 3 fails with `NonDivisibleTile{n, 200, 3}`. -/
theorem C8_witness :
    (Int.tmod 200 4 = 0 ∧
     LoopNest.applyT (.Tiling ("n", "simd", 4))
       { iters := [{ iterName := "n", bounds := (0, 200), step := 1 }],
         body := [.DataLoad { arrayName := "B", addr := [.Var "n"], reg := "Rb",
                              condSuffix := none, cond := none }],
         properties := none } =
     .ok { iters := [{ iterName := "n", bounds := (0, Int.tdiv 200 4), step := 1 },
                     { iterName := "simd", bounds := (0, 4), step := 1 }],
           body := [.DataLoad { arrayName := "B", addr := [.Var "n", .Var "simd"],
                                reg := "Rb", condSuffix := none, cond := none }],
           properties := none }) ∧
    (Int.tmod 200 3 ≠ 0 ∧
     LoopNest.applyT (.Tiling ("n", "simd", 3))
       { iters := [{ iterName := "n", bounds := (0, 200), step := 1 }],
         body := [.DataLoad { arrayName := "B", addr := [.Var "n"], reg := "Rb",
                              condSuffix := none, cond := none }],
         properties := none } =
     .error (.nonDivisibleTile "n" 200 3)) :=
  ⟨⟨by decide,
    (C8_tiling_iters "n" "simd" 4 0 200 1 [] []
      [.DataLoad { arrayName := "B", addr := [.Var "n"], reg := "Rb",
                   condSuffix := none, cond := none }]
      [.DataLoad { arrayName := "B", addr := [.Var "n", .Var "simd"], reg := "Rb",
                   condSuffix := none, cond := none }]
      none (by simp) (by simp)).1 (by decide) rfl⟩,
   ⟨by decide,
    (C8_tiling_iters "n" "simd" 3 0 200 1 [] []
      [.DataLoad { arrayName := "B", addr := [.Var "n"], reg := "Rb",
                   condSuffix := none, cond := none }]
      [] none (by simp) (by simp)).2 (by decide)⟩⟩

/-! ## Workspace, passes and pipeline (from `src/passes/`) -/

/-- `Arch` is an external collaborator; its content is irrelevant to the
claims, so it is modelled as an opaque one-point type. -/
inductive Arch : Type where
  | mk0
deriving DecidableEq, Repr

/-- Instruction-level properties produced by the concrete passes:
`MemAccessProp { accessed_dims }` from `mem_access_analysis.rs` and
`FreeDimProp { free_dims }` from `free_dim_analysis.rs`. -/
inductive InstProp : Type where
  | memAccess : List String → InstProp
  | freeDim : List String → InstProp
deriving DecidableEq, Repr

/-- Iterator-level properties are opaque `Box<dyn IterProperty>` values; no
concrete iterator pass exists in the sources, so the payload is opaque. -/
abbrev IterProp : Type := String

/-- Loop-level properties: `ArchInfo` from `arch_info.rs`. -/
inductive LoopProp : Type where
  | archInfo : Arch → LoopProp
deriving DecidableEq, Repr

/-- `Feature` (the `feature` module is referenced by `workspace.rs` but absent
from `src/`; `feature_available_str` compares its `name` field). -/
structure Feature : Type where
  name : String
deriving DecidableEq, Repr

/-- `Workspace` from `src/passes/workspace.rs`. -/
structure Workspace : Type where
  iterProperties : List (List IterProp)
  instProperties : List (List InstProp)
  loopProperties : List LoopProp
  workspaceProperties : List String
  loopNest : LoopNest
  arch : Option Arch
  availableFeatures : List Feature
deriving DecidableEq, Repr

/-- `Workspace::new`: one empty property list per iterator and per
instruction, no properties, no features. -/
def Workspace.new (nest : LoopNest) (arch : Option Arch) : Workspace :=
  { iterProperties := List.replicate nest.iters.length [],
    instProperties := List.replicate nest.body.length [],
    loopProperties := [], workspaceProperties := [],
    loopNest := nest, arch := arch, availableFeatures := [] }

/-- `Workspace::add_iter_property`: pushes at `index` only when
`index < iter_properties.len()`; otherwise nothing happens. -/
def Workspace.addIterProperty (ws : Workspace) (index : Nat) (p : IterProp) : Workspace :=
  if index < ws.iterProperties.length then
    { ws with iterProperties :=
        ws.iterProperties.set index (ws.iterProperties.getD index [] ++ [p]) }
  else ws

/-- `Workspace::add_inst_property`: pushes at `index` only when
`index < inst_properties.len()`; otherwise nothing happens. -/
def Workspace.addInstProperty (ws : Workspace) (index : Nat) (p : InstProp) : Workspace :=
  if index < ws.instProperties.length then
    { ws with instProperties :=
        ws.instProperties.set index (ws.instProperties.getD index [] ++ [p]) }
  else ws

/-- `Workspace::add_loop_property`. -/
def Workspace.addLoopProperty (ws : Workspace) (p : LoopProp) : Workspace :=
  { ws with loopProperties := ws.loopProperties ++ [p] }

/-- `Workspace::feature_available_str`. -/
def Workspace.featureAvailableStr (ws : Workspace) (s : String) : Bool :=
  ws.availableFeatures.any (fun f => f.name = s)

/-- `MemAccessAnalysis::get_accesses_from_affine_expr` from
`mem_access_analysis.rs` (the identical private copy in
`free_dim_analysis.rs` is the same function): the structural walk that
flat-maps variable names, preserving duplicates; `Var` contributes its name,
`Const` contributes nothing, `Mul`/`Div`/`Mod` descend only into their
expression child. -/
def getAccessesFromAffineExpr : AffineExpr → List String
  | .Var v => [v]
  | .Const _ => []
  | .Add l r => getAccessesFromAffineExpr l ++ getAccessesFromAffineExpr r
  | .Sub l r => getAccessesFromAffineExpr l ++ getAccessesFromAffineExpr r
  | .Mul _ e => getAccessesFromAffineExpr e
  | .Div e _ => getAccessesFromAffineExpr e
  | .Mod e _ => getAccessesFromAffineExpr e

/-- `MemAccessAnalysis::analyze_inst` from `mem_access_analysis.rs`:
loads and stores get one `MemAccessProp` with the flat-mapped dims of all
address expressions; everything else (`Compute`) yields no property. -/
def memAccessAnalyzeInst : Instruction → List InstProp
  | .DataLoad da => [.memAccess (da.addr.flatMap getAccessesFromAffineExpr)]
  | .DataStore da => [.memAccess (da.addr.flatMap getAccessesFromAffineExpr)]
  | .Compute _ => []

/-- The `run` generated by `#[derive(InstPass)]` (`pass_derive/src/lib.rs`):
for each instruction of the nest body in order, every property returned by
`analyze_inst` is appended to that instruction's property list
(`add_inst_property_for` resolves the instruction to its own body index by
pointer equality, modelled here by iterating with the index). -/
def instPassRun (analyze : Instruction → List InstProp) (ws : Workspace) : Workspace :=
  ws.loopNest.body.enum.foldl
    (fun w (p : Nat × Instruction) =>
      (analyze p.2).foldl (fun w2 prop => w2.addInstProperty p.1 prop) w)
    ws

/-- `FreeDimAnalysis`'s hand-written `PassRun::run` from
`free_dim_analysis.rs`: for every instruction, the iterator names of the
nest that do not occur among the accessed dims are attached as a
`FreeDimProp`. -/
def freeDimRun (ws : Workspace) : Workspace :=
  let iterNames := ws.loopNest.iters.map LoopIter.iterName
  ws.loopNest.body.enum.foldl
    (fun w (p : Nat × Instruction) =>
      let accessedDims : List String :=
        match p.2 with
        | .DataLoad da => da.addr.flatMap getAccessesFromAffineExpr
        | .DataStore da => da.addr.flatMap getAccessesFromAffineExpr
        | .Compute _ => []
      let freeDims := iterNames.filter (fun d => ¬ accessedDims.contains d)
      w.addInstProperty p.1 (.freeDim freeDims))
    ws

/-- A pass as seen by `PassPipeline::run`: `PassInfo` metadata plus a `run`
mutator (`Box<dyn Pass>` in the source). -/
structure PassM : Type where
  name : String
  requiredFeatures : List String
  producedFeatures : List String
  run : Workspace → Except String Workspace

/-- `PassPipeline::run` from `pass_pipeline.rs`: for each registered pass in
order, return an error on the first required feature that is not available,
otherwise run the pass and propagate its error; nothing else is done — in
particular `produced_features` is never consulted and `available_features`
is never modified by the pipeline itself. -/
def pipelineRun : List PassM → Workspace → Except String Workspace
  | [], ws => .ok ws
  | p :: ps, ws =>
    match p.requiredFeatures.find? (fun f => ¬ ws.featureAvailableStr f) with
    | some missing =>
      .error ("Required property " ++ missing ++ " for pass " ++ p.name ++ " not found")
    | none =>
      match p.run ws with
      | .error e => .error e
      | .ok ws2 => pipelineRun ps ws2

/-- The concrete passes of the repository, as registrable pipeline passes. -/
inductive RepoPass : Type where
  | memAccess
  | freeDim
  | archInfoBuilder : Arch → RepoPass

/-- Metadata and `run` of each concrete pass, from their `PassInfo` and
`PassRun`/derived implementations.  (`MemAccessAnalysis` declares
`required_properties = ["Architecture"]` / `produced_properties =
["MemAccess"]`; these are its feature lists as used by the pipeline.) -/
def RepoPass.toPassM : RepoPass → PassM
  | .memAccess =>
    { name := "Memory Access Analysis", requiredFeatures := ["Architecture"],
      producedFeatures := ["MemAccess"],
      run := fun ws => .ok (instPassRun memAccessAnalyzeInst ws) }
  | .freeDim =>
    { name := "Free Dimension Analysis", requiredFeatures := [],
      producedFeatures := ["FreeDims"],
      run := fun ws => .ok (freeDimRun ws) }
  | .archInfoBuilder a =>
    { name := "ArchInfoBuilder", requiredFeatures := [],
      producedFeatures := ["ArchInfo"],
      run := fun ws => .ok (ws.addLoopProperty (.archInfo a)) }

/-! ## Claim C7: features over a pipeline run -/

theorem Workspace.addInstProperty_features (ws : Workspace) (i : Nat) (p : InstProp) :
    (ws.addInstProperty i p).availableFeatures = ws.availableFeatures := by
  unfold Workspace.addInstProperty
  split <;> rfl

theorem Workspace.addIterProperty_features (ws : Workspace) (i : Nat) (p : IterProp) :
    (ws.addIterProperty i p).availableFeatures = ws.availableFeatures := by
  unfold Workspace.addIterProperty
  split <;> rfl

theorem foldl_preserves_features {β : Type} (g : Workspace → β → Workspace)
    (h : ∀ w b, (g w b).availableFeatures = w.availableFeatures) :
    ∀ (l : List β) (ws : Workspace),
      (l.foldl g ws).availableFeatures = ws.availableFeatures := by
  intro l
  induction l with
  | nil => intro ws; rfl
  | cons b l ih => intro ws; rw [List.foldl_cons, ih, h]

theorem instPassRun_features (analyze : Instruction → List InstProp) (ws : Workspace) :
    (instPassRun analyze ws).availableFeatures = ws.availableFeatures := by
  unfold instPassRun
  apply foldl_preserves_features
  intro w b
  apply foldl_preserves_features
  intro w2 prop
  exact Workspace.addInstProperty_features w2 b.1 prop

theorem freeDimRun_features (ws : Workspace) :
    (freeDimRun ws).availableFeatures = ws.availableFeatures := by
  unfold freeDimRun
  apply foldl_preserves_features
  intro w b
  exact Workspace.addInstProperty_features w b.1 _

theorem repoPass_run_features (p : RepoPass) (ws ws2 : Workspace)
    (h : (p.toPassM).run ws = .ok ws2) :
    ws2.availableFeatures = ws.availableFeatures := by
  cases p with
  | memAccess =>
    simp [RepoPass.toPassM] at h
    rw [← h]
    exact instPassRun_features _ ws
  | freeDim =>
    simp [RepoPass.toPassM] at h
    rw [← h]
    exact freeDimRun_features ws
  | archInfoBuilder a =>
    simp [RepoPass.toPassM] at h
    rw [← h]
    rfl

/-- C7, counterexample.  The claim states that after a pass runs
successfully, the features in its `produced_features` have been union-added
into `available_features`.  Running the pipeline holding only
`FreeDimAnalysis` (whose `produced_features` is `["FreeDims"]`) on a fresh
workspace succeeds, yet leaves `available_features` empty: the produced
feature was not added. -/
theorem C7_counterexample :
    pipelineRun [RepoPass.freeDim.toPassM]
      (Workspace.new
        { iters := [{ iterName := "n", bounds := (0, 8), step := 1 }],
          body := [.DataLoad { arrayName := "B", addr := [.Var "n"], reg := "Rb",
                               condSuffix := none, cond := none }],
          properties := none } none) =
      .ok (freeDimRun
        (Workspace.new
          { iters := [{ iterName := "n", bounds := (0, 8), step := 1 }],
            body := [.DataLoad { arrayName := "B", addr := [.Var "n"], reg := "Rb",
                                 condSuffix := none, cond := none }],
            properties := none } none)) ∧
    "FreeDims" ∈ RepoPass.freeDim.toPassM.producedFeatures ∧
    (freeDimRun
      (Workspace.new
        { iters := [{ iterName := "n", bounds := (0, 8), step := 1 }],
          body := [.DataLoad { arrayName := "B", addr := [.Var "n"], reg := "Rb",
                               condSuffix := none, cond := none }],
          properties := none } none)).availableFeatures = [] :=
  ⟨rfl, by decide, rfl⟩

/-- C7, amended.  Over any pipeline run built from the repository's concrete
passes, `available_features` is left completely unchanged: the pipeline
never consults `produced_features` and no pass `run` touches the feature
set.  In particular `available_features` never loses an element over a run
(the monotonicity half of the claim holds trivially), but produced features
are not union-added. -/
theorem C7_features_unchanged :
    ∀ (ps : List RepoPass) (ws ws2 : Workspace),
      pipelineRun (ps.map RepoPass.toPassM) ws = .ok ws2 →
      ws2.availableFeatures = ws.availableFeatures := by
  intro ps
  induction ps with
  | nil =>
    intro ws ws2 h
    simp [pipelineRun] at h
    rw [h]
  | cons p ps ih =>
    intro ws ws2 h
    simp only [List.map_cons, pipelineRun] at h
    rcases hfind : (p.toPassM).requiredFeatures.find?
        (fun f => ¬ ws.featureAvailableStr f) with _ | missing
    · rw [hfind] at h
      rcases hrun : (p.toPassM).run ws with e | ws1
      · rw [hrun] at h
        exact absurd h (by simp)
      · rw [hrun] at h
        rw [ih ws1 ws2 h, repoPass_run_features p ws ws1 hrun]
    · rw [hfind] at h
      exact absurd h (by simp)

/-- The concrete workspace used by the C7 witness: the example nest with the
`Architecture` feature pre-seeded. -/
def wsC7 : Workspace :=
  { iterProperties := [[]], instProperties := [[]],
    loopProperties := [], workspaceProperties := [],
    loopNest := { iters := [{ iterName := "n", bounds := (0, 8), step := 1 }],
                  body := [.DataLoad { arrayName := "B", addr := [.Var "n"],
                                       reg := "Rb", condSuffix := none, cond := none }],
                  properties := none },
    arch := none, availableFeatures := [{ name := "Architecture" }] }

/-- C7, witness for `C7_features_unchanged`: a two-pass pipeline
(`MemAccessAnalysis` then `FreeDimAnalysis`) run on a workspace that starts
with the `Architecture` feature; the run succeeds and the feature set is
returned unchanged. -/
theorem C7_witness :
    pipelineRun ([RepoPass.memAccess, RepoPass.freeDim].map RepoPass.toPassM) wsC7 =
      .ok (freeDimRun (instPassRun memAccessAnalyzeInst wsC7)) ∧
    (freeDimRun (instPassRun memAccessAnalyzeInst wsC7)).availableFeatures =
      wsC7.availableFeatures ∧
    wsC7.availableFeatures = [{ name := "Architecture" }] := by
  refine ⟨rfl, C7_features_unchanged [RepoPass.memAccess, RepoPass.freeDim] wsC7 _ ?_, rfl⟩
  rfl

/-! ## Claim C9: MemAccessAnalysis -/

/-- Modelled from the spec sentence for claim C9 (refinement reference): the
multiset of variable names appearing anywhere in an expression, duplicates
preserved; `Var` contributes its name, `Const` contributes nothing, and the
walk goes through `Add`/`Sub`/`Mul`/`Div`/`Mod` (for `Mul`/`Div`/`Mod`
through their expression operand). -/
def specVarOccurrences : AffineExpr → Multiset String
  | .Var v => {v}
  | .Const _ => 0
  | .Add l r => specVarOccurrences l + specVarOccurrences r
  | .Sub l r => specVarOccurrences l + specVarOccurrences r
  | .Mul _ e => specVarOccurrences e
  | .Div e _ => specVarOccurrences e
  | .Mod e _ => specVarOccurrences e

/-- C9.  `MemAccessAnalysis` attaches to a `DataLoad`/`DataStore` exactly one
property holding the flat-mapped variable names of all its address
expressions — as a multiset, the variable occurrences described by the spec,
duplicates preserved — and attaches nothing (the empty property list) to a
`Compute`; concretely, in the nest with iterators `m, k, n` and body
`[Ra <= A[m][k], mac Rc1 Ra, Rb, Rc]`, running the pass gives the load the
single property `{m, k}` and the compute instruction no property, and on
`A[m][m + m]` duplicates are preserved. -/
theorem C9_mem_access_analysis :
    (∀ e : AffineExpr, (getAccessesFromAffineExpr e : Multiset String) =
      specVarOccurrences e) ∧
    (∀ da : DataAccess,
      memAccessAnalyzeInst (.DataLoad da) =
        [.memAccess (da.addr.flatMap getAccessesFromAffineExpr)] ∧
      memAccessAnalyzeInst (.DataStore da) =
        [.memAccess (da.addr.flatMap getAccessesFromAffineExpr)]) ∧
    (∀ c : Compute, memAccessAnalyzeInst (.Compute c) = []) ∧
    (instPassRun memAccessAnalyzeInst
      (Workspace.new
        { iters := [{ iterName := "m", bounds := (0, 100), step := 1 },
                    { iterName := "k", bounds := (0, 300), step := 1 },
                    { iterName := "n", bounds := (0, 200), step := 1 }],
          body := [.DataLoad { arrayName := "A", addr := [.Var "m", .Var "k"],
                               reg := "Ra", condSuffix := none, cond := none },
                   .Compute { op := "mac", src := [.Reg "Ra", .Reg "Rb", .Reg "Rc"],
                              dst := "Rc1", condSuffix := none, cond := none }],
          properties := none } none)).instProperties =
      [[.memAccess ["m", "k"]], []] ∧
    getAccessesFromAffineExpr (.Add (.Var "m") (.Add (.Var "m") (.Var "m"))) =
      ["m", "m", "m"] := by
  refine ⟨?_, ?_, ?_, by decide, by decide⟩
  · intro e
    induction e <;>
      simp_all [getAccessesFromAffineExpr, specVarOccurrences, ← Multiset.coe_add]
  · intro da
    exact ⟨rfl, rfl⟩
  · intro c
    rfl

/-! ## Claim C10: out-of-range property insertion is a silent no-op -/

/-- C10.  For any workspace whose property tables have one slot per
instruction (respectively iterator) of its loop nest — as established by
`Workspace::new` — calling `add_inst_property` (respectively
`add_iter_property`) with an index that is at least the number of
instructions (iterators) changes nothing: no property is stored, no error is
reported, the workspace is returned unchanged. -/
theorem C10_out_of_range_noop :
    (∀ (ws : Workspace) (i : Nat) (p : InstProp),
      ws.instProperties.length = ws.loopNest.body.length →
      ws.loopNest.body.length ≤ i →
      ws.addInstProperty i p = ws) ∧
    (∀ (ws : Workspace) (i : Nat) (p : IterProp),
      ws.iterProperties.length = ws.loopNest.iters.length →
      ws.loopNest.iters.length ≤ i →
      ws.addIterProperty i p = ws) ∧
    (∀ (nest : LoopNest) (arch : Option Arch),
      (Workspace.new nest arch).instProperties.length = nest.body.length ∧
      (Workspace.new nest arch).iterProperties.length = nest.iters.length) := by
  refine ⟨?_, ?_, ?_⟩
  · intro ws i p hlen hi
    unfold Workspace.addInstProperty
    rw [hlen]
    simp [Nat.not_lt.mpr hi]
  · intro ws i p hlen hi
    unfold Workspace.addIterProperty
    rw [hlen]
    simp [Nat.not_lt.mpr hi]
  · intro nest arch
    exact ⟨by simp [Workspace.new], by simp [Workspace.new]⟩

/-- C10, witness: on a fresh workspace over a one-instruction,
one-iterator nest, adding a property at index 5 is the identity. -/
theorem C10_witness :
    ((Workspace.new
        { iters := [{ iterName := "n", bounds := (0, 8), step := 1 }],
          body := [.Compute { op := "mac", src := [.Reg "Ra"], dst := "Rc",
                              condSuffix := none, cond := none }],
          properties := none } none).instProperties.length =
      ({ iters := [{ iterName := "n", bounds := (0, 8), step := 1 }],
         body := [.Compute { op := "mac", src := [.Reg "Ra"], dst := "Rc",
                             condSuffix := none, cond := none }],
         properties := none } : LoopNest).body.length) ∧
    (1 ≤ 5) ∧
    (Workspace.new
      { iters := [{ iterName := "n", bounds := (0, 8), step := 1 }],
        body := [.Compute { op := "mac", src := [.Reg "Ra"], dst := "Rc",
                            condSuffix := none, cond := none }],
        properties := none } none).addInstProperty 5 (.memAccess ["x"]) =
    Workspace.new
      { iters := [{ iterName := "n", bounds := (0, 8), step := 1 }],
        body := [.Compute { op := "mac", src := [.Reg "Ra"], dst := "Rc",
                            condSuffix := none, cond := none }],
        properties := none } none := by
  refine ⟨rfl, by decide, ?_⟩
  exact C10_out_of_range_noop.1 _ 5 (.memAccess ["x"]) rfl (by decide)

/-! ## Character-level utilities for the parser embedding

`multispace0` in nom skips Unicode whitespace; the inputs relevant here only
ever contain the four ASCII whitespace characters, so the model uses those.
`space0` skips spaces and tabs only. -/

def isMSpace (c : Char) : Bool := c == ' ' || c == '\t' || c == '\n' || c == '\r'

def isSpTab (c : Char) : Bool := c == ' ' || c == '\t'

/-- `multispace0`. -/
def msp0 (s : List Char) : List Char := s.dropWhile isMSpace

/-- `space0`. -/
def sp0 (s : List Char) : List Char := s.dropWhile isSpTab

theorem dropWhile_head_false {p : Char → Bool} {s : List Char}
    (h : ∀ c, s.head? = some c → p c = false) : s.dropWhile p = s := by
  cases s with
  | nil => rfl
  | cons c rest => simp [List.dropWhile, h c rfl]

theorem msp0_of_head {s : List Char} (h : ∀ c, s.head? = some c → isMSpace c = false) :
    msp0 s = s := dropWhile_head_false h

theorem sp0_of_head {s : List Char} (h : ∀ c, s.head? = some c → isSpTab c = false) :
    sp0 s = s := dropWhile_head_false h

theorem msp0_idem (s : List Char) : msp0 (msp0 s) = msp0 s := by
  induction s with
  | nil => rfl
  | cons c rest ih =>
    by_cases h : isMSpace c = true
    · simp [msp0, List.dropWhile, h] at ih ⊢
      exact ih
    · simp only [Bool.not_eq_true] at h
      simp [msp0, List.dropWhile, h]

/-! ## Decimal printing (the `Display` of Rust integers) -/

/-- One decimal digit as a character. -/
def digitChar : Nat → Char
  | 0 => '0' | 1 => '1' | 2 => '2' | 3 => '3' | 4 => '4'
  | 5 => '5' | 6 => '6' | 7 => '7' | 8 => '8' | _ => '9'

def digitVal (c : Char) : Nat := c.toNat - 48

def natOfDigits (ds : List Char) : Nat :=
  ds.foldl (fun acc c => 10 * acc + digitVal c) 0

def printNatAux : Nat → Nat → List Char
  | 0, _ => []
  | fuel + 1, n =>
    if n = 0 then [] else printNatAux fuel (n / 10) ++ [digitChar (n % 10)]

/-- Decimal digits of a natural number, as Rust `Display` prints them. -/
def printNat (n : Nat) : List Char :=
  if n = 0 then ['0'] else printNatAux n n

/-- Rust `Display for i32`: minus sign for negatives, no sign otherwise. -/
def printInt (i : Int) : List Char :=
  if i < 0 then '-' :: printNat i.natAbs else printNat i.natAbs

theorem digitChar_isDigit (d : Nat) (h : d < 10) : (digitChar d).isDigit = true := by
  interval_cases d <;> decide

theorem digitVal_digitChar (d : Nat) (h : d < 10) : digitVal (digitChar d) = d := by
  interval_cases d <;> decide

theorem digitChar_not_space (d : Nat) (h : d < 10) : isMSpace (digitChar d) = false := by
  interval_cases d <;> decide

theorem natOfDigits_append (a b : List Char) :
    natOfDigits (a ++ b) = b.foldl (fun acc c => 10 * acc + digitVal c) (natOfDigits a) := by
  simp [natOfDigits, List.foldl_append]

theorem printNatAux_zero (fuel : Nat) : printNatAux fuel 0 = [] := by
  cases fuel <;> simp [printNatAux]

theorem printNatAux_sound (fuel : Nat) :
    ∀ n : Nat, n ≤ fuel → n ≠ 0 →
      natOfDigits (printNatAux fuel n) = n ∧ printNatAux fuel n ≠ [] ∧
      (∀ c ∈ printNatAux fuel n, c.isDigit = true) := by
  induction fuel with
  | zero => intro n h hn; omega
  | succ fuel ih =>
    intro n h hn
    have hd : n % 10 < 10 := Nat.mod_lt _ (by omega)
    simp only [printNatAux, if_neg hn]
    by_cases hq : n / 10 = 0
    · have hn10 : n = n % 10 := by omega
      simp [hq, printNatAux_zero, natOfDigits, digitVal_digitChar _ hd]
      exact ⟨by omega, digitChar_isDigit _ hd⟩
    · have hle : n / 10 ≤ fuel := by omega
      obtain ⟨ih1, ih2, ih3⟩ := ih (n / 10) hle hq
      refine ⟨?_, by simp, ?_⟩
      · rw [natOfDigits_append, ih1]
        simp [digitVal_digitChar _ hd]
        omega
      · intro c hc
        rcases List.mem_append.mp hc with h1 | h2
        · exact ih3 c h1
        · simp at h2
          rw [h2]
          exact digitChar_isDigit _ hd

theorem printNat_sound (n : Nat) :
    natOfDigits (printNat n) = n ∧ printNat n ≠ [] ∧
      (∀ c ∈ printNat n, c.isDigit = true) := by
  by_cases h : n = 0
  · subst h
    exact ⟨by decide, by decide, by decide⟩
  · simpa [printNat, h] using printNatAux_sound n n (le_refl n) h

/-! ## Token parsers (from `affine_expr.rs`)

`parse_identifier` is `recognize(pair(alpha1, alphanumeric0))`: the maximal
alphabetic run followed by the maximal alphanumeric run.  Because alphabetic
characters are alphanumeric, the concatenation is exactly the maximal
alphanumeric run whenever the head is alphabetic (and the parser fails
otherwise). -/
def parseIdent (s : List Char) : Option (List Char × List Char) :=
  match s with
  | c :: _ =>
    if c.isAlpha then some (s.takeWhile Char.isAlphanum, s.dropWhile Char.isAlphanum)
    else none
  | [] => none

/-- The i32 range check performed by `str::parse::<i32>` in `map_res`. -/
def inI32 (v : Int) : Bool := (-2147483648 ≤ v) && (v ≤ 2147483647)

/-- `parse_integer`: first `recognize(pair(sign, digit1))` parsed as i32,
falling back (`or_else`) to `digit1` parsed as i32 on the original input.
A failing i32 conversion (overflow) makes the branch fail. -/
def parseInteger (s : List Char) : Option (Int × List Char) :=
  match s with
  | c :: rest =>
    if c = '-' ∨ c = '+' then
      let ds := rest.takeWhile Char.isDigit
      if ds = [] then none
      else
        let v : Int := if c = '-' then -(natOfDigits ds : Int) else (natOfDigits ds : Int)
        if inI32 v then some (v, rest.dropWhile Char.isDigit) else none
    else
      let ds := s.takeWhile Char.isDigit
      if ds = [] then none
      else if inI32 (natOfDigits ds : Int) then
        some ((natOfDigits ds : Int), s.dropWhile Char.isDigit)
      else none
  | [] => none

/-- `parse_const_var`: `pair(recognize(pair(alpha1, tag("_"))),
parse_identifier)`, producing `ConstVar` of the concatenation. -/
def parseConstVar (s : List Char) : Option (Coeff × List Char) :=
  let alphas := s.takeWhile Char.isAlpha
  if alphas = [] then none
  else
    match s.dropWhile Char.isAlpha with
    | '_' :: rest2 =>
      match parseIdent rest2 with
      | some (ident, rest3) => some (.ConstVar (String.mk (alphas ++ '_' :: ident)), rest3)
      | none => none
    | _ => none

/-! ## The expression parser (from `affine_expr.rs`), with explicit fuel

Each function consumes one unit of fuel per call; the recursion of the nom
source goes through parenthesised sub-terms and through the `many0` loops,
both of which consume input, so `8 * (length + 1)` fuel (used by the
top-level entry points below) is always sufficient to reproduce the nom
behaviour.  Exhausted fuel yields `none`, exactly like a parse failure. -/

mutual

/-- `parse_factor_coeff`: `alt((parse_const_var, int, parenthesised coeff))`. -/
def parseFactorCoeffF : Nat → List Char → Option (Coeff × List Char)
  | 0, _ => none
  | fuel + 1, s =>
    match parseConstVar s with
    | some r => some r
    | none =>
      match parseInteger s with
      | some (v, rest) => some (.Const v, rest)
      | none =>
        match msp0 s with
        | '(' :: rest1 =>
          (match parseCoeffF fuel rest1 with
           | some (c, rest2) =>
             (match msp0 rest2 with
              | ')' :: rest3 => some (c, rest3)
              | _ => none)
           | none => none)
        | _ => none

/-- `parse_coeff`: a factor followed by `many0('*' factor)`, left-folded
into `Coeff::Mul`. -/
def parseCoeffF : Nat → List Char → Option (Coeff × List Char)
  | 0, _ => none
  | fuel + 1, s =>
    match parseFactorCoeffF fuel s with
    | some (first, rest) => parseCoeffTailF fuel first rest
    | none => none

/-- The `many0` loop of `parse_coeff`; a failing element backtracks to the
input position before the `*`. -/
def parseCoeffTailF : Nat → Coeff → List Char → Option (Coeff × List Char)
  | 0, _, _ => none
  | fuel + 1, acc, s =>
    match msp0 s with
    | '*' :: rest1 =>
      (match parseFactorCoeffF fuel (msp0 rest1) with
       | some (c, rest2) => parseCoeffTailF fuel (.Mul acc c) rest2
       | none => some (acc, s))
    | _ => some (acc, s)

end

mutual

/-- `parse_mul`: a coefficient followed by either a juxtaposed factor
(`"3x"`) or `'*'` and a factor; a coefficient equal to `Const(1)` is elided. -/
def parseMulF : Nat → List Char → Option (AffineExpr × List Char)
  | 0, _ => none
  | fuel + 1, s =>
    match parseCoeffF fuel s with
    | none => none
    | some (coeff, rest) =>
      let attempt : Option (AffineExpr × List Char) :=
        match parseFactorF fuel (sp0 rest) with
        | some r => some r
        | none =>
          match sp0 rest with
          | '*' :: rest1 => parseFactorF fuel (sp0 rest1)
          | _ => none
      match attempt with
      | some (e, rest2) =>
        if coeff = .Const 1 then some (e, rest2) else some (.Mul coeff e, rest2)
      | none => none

/-- `parse_parens`: whitespace-delimited `'(' expr ')'`, with trailing
whitespace also consumed. -/
def parseParensF : Nat → List Char → Option (AffineExpr × List Char)
  | 0, _ => none
  | fuel + 1, s =>
    match msp0 s with
    | '(' :: rest1 =>
      (match parseExprF fuel (msp0 rest1) with
       | some (e, rest2) =>
         (match msp0 rest2 with
          | ')' :: rest3 => some (e, msp0 rest3)
          | _ => none)
       | none => none)
    | _ => none

/-- `parse_factor`: leading whitespace, then
`alt((parse_mul, parse_const, parse_var, parse_parens))`. -/
def parseFactorF : Nat → List Char → Option (AffineExpr × List Char)
  | 0, _ => none
  | fuel + 1, s =>
    let s1 := msp0 s
    match parseMulF fuel s1 with
    | some r => some r
    | none =>
      match parseInteger s1 with
      | some (v, rest) => some (.Const v, rest)
      | none =>
        match parseIdent s1 with
        | some (name, rest) => some (.Var (String.mk name), rest)
        | none => parseParensF fuel s1

/-- `parse_term`: a factor with an optional `'/'`/`'%'` coefficient; the
whitespace before the optional operator is consumed even when absent
(`preceded(multispace0, opt(..))`). -/
def parseTermF : Nat → List Char → Option (AffineExpr × List Char)
  | 0, _ => none
  | fuel + 1, s =>
    match parseFactorF fuel s with
    | none => none
    | some (f, rest) =>
      let rest1 := msp0 rest
      match rest1 with
      | '/' :: rest2 =>
        (match parseCoeffF fuel (msp0 rest2) with
         | some (c, rest3) => some (.Div f c, rest3)
         | none => some (f, rest1))
      | '%' :: rest2 =>
        (match parseCoeffF fuel (msp0 rest2) with
         | some (c, rest3) => some (.Mod f c, rest3)
         | none => some (f, rest1))
      | _ => some (f, rest1)

/-- `parse_expr`: a term followed by `many0(('+'|'-') term)`, left-folded. -/
def parseExprF : Nat → List Char → Option (AffineExpr × List Char)
  | 0, _ => none
  | fuel + 1, s =>
    match parseTermF fuel s with
    | none => none
    | some (t, rest) => parseExprTailF fuel t rest

/-- The `many0` loop of `parse_expr`; a failing term backtracks to the
input position before the operator. -/
def parseExprTailF : Nat → AffineExpr → List Char → Option (AffineExpr × List Char)
  | 0, _, _ => none
  | fuel + 1, acc, s =>
    match msp0 s with
    | '+' :: rest1 =>
      (match parseTermF fuel (msp0 rest1) with
       | some (t, rest2) => parseExprTailF fuel (.Add acc t) rest2
       | none => some (acc, s))
    | '-' :: rest1 =>
      (match parseTermF fuel (msp0 rest1) with
       | some (t, rest2) => parseExprTailF fuel (.Sub acc t) rest2
       | none => some (acc, s))
    | _ => some (acc, s)

end

/-- Top-level `parse_expr` on a character list. -/
def parseExprTop (s : List Char) : Option (AffineExpr × List Char) :=
  parseExprF (8 * (s.length + 1)) s

/-- `parse_expr` as used by serde deserialization: the parsed value, with any
unconsumed input ignored (`.map(|(_, expr)| expr)` in the source). -/
def parseExprStr (s : String) : Option AffineExpr :=
  (parseExprTop s.data).map Prod.fst

/-! ## The printers (`impl fmt::Display` in `affine_expr.rs`) -/

/-- `Display for Coeff`: products print flat with `" * "`. -/
def printCoeff : Coeff → List Char
  | .Const c => printInt c
  | .ConstVar v => v.data
  | .Mul l r => printCoeff l ++ ' ' :: '*' :: ' ' :: printCoeff r

/-- `Display for AffineExpr`: infix with single spaces; only the non-`Var`
operand of `Mul` is parenthesised. -/
def printExpr : AffineExpr → List Char
  | .Const c => printInt c
  | .Var v => v.data
  | .Add l r => printExpr l ++ ' ' :: '+' :: ' ' :: printExpr r
  | .Sub l r => printExpr l ++ ' ' :: '-' :: ' ' :: printExpr r
  | .Mul c e =>
    (match e with
     | .Var _ => printCoeff c ++ ' ' :: '*' :: ' ' :: printExpr e
     | _ => printCoeff c ++ ' ' :: '*' :: ' ' :: '(' :: (printExpr e ++ [')']))
  | .Div e c => printExpr e ++ ' ' :: '/' :: ' ' :: printCoeff c
  | .Mod e c => printExpr e ++ ' ' :: '%' :: ' ' :: printCoeff c

/-! ## The printable fragment

The well-formedness predicates below delimit the fragment of the `AffineExpr`
grammar on which print followed by parse restores the value.  Every
restriction is forced by a concrete failure of the general round trip (see
`C5_counterexample`): names must be parseable identifiers, printed sums and
products must be left-associated with the right operand at the next
precedence level (printing inserts no parentheses for `Add`/`Sub`/`Div`/`Mod`),
a multiplication coefficient of exactly `Const 1` is elided when re-parsed,
constants must fit in i32 (`str::parse::<i32>` fails otherwise), and a
parenthesised `Mul` operand must not itself be parseable as a coefficient
(`coeffLike`), or the coefficient grammar swallows it. -/

/-- A plain variable name: alphabetic head, alphanumeric tail (an underscore
would make the name re-parse as a `ConstVar` or split). -/
def wfName (s : String) : Bool :=
  match s.data with
  | [] => false
  | c :: rest => c.isAlpha && rest.all Char.isAlphanum

/-- A `ConstVar` name: a nonempty alphabetic run, one underscore, then an
identifier (alphabetic head, alphanumeric tail). -/
def wfCVName (s : String) : Bool :=
  match s.data.dropWhile Char.isAlpha with
  | '_' :: c :: rest =>
    (s.data.takeWhile Char.isAlpha ≠ []) && c.isAlpha && rest.all Char.isAlphanum
  | _ => false

/-- An atomic printable coefficient (the right operand of each `Mul` in a
left-associated chain). -/
def wfCoeffAtom : Coeff → Bool
  | .Const c => inI32 c
  | .ConstVar v => wfCVName v
  | .Mul _ _ => false

/-- A printable coefficient: a left-associated chain of atoms. -/
def wfCoeff : Coeff → Bool
  | .Const c => inI32 c
  | .ConstVar v => wfCVName v
  | .Mul l r => wfCoeff l && wfCoeffAtom r

/-- An expression whose printed form is parseable as a coefficient when
parenthesised: a constant, possibly under `Mul` chains.  (Such operands do
not round-trip as `Mul` operands.) -/
def coeffLike : AffineExpr → Bool
  | .Const _ => true
  | .Mul _ e => coeffLike e
  | _ => false

/-- Simultaneous computation of factor-, term- and expression-level
printability (one structural recursion; the three levels only differ on
`Add`/`Sub`/`Div`/`Mod` nodes). -/
def wfAll : AffineExpr → Bool × Bool × Bool
  | .Var v => (wfName v, wfName v, wfName v)
  | .Const c => (inI32 c, inI32 c, inI32 c)
  | .Add l r => (false, false, (wfAll l).2.2 && (wfAll r).2.1)
  | .Sub l r => (false, false, (wfAll l).2.2 && (wfAll r).2.1)
  | .Mul c e =>
    let b := wfCoeff c && !(c == .Const 1) &&
      (match e with
       | .Var v => wfName v
       | _ => (wfAll e).2.2 && !(coeffLike e))
    (b, b, b)
  | .Div f c =>
    let b := (wfAll f).1 && wfCoeff c
    (false, b, b)
  | .Mod f c =>
    let b := (wfAll f).1 && wfCoeff c
    (false, b, b)

/-- Printable factors. -/
def wfFactor (e : AffineExpr) : Bool := (wfAll e).1

/-- Printable terms: a factor, or a factor divided/reduced by a coefficient. -/
def wfTerm (e : AffineExpr) : Bool := (wfAll e).2.1

/-- Printable expressions: left-associated `+`/`-` chains of terms. -/
def wfExpr (e : AffineExpr) : Bool := (wfAll e).2.2

/-- C5, counterexample.  The claim `parse(print(e)) == e` for every
`AffineExpr` fails on several explicit values: a `Mul` with coefficient
`Const 1` ("1 * x") re-parses with the coefficient elided; a `Sub` whose
right operand is an `Add` ("x - y + z") re-parses left-associated; a `Mul`
whose operand is a constant ("2 * (3)") re-parses as just the coefficient
with the rest unconsumed; a `Div` whose left operand is a sum
("x + y / 2") re-parses with the division bound tighter; and a `Var` whose
name contains an underscore re-parses truncated. -/
theorem C5_counterexample :
    parseExprStr (String.mk (printExpr (.Mul (.Const 1) (.Var "x")))) =
      some (.Var "x") ∧
    some (AffineExpr.Var "x") ≠ some (AffineExpr.Mul (.Const 1) (.Var "x")) ∧
    parseExprStr (String.mk (printExpr (.Sub (.Var "x") (.Add (.Var "y") (.Var "z"))))) =
      some (.Add (.Sub (.Var "x") (.Var "y")) (.Var "z")) ∧
    some (AffineExpr.Add (.Sub (.Var "x") (.Var "y")) (.Var "z")) ≠
      some (AffineExpr.Sub (.Var "x") (.Add (.Var "y") (.Var "z"))) ∧
    parseExprStr (String.mk (printExpr (.Mul (.Const 2) (.Const 3)))) =
      some (.Const 2) ∧
    parseExprStr (String.mk (printExpr (.Div (.Add (.Var "x") (.Var "y")) (.Const 2)))) =
      some (.Add (.Var "x") (.Div (.Var "y") (.Const 2))) ∧
    parseExprStr (String.mk (printExpr (.Var "M_a"))) = some (.Var "M") :=
  ⟨by decide, by decide, by decide, by decide, by decide, by decide, by decide⟩

/-! ## Continuation (stop) conditions for the round-trip proof

A printed fragment is always followed, in a well-formed printed expression,
by one of a small set of continuations.  `StopAt S r` states that after
leading spaces the continuation `r` starts with a character from `S` (or
ends), and that a sign character is not immediately followed by a digit
(print always puts a space after an infix sign). -/

def stopCore (r : List Char) : List Char := r.dropWhile (fun c => c == ' ')

def SExpr : List Char := [')', ']']
def STerm : List Char := [')', ']', '+', '-']
def SFact : List Char := [')', ']', '+', '-', '/', '%']

def StopAt (S : List Char) (r : List Char) : Prop :=
  match stopCore r with
  | [] => True
  | c :: r2 =>
    c ∈ S ∧ ((c = '+' ∨ c = '-') → ∀ d, r2.head? = some d → d.isDigit = false)

theorem sfact_mem_props {c : Char} (h : c ∈ SFact) :
    c.isAlphanum = false ∧ c ≠ '_' ∧ isMSpace c = false ∧ isSpTab c = false ∧
      c ≠ '(' ∧ c ≠ '*' ∧ c.isDigit = false ∧ c.isAlpha = false := by
  simp [SFact] at h
  rcases h with h | h | h | h | h | h <;> subst h <;> decide

theorem stopAt_mono {S T : List Char} (hsub : ∀ c, c ∈ S → c ∈ T) {r : List Char}
    (h : StopAt S r) : StopAt T r := by
  unfold StopAt at h ⊢
  cases hc : stopCore r with
  | nil => trivial
  | cons c r2 =>
    rw [hc] at h
    exact ⟨hsub c h.1, h.2⟩

theorem sexpr_sub_sterm : ∀ c, c ∈ SExpr → c ∈ STerm := by decide
theorem sterm_sub_sfact : ∀ c, c ∈ STerm → c ∈ SFact := by decide
theorem sexpr_sub_sfact : ∀ c, c ∈ SExpr → c ∈ SFact := by decide

theorem stopCore_cons_space (r : List Char) : stopCore (' ' :: r) = stopCore r := by
  simp [stopCore, List.dropWhile]

theorem stopCore_cons_of {c : Char} (h : (c == ' ') = false) (r : List Char) :
    stopCore (c :: r) = c :: r := by
  simp [stopCore, List.dropWhile, h]

theorem stopCore_eq_self {r : List Char}
    (h : ∀ c, r.head? = some c → (c == ' ') = false) : stopCore r = r :=
  dropWhile_head_false h

/-- Under `StopAt SFact`, the leading whitespace is plain spaces, so the nom
whitespace skippers agree with `stopCore`. -/
theorem msp0_eq_stopCore {r : List Char} (h : StopAt SFact r) : msp0 r = stopCore r := by
  induction r with
  | nil => rfl
  | cons c r ih =>
    by_cases hc : c = ' '
    · subst hc
      unfold StopAt at h
      rw [stopCore_cons_space] at h ⊢
      simp only [msp0, List.dropWhile]
      exact ih h
    · have hcb : (c == ' ') = false := by simp [hc]
      unfold StopAt at h
      rw [stopCore_cons_of hcb] at h ⊢
      have : isMSpace c = false := by
        rcases hm : stopCore (c :: r) with _ | ⟨d, r2⟩
        · rw [stopCore_cons_of hcb] at hm
          exact absurd hm (by simp)
        · rw [stopCore_cons_of hcb] at hm
          obtain ⟨rfl, _⟩ := List.cons.injEq .. ▸ hm
          exact (sfact_mem_props h.1).2.2.1
      simp [msp0, List.dropWhile, this]

theorem sp0_eq_stopCore {r : List Char} (h : StopAt SFact r) : sp0 r = stopCore r := by
  induction r with
  | nil => rfl
  | cons c r ih =>
    by_cases hc : c = ' '
    · subst hc
      unfold StopAt at h
      rw [stopCore_cons_space] at h ⊢
      simp only [sp0, List.dropWhile]
      exact ih h
    · have hcb : (c == ' ') = false := by simp [hc]
      unfold StopAt at h
      rw [stopCore_cons_of hcb] at h ⊢
      have : isSpTab c = false := by
        rcases hm : stopCore (c :: r) with _ | ⟨d, r2⟩
        · rw [stopCore_cons_of hcb] at hm
          exact absurd hm (by simp)
        · rw [stopCore_cons_of hcb] at hm
          obtain ⟨rfl, _⟩ := List.cons.injEq .. ▸ hm
          exact (sfact_mem_props h.1).2.2.2.1
      simp [sp0, List.dropWhile, this]

/-! ## List scanning lemmas -/

theorem isAlphanum_of_isAlpha {c : Char} (h : c.isAlpha = true) :
    c.isAlphanum = true := by
  simp [Char.isAlphanum, h]

theorem isAlphanum_of_isDigit {c : Char} (h : c.isDigit = true) :
    c.isAlphanum = true := by
  simp [Char.isAlphanum, h]

theorem all_takeWhile (p : Char → Bool) (l : List Char) :
    ∀ c ∈ l.takeWhile p, p c = true := by
  intro c hc
  induction l with
  | nil => simp [List.takeWhile] at hc
  | cons x l ih =>
    rcases hx : p x with _ | _ <;> rw [List.takeWhile_cons, hx] at hc
    · simp at hc
    · rcases (List.mem_cons.mp hc) with rfl | hc2
      · exact hx
      · exact ih hc2

theorem dropWhile_head_not (p : Char → Bool) (l : List Char) {c : Char}
    {rest : List Char} (h : l.dropWhile p = c :: rest) : p c = false := by
  induction l with
  | nil => simp [List.dropWhile] at h
  | cons x l ih =>
    rcases hx : p x with _ | _ <;> rw [List.dropWhile_cons, hx] at h
    · simp at h
      rw [← h.1]
      exact hx
    · exact ih h

theorem takeWhile_append_all {p : Char → Bool} {xs : List Char} (ys : List Char)
    (h : ∀ c ∈ xs, p c = true) : (xs ++ ys).takeWhile p = xs ++ ys.takeWhile p := by
  induction xs with
  | nil => simp
  | cons x xs ih =>
    have hx := h x (by simp)
    simp only [List.cons_append, List.takeWhile_cons, hx, if_true]
    rw [ih fun c hc => h c (by simp [hc])]

theorem dropWhile_append_all {p : Char → Bool} {xs : List Char} (ys : List Char)
    (h : ∀ c ∈ xs, p c = true) : (xs ++ ys).dropWhile p = ys.dropWhile p := by
  induction xs with
  | nil => simp
  | cons x xs ih =>
    have hx := h x (by simp)
    simp only [List.cons_append, List.dropWhile_cons, hx, if_true]
    exact ih fun c hc => h c (by simp [hc])

theorem dropWhile_append_of_stop {p : Char → Bool} {xs : List Char} (ys : List Char)
    {d : Char} {tail : List Char} (h : xs.dropWhile p = d :: tail) :
    (xs ++ ys).dropWhile p = d :: tail ++ ys := by
  induction xs with
  | nil => simp [List.dropWhile] at h
  | cons x xs ih =>
    rcases hx : p x with _ | _ <;> rw [List.dropWhile_cons, hx] at h
    · cases h
      simp only [List.cons_append, List.dropWhile_cons, hx, if_false]
      (try simp)
    · simp only [List.cons_append, List.dropWhile_cons, hx, if_true]
      exact ih h

theorem takeWhile_append_of_stop {p : Char → Bool} {xs : List Char} (ys : List Char)
    {d : Char} {tail : List Char} (h : xs.dropWhile p = d :: tail) :
    (xs ++ ys).takeWhile p = xs.takeWhile p := by
  induction xs with
  | nil => simp [List.dropWhile] at h
  | cons x xs ih =>
    rcases hx : p x with _ | _ <;> rw [List.dropWhile_cons, hx] at h
    · cases h
      simp [List.takeWhile_cons, hx]
    · simp only [List.cons_append, List.takeWhile_cons, hx, if_true]
      rw [ih h]

/-! ## Token-level round-trip lemmas -/

/-- The continuation does not extend an identifier token. -/
def NoExt (r : List Char) : Prop :=
  ∀ c, r.head? = some c → (c.isAlphanum = false ∧ c ≠ '_')

/-- The continuation does not extend a digit run. -/
def NoDig (r : List Char) : Prop := ∀ c, r.head? = some c → c.isDigit = false

theorem noExt_of_stopAt {r : List Char} (h : StopAt SFact r) : NoExt r := by
  intro c hc
  cases r with
  | nil => simp at hc
  | cons x r2 =>
    have hx : x = c := by simpa using hc
    subst hx
    by_cases hsp : x = ' '
    · subst hsp
      exact ⟨by decide, by decide⟩
    · unfold StopAt at h
      rw [stopCore_cons_of (by simp [hsp])] at h
      have := sfact_mem_props h.1
      exact ⟨this.1, this.2.1⟩

theorem noDig_of_stopAt {r : List Char} (h : StopAt SFact r) : NoDig r := by
  intro c hc
  have := (noExt_of_stopAt h c hc).1
  cases hd : c.isDigit
  · rfl
  · exact absurd (isAlphanum_of_isDigit hd) (by simp [this])

theorem noDig_of_noExt {r : List Char} (h : NoExt r) : NoDig r := by
  intro c hc
  have := (h c hc).1
  cases hd : c.isDigit
  · rfl
  · exact absurd (isAlphanum_of_isDigit hd) (by simp [this])

theorem parseIdent_print {v : String} (hv : wfName v = true) {rest : List Char}
    (hr : NoExt rest) : parseIdent (v.data ++ rest) = some (v.data, rest) := by
  unfold wfName at hv
  rcases hd : v.data with _ | ⟨c, tail⟩
  · rw [hd] at hv; simp at hv
  · rw [hd] at hv
    simp only [Bool.and_eq_true, List.all_eq_true] at hv
    have hall : ∀ x ∈ c :: tail, x.isAlphanum = true := by
      intro x hx
      rcases List.mem_cons.mp hx with rfl | hx2
      · exact isAlphanum_of_isAlpha hv.1
      · exact hv.2 x hx2
    have hrt : rest.takeWhile Char.isAlphanum = [] := by
      cases rest with
      | nil => rfl
      | cons y r2 =>
        have := (hr y rfl).1
        simp [List.takeWhile_cons, this]
    have hrd : rest.dropWhile Char.isAlphanum = rest := by
      apply dropWhile_head_false
      intro y hy
      exact (hr y hy).1
    have htk : ((c :: tail) ++ rest).takeWhile Char.isAlphanum = c :: tail := by
      rw [takeWhile_append_all rest hall, hrt, List.append_nil]
    have hdr : ((c :: tail) ++ rest).dropWhile Char.isAlphanum = rest := by
      rw [dropWhile_append_all rest hall, hrd]
    simp only [parseIdent, List.cons_append]
    rw [show ((c :: (tail ++ rest)).takeWhile Char.isAlphanum) = c :: tail from htk,
        show ((c :: (tail ++ rest)).dropWhile Char.isAlphanum) = rest from hdr]
    simp [hv.1]

theorem printNat_head (n : Nat) :
    ∃ c tail, printNat n = c :: tail ∧ c.isDigit = true := by
  obtain ⟨_, h2, h3⟩ := printNat_sound n
  rcases hp : printNat n with _ | ⟨c, tail⟩
  · exact absurd hp h2
  · exact ⟨c, tail, rfl, h3 c (hp ▸ by simp)⟩

theorem digit_not_sign {c : Char} (h : c.isDigit = true) : c ≠ '-' ∧ c ≠ '+' := by
  constructor <;> intro hc <;> subst hc <;> simp [Char.isDigit] at h

theorem takeWhile_digits_print {n : Nat} {rest : List Char} (hr : NoDig rest) :
    (printNat n ++ rest).takeWhile Char.isDigit = printNat n ∧
      (printNat n ++ rest).dropWhile Char.isDigit = rest := by
  obtain ⟨_, _, h3⟩ := printNat_sound n
  have hrt : rest.takeWhile Char.isDigit = [] := by
    cases rest with
    | nil => rfl
    | cons y r2 => simp [List.takeWhile_cons, hr y rfl]
  have hrd : rest.dropWhile Char.isDigit = rest :=
    dropWhile_head_false fun y hy => hr y hy
  constructor
  · rw [takeWhile_append_all rest h3, hrt, List.append_nil]
  · rw [dropWhile_append_all rest h3, hrd]

/-- `parse_integer` on a printed i32 followed by a non-digit continuation. -/
theorem parseInteger_print {v : Int} (hv : inI32 v = true) {rest : List Char}
    (hr : NoDig rest) : parseInteger (printInt v ++ rest) = some (v, rest) := by
  obtain ⟨h1, h2, _⟩ := printNat_sound v.natAbs
  obtain ⟨c, tail, hc, hcd⟩ := printNat_head v.natAbs
  obtain ⟨htk, hdr⟩ := takeWhile_digits_print (n := v.natAbs) hr
  by_cases hneg : v < 0
  · have hpr : printInt v = '-' :: printNat v.natAbs := by simp [printInt, hneg]
    have hvv : -((v.natAbs : Nat) : Int) = v := by omega
    rw [hpr, List.cons_append]
    simp only [parseInteger, htk, hdr, h1]
    simp [h2, hvv, hv]
    rw [abs_of_neg hneg, neg_neg]
    exact ⟨hv, rfl⟩
  · have hpr : printInt v = printNat v.natAbs := by simp [printInt, hneg]
    have hvv : ((v.natAbs : Nat) : Int) = v := by omega
    have hcc : printNat v.natAbs ++ rest = c :: (tail ++ rest) := by rw [hc]; rfl
    have hprops := digit_not_sign hcd
    rw [hpr, hcc]
    simp only [parseInteger]
    rw [if_neg (by simp [hprops.1, hprops.2])]
    rw [← hcc, htk, hdr]
    simp [h2, h1, hvv, hv]

/-! ## Failure of the token parsers off their first character -/

theorem parseIdent_nalpha {s : List Char}
    (h : ∀ c, s.head? = some c → c.isAlpha = false) : parseIdent s = none := by
  cases s with
  | nil => rfl
  | cons c r => simp [parseIdent, h c rfl]

theorem parseInteger_nsign {s : List Char}
    (hs : ∀ c, s.head? = some c →
      c ≠ '-' ∧ c ≠ '+' ∧ c.isDigit = false) : parseInteger s = none := by
  cases s with
  | nil => rfl
  | cons c r =>
    obtain ⟨h1, h2, h3⟩ := hs c rfl
    have ht : (c :: r).takeWhile Char.isDigit = [] := by
      simp [List.takeWhile_cons, h3]
    simp only [parseInteger]
    rw [if_neg (by simp [h1, h2])]
    simp [ht]

theorem parseInteger_sign_nodig {c : Char} {r : List Char}
    (hc : c = '-' ∨ c = '+') (hr : ∀ d, r.head? = some d → d.isDigit = false) :
    parseInteger (c :: r) = none := by
  have ht : r.takeWhile Char.isDigit = [] := by
    cases r with
    | nil => rfl
    | cons d r2 => simp [List.takeWhile_cons, hr d rfl]
  simp only [parseInteger]
  rw [if_pos hc]
  simp [ht]

theorem parseConstVar_nalpha {s : List Char}
    (h : ∀ c, s.head? = some c → c.isAlpha = false) : parseConstVar s = none := by
  cases s with
  | nil => rfl
  | cons c r =>
    have ht : (c :: r).takeWhile Char.isAlpha = [] := by
      simp [List.takeWhile_cons, h c rfl]
    simp [parseConstVar, ht]

theorem dropWhile_append_head {p : Char → Bool} (xs ys : List Char) {d : Char}
    {t : List Char} (h : (xs ++ ys).dropWhile p = d :: t) :
    d ∈ xs ∨ ys.dropWhile p = d :: t := by
  induction xs with
  | nil => right; simpa using h
  | cons x xs ih =>
    rcases hx : p x with _ | _ <;> rw [List.cons_append, List.dropWhile_cons, hx] at h
    · rw [if_neg (by simp)] at h
      left
      rw [show x = d from (List.cons.injEq .. ▸ h).1]
      simp
    · rcases ih h with hm | hy
      · exact Or.inl (List.mem_cons_of_mem _ hm)
      · exact Or.inr hy

theorem underscore_not_alphanum : ('_').isAlphanum = false := by decide

/-- `parse_const_var` fails on a plain well-formed variable name: nothing in
the input supplies the mandatory underscore. -/
theorem parseConstVar_name {v : String} (hv : wfName v = true) {rest : List Char}
    (hr : NoExt rest) : parseConstVar (v.data ++ rest) = none := by
  have hall : ∀ x ∈ v.data, x.isAlphanum = true := by
    intro x hx
    unfold wfName at hv
    rcases hd : v.data with _ | ⟨c, tl⟩
    · rw [hd] at hx; simp at hx
    · rw [hd] at hv hx
      simp only [Bool.and_eq_true, List.all_eq_true] at hv
      rcases List.mem_cons.mp hx with rfl | hx2
      · exact isAlphanum_of_isAlpha hv.1
      · exact hv.2 x hx2
  rcases hd : (v.data ++ rest).dropWhile Char.isAlpha with _ | ⟨d, r2⟩
  · simp [parseConstVar, hd]
  · have hdu : d ≠ '_' := by
      rcases dropWhile_append_head v.data rest hd with hm | hy
      · intro he
        rw [he] at hm
        exact absurd (hall _ hm) (by simp [underscore_not_alphanum])
      · cases rest with
        | nil => simp [List.dropWhile] at hy
        | cons y r3 =>
          have hyna : y.isAlpha = false := by
            rcases ha : y.isAlpha with _ | _
            · rfl
            · exact absurd (isAlphanum_of_isAlpha ha) (by simp [(hr y rfl).1])
          rw [List.dropWhile_cons, hyna] at hy
          rw [if_neg (by simp)] at hy
          obtain ⟨rfl, rfl⟩ := List.cons.inj hy
          exact (hr y rfl).2
    by_cases ha : (v.data ++ rest).takeWhile Char.isAlpha = []
    · simp [parseConstVar, ha]
    · simp only [parseConstVar, hd, if_neg ha]
      split <;> simp_all

/-! ## Head characters of printed forms -/

theorem isDigit_not_space {d : Char} (h : d.isDigit = true) :
    isMSpace d = false ∧ isSpTab d = false := by
  have h1 : d ≠ ' ' := fun he => by subst he; simp [Char.isDigit] at h
  have h2 : d ≠ '\t' := fun he => by subst he; simp [Char.isDigit] at h
  have h3 : d ≠ '\n' := fun he => by subst he; simp [Char.isDigit] at h
  have h4 : d ≠ '\r' := fun he => by subst he; simp [Char.isDigit] at h
  constructor <;> simp [isMSpace, isSpTab, h1, h2, h3, h4]

theorem isAlpha_not_space {d : Char} (h : d.isAlpha = true) :
    isMSpace d = false ∧ isSpTab d = false := by
  have h1 : d ≠ ' ' := fun he => by subst he; simp [Char.isAlpha] at h
  have h2 : d ≠ '\t' := fun he => by subst he; simp [Char.isAlpha] at h
  have h3 : d ≠ '\n' := fun he => by subst he; simp [Char.isAlpha] at h
  have h4 : d ≠ '\r' := fun he => by subst he; simp [Char.isAlpha] at h
  constructor <;> simp [isMSpace, isSpTab, h1, h2, h3, h4]

theorem printInt_head (v : Int) :
    ∃ d t, printInt v = d :: t ∧ isMSpace d = false ∧ isSpTab d = false ∧
      (d = '-' ∨ d.isDigit = true) := by
  obtain ⟨c, tl, hc, hcd⟩ := printNat_head v.natAbs
  by_cases hneg : v < 0
  · exact ⟨'-', printNat v.natAbs, by simp [printInt, hneg], by decide, by decide,
      Or.inl rfl⟩
  · exact ⟨c, tl, by simp [printInt, hneg, hc], (isDigit_not_space hcd).1,
      (isDigit_not_space hcd).2, Or.inr hcd⟩

theorem head_alpha_of_takeWhile {s : List Char} (h : s.takeWhile Char.isAlpha ≠ []) :
    ∃ c t, s = c :: t ∧ c.isAlpha = true := by
  cases s with
  | nil => simp at h
  | cons c t =>
    rcases hc : c.isAlpha with _ | _
    · rw [List.takeWhile_cons, hc] at h; simp at h
    · exact ⟨c, t, rfl, hc⟩

/-! ## Well-formedness facts -/

theorem mkData (v : String) : String.mk v.data = v := rfl

theorem wfName_head {v : String} (h : wfName v = true) :
    ∃ c t, v.data = c :: t ∧ c.isAlpha = true ∧ t.all Char.isAlphanum = true := by
  unfold wfName at h
  split at h
  · simp at h
  · next c t heq =>
    exact ⟨c, t, heq, (Bool.and_eq_true .. ▸ h).1, (Bool.and_eq_true .. ▸ h).2⟩

theorem wfCVName_props {v : String} (hv : wfCVName v = true) :
    v.data.takeWhile Char.isAlpha ≠ [] ∧
    ∃ c r2, v.data.dropWhile Char.isAlpha = '_' :: c :: r2 ∧ c.isAlpha = true ∧
      r2.all Char.isAlphanum = true := by
  unfold wfCVName at hv
  split at hv
  · next c r2 heq =>
    simp only [Bool.and_eq_true, decide_eq_true_eq] at hv
    exact ⟨hv.1.1, c, r2, heq, hv.1.2, hv.2⟩
  · simp at hv

theorem wfTerm_of_wfFactor {e : AffineExpr} (h : wfFactor e = true) :
    wfTerm e = true := by
  cases e <;> simp_all [wfFactor, wfTerm, wfAll]

theorem wfExpr_of_wfTerm {e : AffineExpr} (h : wfTerm e = true) :
    wfExpr e = true := by
  cases e <;> simp_all [wfTerm, wfExpr, wfAll]

theorem wfExpr_add (l r : AffineExpr) :
    wfExpr (.Add l r) = (wfExpr l && wfTerm r) := rfl

theorem wfExpr_sub (l r : AffineExpr) :
    wfExpr (.Sub l r) = (wfExpr l && wfTerm r) := rfl

theorem wfTerm_div (f : AffineExpr) (c : Coeff) :
    wfTerm (.Div f c) = (wfFactor f && wfCoeff c) := rfl

theorem wfTerm_mod (f : AffineExpr) (c : Coeff) :
    wfTerm (.Mod f c) = (wfFactor f && wfCoeff c) := rfl

theorem wfFactor_mul_var (c : Coeff) (v : String) :
    wfFactor (.Mul c (.Var v)) = (wfCoeff c && !(c == .Const 1) && wfName v) := rfl

theorem wfFactor_mul_of_ne (c : Coeff) (e : AffineExpr) (h : ∀ v, e ≠ .Var v) :
    wfFactor (.Mul c e) =
      (wfCoeff c && !(c == .Const 1) && (wfExpr e && !(coeffLike e))) := by
  cases e <;> first | (exact absurd rfl (h _)) | rfl

theorem wfCoeff_mul (l r : Coeff) :
    wfCoeff (.Mul l r) = (wfCoeff l && wfCoeffAtom r) := rfl

/-- `parse_const_var` on a printed `ConstVar` name followed by a continuation
that does not extend an identifier. -/
theorem parseConstVar_print {v : String} (hv : wfCVName v = true) {rest : List Char}
    (hr : NoExt rest) : parseConstVar (v.data ++ rest) = some (.ConstVar v, rest) := by
  obtain ⟨hne, c, r2, hm, hca, hall⟩ := wfCVName_props hv
  have htk : (v.data ++ rest).takeWhile Char.isAlpha = v.data.takeWhile Char.isAlpha :=
    takeWhile_append_of_stop rest hm
  have hdr : (v.data ++ rest).dropWhile Char.isAlpha = '_' :: (c :: r2) ++ rest :=
    dropWhile_append_of_stop rest hm
  have hwf2 : wfName (String.mk (c :: r2)) = true := by
    simp [wfName, hca, hall]
  have hid2 : parseIdent (c :: (r2 ++ rest)) = some (c :: r2, rest) := by
    simpa using parseIdent_print hwf2 hr
  have hsplit : v.data.takeWhile Char.isAlpha ++ '_' :: c :: r2 = v.data := by
    conv_rhs => rw [← List.takeWhile_append_dropWhile (p := Char.isAlpha) (l := v.data)]
    rw [hm]
  simp only [parseConstVar, htk, hdr, List.cons_append]
  rw [if_neg hne]
  simp [hid2, hsplit, mkData]

/-! ## Head characters of printed coefficients and expressions -/

theorem printCoeff_head {c : Coeff} (hc : wfCoeff c = true) :
    ∃ d t, printCoeff c = d :: t ∧ isMSpace d = false ∧ isSpTab d = false := by
  induction c with
  | Const n =>
    obtain ⟨d, t, h1, h2, h3, _⟩ := printInt_head n
    exact ⟨d, t, h1, h2, h3⟩
  | ConstVar v =>
    obtain ⟨hne, _, _, _, _, _⟩ := wfCVName_props hc
    obtain ⟨d, t, hdt, hda⟩ := head_alpha_of_takeWhile hne
    exact ⟨d, t, by simp [printCoeff, hdt], (isAlpha_not_space hda).1,
      (isAlpha_not_space hda).2⟩
  | Mul l r ihl _ =>
    have hl : wfCoeff l = true := by
      rw [wfCoeff_mul] at hc
      exact (Bool.and_eq_true .. ▸ hc).1
    obtain ⟨d, t, h1, h2, h3⟩ := ihl hl
    exact ⟨d, t ++ ' ' :: '*' :: ' ' :: printCoeff r, by simp [printCoeff, h1], h2, h3⟩

theorem printExpr_head {e : AffineExpr} (he : wfExpr e = true) :
    ∃ d t, printExpr e = d :: t ∧ isMSpace d = false ∧ isSpTab d = false := by
  induction e with
  | Var v =>
    obtain ⟨c, t, hct, hca, _⟩ := wfName_head he
    exact ⟨c, t, by simp [printExpr, hct], (isAlpha_not_space hca).1,
      (isAlpha_not_space hca).2⟩
  | Const n =>
    obtain ⟨d, t, h1, h2, h3, _⟩ := printInt_head n
    exact ⟨d, t, by simpa [printExpr] using h1, h2, h3⟩
  | Add l r ihl _ =>
    rw [wfExpr_add] at he
    obtain ⟨d, t, h1, h2, h3⟩ := ihl (Bool.and_eq_true .. ▸ he).1
    exact ⟨d, t ++ ' ' :: '+' :: ' ' :: printExpr r, by simp [printExpr, h1], h2, h3⟩
  | Sub l r ihl _ =>
    rw [wfExpr_sub] at he
    obtain ⟨d, t, h1, h2, h3⟩ := ihl (Bool.and_eq_true .. ▸ he).1
    exact ⟨d, t ++ ' ' :: '-' :: ' ' :: printExpr r, by simp [printExpr, h1], h2, h3⟩
  | Mul c e2 _ =>
    have hc : wfCoeff c = true := by
      cases e2 <;> simp_all [wfExpr, wfAll]
    obtain ⟨d, t, h1, h2, h3⟩ := printCoeff_head hc
    have hX : ∃ X, printExpr (.Mul c e2) = printCoeff c ++ X := by
      cases e2 <;> exact ⟨_, rfl⟩
    obtain ⟨X, hXe⟩ := hX
    exact ⟨d, t ++ X, by simp [hXe, h1], h2, h3⟩
  | Div f c ihf =>
    rw [show wfExpr (.Div f c) = (wfFactor f && wfCoeff c) from rfl] at he
    obtain ⟨d, t, h1, h2, h3⟩ :=
      ihf (wfExpr_of_wfTerm (wfTerm_of_wfFactor (Bool.and_eq_true .. ▸ he).1))
    exact ⟨d, t ++ ' ' :: '/' :: ' ' :: printCoeff c, by simp [printExpr, h1], h2, h3⟩
  | Mod f c ihf =>
    rw [show wfExpr (.Mod f c) = (wfFactor f && wfCoeff c) from rfl] at he
    obtain ⟨d, t, h1, h2, h3⟩ :=
      ihf (wfExpr_of_wfTerm (wfTerm_of_wfFactor (Bool.and_eq_true .. ▸ he).1))
    exact ⟨d, t ++ ' ' :: '%' :: ' ' :: printCoeff c, by simp [printExpr, h1], h2, h3⟩

theorem isDigit_false_of_isAlpha {c : Char} (h : c.isAlpha = true) :
    c.isDigit = false := by
  rcases hd : c.isDigit with _ | _
  · rfl
  · exfalso
    simp [Char.isAlpha, Char.isUpper, Char.isLower, Char.le_def] at h
    simp [Char.isDigit, Char.le_def] at hd
    have n1 : (48 : Nat) ≤ c.val.toNat := hd.1
    have n2 : c.val.toNat ≤ (57 : Nat) := hd.2
    rcases h with ⟨h1, _⟩ | ⟨h1, _⟩
    · have m1 : (65 : Nat) ≤ c.val.toNat := h1
      omega
    · have m1 : (97 : Nat) ≤ c.val.toNat := h1
      omega

theorem isAlpha_not_signs {c : Char} (h : c.isAlpha = true) :
    c ≠ '-' ∧ c ≠ '+' ∧ c ≠ '(' ∧ c ≠ '*' := by
  refine ⟨?_, ?_, ?_, ?_⟩ <;> intro he <;> subst he <;> simp [Char.isAlpha] at h

theorem msp0_of_head1 {x : List Char} {d : Char} {t : List Char} (h : x = d :: t)
    (hd : isMSpace d = false) : msp0 x = x := by
  subst h
  simp [msp0, List.dropWhile, hd]

theorem sp0_of_head1 {x : List Char} {d : Char} {t : List Char} (h : x = d :: t)
    (hd : isSpTab d = false) : sp0 x = x := by
  subst h
  simp [sp0, List.dropWhile, hd]

theorem msp0_print_app {e : AffineExpr} (he : wfExpr e = true) (rest : List Char) :
    msp0 (printExpr e ++ rest) = printExpr e ++ rest := by
  obtain ⟨d, t, h1, h2, _⟩ := printExpr_head he
  exact msp0_of_head1 (t := t ++ rest) (by simp [h1]) h2

theorem msp0_printCoeff_app {c : Coeff} (hc : wfCoeff c = true) (rest : List Char) :
    msp0 (printCoeff c ++ rest) = printCoeff c ++ rest := by
  obtain ⟨d, t, h1, h2, _⟩ := printCoeff_head hc
  exact msp0_of_head1 (t := t ++ rest) (by simp [h1]) h2

/-! ## Failure of every factor alternative on a stopped input

A continuation that a printed sub-expression leaves behind begins (after
the spaces that `stopCore` strips) with one of the characters of `SFact`,
none of which can begin a factor; the whole alternative chain of
`parse_factor` and `parse_factor_coeff` fails there at every fuel. -/

def StoppedHead (x : List Char) : Prop :=
  match x with
  | [] => True
  | c :: r =>
    c ∈ SFact ∧ ((c = '+' ∨ c = '-') → ∀ d, r.head? = some d → d.isDigit = false)

theorem stoppedHead_stopCore {r : List Char} (h : StopAt SFact r) :
    StoppedHead (stopCore r) := by
  unfold StopAt at h
  rcases hc : stopCore r with _ | ⟨c, r2⟩ <;> rw [hc] at h
  · trivial
  · exact h

theorem stoppedHead_msp0 {x : List Char} (h : StoppedHead x) :
    msp0 x = x ∧ sp0 x = x := by
  cases x with
  | nil => exact ⟨rfl, rfl⟩
  | cons c r =>
    have hp := sfact_mem_props h.1
    exact ⟨msp0_of_head1 rfl hp.2.2.1, sp0_of_head1 rfl hp.2.2.2.1⟩

theorem parseConstVar_stopped {x : List Char} (h : StoppedHead x) :
    parseConstVar x = none := by
  apply parseConstVar_nalpha
  intro c hc
  cases x with
  | nil => simp at hc
  | cons d r =>
    have hdc : d = c := by simpa using hc
    subst hdc
    exact (sfact_mem_props h.1).2.2.2.2.2.2.2

theorem parseInteger_stopped {x : List Char} (h : StoppedHead x) :
    parseInteger x = none := by
  cases x with
  | nil => rfl
  | cons c r =>
    obtain ⟨hmem, hsign⟩ := h
    by_cases hs : c = '-' ∨ c = '+'
    · exact parseInteger_sign_nodig hs (hsign (hs.elim Or.inr Or.inl))
    · apply parseInteger_nsign
      intro c2 hc2
      have hcc : c = c2 := by simpa using hc2
      subst hcc
      push_neg at hs
      exact ⟨hs.1, hs.2, (sfact_mem_props hmem).2.2.2.2.2.2.1⟩

theorem parseIdent_stopped {x : List Char} (h : StoppedHead x) :
    parseIdent x = none := by
  apply parseIdent_nalpha
  intro c hc
  cases x with
  | nil => simp at hc
  | cons d r =>
    have hdc : d = c := by simpa using hc
    subst hdc
    exact (sfact_mem_props h.1).2.2.2.2.2.2.2

theorem parseFactorCoeffF_stopped {x : List Char} (h : StoppedHead x) :
    ∀ fuel, parseFactorCoeffF fuel x = none := by
  intro fuel
  cases fuel with
  | zero => rfl
  | succ k =>
    simp only [parseFactorCoeffF, parseConstVar_stopped h, parseInteger_stopped h,
      (stoppedHead_msp0 h).1]
    cases x with
    | nil => rfl
    | cons c r =>
      have hne := (sfact_mem_props h.1).2.2.2.2.1
      split
      · next heq => exact absurd (List.cons.inj heq).1 hne
      · rfl

theorem parseCoeffF_stopped {x : List Char} (h : StoppedHead x) :
    ∀ fuel, parseCoeffF fuel x = none := by
  intro fuel
  cases fuel with
  | zero => rfl
  | succ k => simp [parseCoeffF, parseFactorCoeffF_stopped h k]

theorem parseMulF_stopped {x : List Char} (h : StoppedHead x) :
    ∀ fuel, parseMulF fuel x = none := by
  intro fuel
  cases fuel with
  | zero => rfl
  | succ k => simp [parseMulF, parseCoeffF_stopped h k]

theorem parseParensF_stopped {x : List Char} (h : StoppedHead x) :
    ∀ fuel, parseParensF fuel x = none := by
  intro fuel
  cases fuel with
  | zero => rfl
  | succ k =>
    simp only [parseParensF, (stoppedHead_msp0 h).1]
    cases x with
    | nil => rfl
    | cons c r =>
      have hne := (sfact_mem_props h.1).2.2.2.2.1
      split
      · next heq => exact absurd (List.cons.inj heq).1 hne
      · rfl

theorem parseFactorF_stopped {x : List Char} (h : StoppedHead x) :
    ∀ fuel, parseFactorF fuel x = none := by
  intro fuel
  cases fuel with
  | zero => rfl
  | succ k =>
    simp only [parseFactorF, (stoppedHead_msp0 h).1, parseMulF_stopped h k,
      parseInteger_stopped h, parseIdent_stopped h, parseParensF_stopped h k]

/-! ## Failure of the coefficient alternatives on `'*'`-headed input -/

theorem parseFactorCoeffF_star (y : List Char) :
    ∀ fuel, parseFactorCoeffF fuel ('*' :: y) = none := by
  intro fuel
  cases fuel with
  | zero => rfl
  | succ k =>
    have hcv : parseConstVar ('*' :: y) = none := by
      apply parseConstVar_nalpha
      intro c hc
      have hcc : '*' = c := by simpa using hc
      subst hcc
      decide
    have hint : parseInteger ('*' :: y) = none := by
      apply parseInteger_nsign
      intro c hc
      have hcc : '*' = c := by simpa using hc
      subst hcc
      exact ⟨by decide, by decide, by decide⟩
    have hm : msp0 ('*' :: y) = '*' :: y := msp0_of_head1 rfl (by decide)
    simp only [parseFactorCoeffF, hcv, hint, hm]
    split
    · next heq => exact absurd (List.cons.inj heq).1 (by decide)
    · rfl

theorem parseCoeffF_star (y : List Char) : ∀ fuel, parseCoeffF fuel ('*' :: y) = none := by
  intro fuel
  cases fuel with
  | zero => rfl
  | succ k => simp [parseCoeffF, parseFactorCoeffF_star y k]

theorem parseMulF_star (y : List Char) : ∀ fuel, parseMulF fuel ('*' :: y) = none := by
  intro fuel
  cases fuel with
  | zero => rfl
  | succ k => simp [parseMulF, parseCoeffF_star y k]

theorem parseParensF_star (y : List Char) :
    ∀ fuel, parseParensF fuel ('*' :: y) = none := by
  intro fuel
  cases fuel with
  | zero => rfl
  | succ k =>
    have hm : msp0 ('*' :: y) = '*' :: y := msp0_of_head1 rfl (by decide)
    simp only [parseParensF, hm]
    split
    · next heq => exact absurd (List.cons.inj heq).1 (by decide)
    · rfl

theorem parseFactorF_star (y : List Char) :
    ∀ fuel, parseFactorF fuel ('*' :: y) = none := by
  intro fuel
  cases fuel with
  | zero => rfl
  | succ k =>
    have hm : msp0 ('*' :: y) = '*' :: y := msp0_of_head1 rfl (by decide)
    have hid : parseIdent ('*' :: y) = none := by
      apply parseIdent_nalpha
      intro c hc
      have hcc : '*' = c := by simpa using hc
      subst hcc
      decide
    have hint : parseInteger ('*' :: y) = none := by
      apply parseInteger_nsign
      intro c hc
      have hcc : '*' = c := by simpa using hc
      subst hcc
      exact ⟨by decide, by decide, by decide⟩
    simp only [parseFactorF, hm, parseMulF_star y k, hint, hid, parseParensF_star y k]

/-! ## Failure of the coefficient alternatives on a plain variable name -/

theorem msp0_name {v : String} (hv : wfName v = true) (rest : List Char) :
    msp0 (v.data ++ rest) = v.data ++ rest := by
  obtain ⟨c, t, hct, hca, _⟩ := wfName_head hv
  exact msp0_of_head1 (t := t ++ rest) (by simp [hct]) (isAlpha_not_space hca).1

theorem parseInteger_name {v : String} (hv : wfName v = true) (rest : List Char) :
    parseInteger (v.data ++ rest) = none := by
  obtain ⟨c, t, hct, hca, _⟩ := wfName_head hv
  apply parseInteger_nsign
  intro c2 hc2
  have hcc : c = c2 := by
    rw [hct] at hc2
    simpa using hc2
  subst hcc
  obtain ⟨h1, h2, _, _⟩ := isAlpha_not_signs hca
  exact ⟨h1, h2, isDigit_false_of_isAlpha hca⟩

theorem parseFactorCoeffF_name {v : String} (hv : wfName v = true) {rest : List Char}
    (hr : NoExt rest) : ∀ fuel, parseFactorCoeffF fuel (v.data ++ rest) = none := by
  intro fuel
  cases fuel with
  | zero => rfl
  | succ k =>
    obtain ⟨c, t, hct, hca, _⟩ := wfName_head hv
    simp only [parseFactorCoeffF, parseConstVar_name hv hr, parseInteger_name hv rest,
      msp0_name hv rest]
    split
    · next heq =>
      rw [hct, List.cons_append] at heq
      exact absurd (List.cons.inj heq).1 (isAlpha_not_signs hca).2.2.1
    · rfl

theorem parseCoeffF_name {v : String} (hv : wfName v = true) {rest : List Char}
    (hr : NoExt rest) : ∀ fuel, parseCoeffF fuel (v.data ++ rest) = none := by
  intro fuel
  cases fuel with
  | zero => rfl
  | succ k => simp [parseCoeffF, parseFactorCoeffF_name hv hr k]

theorem parseMulF_name {v : String} (hv : wfName v = true) {rest : List Char}
    (hr : NoExt rest) : ∀ fuel, parseMulF fuel (v.data ++ rest) = none := by
  intro fuel
  cases fuel with
  | zero => rfl
  | succ k => simp [parseMulF, parseCoeffF_name hv hr k]

/-! ## Failure of the token parsers on `'('`-headed input -/

theorem parseConstVar_paren (y : List Char) : parseConstVar ('(' :: y) = none := by
  apply parseConstVar_nalpha
  intro c hc
  have hcc : '(' = c := by simpa using hc
  subst hcc
  decide

theorem parseInteger_paren (y : List Char) : parseInteger ('(' :: y) = none := by
  apply parseInteger_nsign
  intro c hc
  have hcc : '(' = c := by simpa using hc
  subst hcc
  exact ⟨by decide, by decide, by decide⟩

theorem parseIdent_paren (y : List Char) : parseIdent ('(' :: y) = none := by
  apply parseIdent_nalpha
  intro c hc
  have hcc : '(' = c := by simpa using hc
  subst hcc
  decide

/-! ## Operator-headed leftovers -/

def OpChars : List Char := ['*', '+', '-', '/', '%']

/-- The leftover of a partial coefficient parse of a printed expression
starts, after whitespace, with an infix operator (never with `')'`). -/
def OpHead (x : List Char) : Prop :=
  match msp0 x with
  | c :: _ => c ∈ OpChars
  | [] => False

theorem opHead_not_rparen {x : List Char} (h : OpHead x) :
    ∃ c r, msp0 x = c :: r ∧ c ≠ ')' := by
  unfold OpHead at h
  rcases hm : msp0 x with _ | ⟨c, r⟩ <;> rw [hm] at h
  · exact h.elim
  · refine ⟨c, r, rfl, ?_⟩
    intro he
    subst he
    simp [OpChars] at h

/-! ## Coefficient chains

`printCoeff` flattens the left-associated `Mul` spine of a coefficient into
its atoms separated by `" * "`; `parse_coeff` rebuilds exactly that spine by
left-folding `many0('*' factor)`. -/

def catoms : Coeff → List Coeff
  | .Mul l r => catoms l ++ [r]
  | a => [a]

def cfoldl (acc : Coeff) : List Coeff → Coeff
  | [] => acc
  | a :: rest => cfoldl (.Mul acc a) rest

def printCTail : List Coeff → List Char
  | [] => []
  | a :: rest => ' ' :: '*' :: ' ' :: (printCoeff a ++ printCTail rest)

theorem cfoldl_append (acc : Coeff) (xs ys : List Coeff) :
    cfoldl acc (xs ++ ys) = cfoldl (cfoldl acc xs) ys := by
  induction xs generalizing acc with
  | nil => rfl
  | cons x xs ih => simp [cfoldl, ih]

theorem printCTail_append (xs ys : List Coeff) :
    printCTail (xs ++ ys) = printCTail xs ++ printCTail ys := by
  induction xs with
  | nil => rfl
  | cons x xs ih => simp [printCTail, ih]

theorem wfCoeff_of_atom {a : Coeff} (h : wfCoeffAtom a = true) : wfCoeff a = true := by
  cases a <;> simp_all [wfCoeffAtom, wfCoeff]

theorem isAlpha_false_of_isDigit {c : Char} (h : c.isDigit = true) :
    c.isAlpha = false := by
  rcases ha : c.isAlpha with _ | _
  · rfl
  · exact absurd h (by simp [isDigit_false_of_isAlpha ha])

theorem catoms_spec (c : Coeff) (hc : wfCoeff c = true) :
    ∃ a rest, catoms c = a :: rest ∧ cfoldl a rest = c ∧
      printCoeff c = printCoeff a ++ printCTail rest ∧
      wfCoeffAtom a = true ∧ (∀ x ∈ rest, wfCoeffAtom x = true) := by
  induction c with
  | Const n => exact ⟨.Const n, [], rfl, rfl, by simp [printCTail], hc, by simp⟩
  | ConstVar v => exact ⟨.ConstVar v, [], rfl, rfl, by simp [printCTail], hc, by simp⟩
  | Mul l r ihl _ =>
    rw [wfCoeff_mul] at hc
    have hc2 := Bool.and_eq_true .. ▸ hc
    obtain ⟨a, rest, h1, h2, h3, h4, h5⟩ := ihl hc2.1
    refine ⟨a, rest ++ [r], by simp [catoms, h1], ?_, ?_, h4, ?_⟩
    · rw [cfoldl_append, h2]
      rfl
    · rw [show printCoeff (.Mul l r) = printCoeff l ++ ' ' :: '*' :: ' ' :: printCoeff r
          from rfl, h3, printCTail_append]
      simp [printCTail]
    · intro x hx
      rcases List.mem_append.mp hx with h | h
      · exact h5 x h
      · simp at h
        subst h
        exact hc2.2

/-- `parse_factor_coeff` on a printed atom. -/
theorem parseFactorCoeffF_atom {a : Coeff} (ha : wfCoeffAtom a = true) {r : List Char}
    (hrx : NoExt r) (hrd : NoDig r) :
    ∀ fuel, 1 ≤ fuel → parseFactorCoeffF fuel (printCoeff a ++ r) = some (a, r) := by
  intro fuel hf
  cases fuel with
  | zero => omega
  | succ k =>
    cases a with
    | Const n =>
      have hi : inI32 n = true := ha
      have hcv : parseConstVar (printInt n ++ r) = none := by
        obtain ⟨d, t, h1, _, _, hd⟩ := printInt_head n
        apply parseConstVar_nalpha
        intro c hc
        rw [h1] at hc
        have hcc : d = c := by simpa using hc
        subst hcc
        rcases hd with rfl | hdig
        · decide
        · exact isAlpha_false_of_isDigit hdig
      simp only [printCoeff, parseFactorCoeffF, hcv, parseInteger_print hi hrd]
    | ConstVar v =>
      have hw : wfCVName v = true := ha
      simp only [printCoeff, parseFactorCoeffF, parseConstVar_print hw hrx]
    | Mul l r2 => simp [wfCoeffAtom] at ha

/-! ## Step lemmas for the `many0` loops -/

theorem msp0_cons_space (x : List Char) : msp0 (' ' :: x) = msp0 x := by
  have h : isMSpace ' ' = true := by decide
  simp [msp0, List.dropWhile_cons, h]

theorem parseCoeffTailF_star_step (k : Nat) (acc : Coeff) {s t : List Char}
    (hm : msp0 s = '*' :: t) :
    parseCoeffTailF (k + 1) acc s =
      (match parseFactorCoeffF k (msp0 t) with
       | some (c, rest2) => parseCoeffTailF k (.Mul acc c) rest2
       | none => some (acc, s)) := by
  simp only [parseCoeffTailF, hm]

theorem parseCoeffTailF_stop_step (k : Nat) (acc : Coeff) {s : List Char}
    (hm : ∀ t, msp0 s ≠ '*' :: t) :
    parseCoeffTailF (k + 1) acc s = some (acc, s) := by
  simp only [parseCoeffTailF]


theorem noExt_space (x : List Char) : NoExt (' ' :: x) := by
  intro c hc
  have h2 : ' ' = c := by simpa using hc
  subst h2
  exact ⟨by decide, by decide⟩

theorem noDig_space (x : List Char) : NoDig (' ' :: x) := by
  intro c hc
  have h2 : ' ' = c := by simpa using hc
  subst h2
  decide

theorem noExt_printCTail {atoms : List Coeff} {r : List Char} (hrx : NoExt r) :
    NoExt (printCTail atoms ++ r) := by
  cases atoms with
  | nil => simpa [printCTail] using hrx
  | cons b bs =>
    simp only [printCTail, List.cons_append]
    exact noExt_space _

theorem noDig_printCTail {atoms : List Coeff} {r : List Char} (hrd : NoDig r) :
    NoDig (printCTail atoms ++ r) := by
  cases atoms with
  | nil => simpa [printCTail] using hrd
  | cons b bs =>
    simp only [printCTail, List.cons_append]
    exact noDig_space _

/-- The `many0('*' factor)` loop stops at the continuation `r`: either `r`
does not continue with `'*'`, or the factor after the `'*'` fails. -/
def TailStops (r : List Char) : Prop :=
  ∀ t, msp0 r = '*' :: t → ∀ fuel, parseFactorCoeffF fuel (msp0 t) = none

theorem tailStops_of_stopAt {r : List Char} (h : StopAt STerm r) : TailStops r := by
  intro t hm fuel
  exfalso
  have hsf : StopAt SFact r := stopAt_mono sterm_sub_sfact h
  rw [msp0_eq_stopCore hsf] at hm
  unfold StopAt at h
  rw [hm] at h
  have hmem := h.1
  simp [STerm] at hmem

theorem parseCoeffTailF_chain {atoms : List Coeff}
    (ha : ∀ x ∈ atoms, wfCoeffAtom x = true) {r : List Char} (hrx : NoExt r)
    (hrd : NoDig r) (hts : TailStops r) :
    ∀ acc fuel, atoms.length + 1 ≤ fuel →
      parseCoeffTailF fuel acc (printCTail atoms ++ r) = some (cfoldl acc atoms, r) := by
  induction atoms with
  | nil =>
    intro acc fuel hf
    cases fuel with
    | zero => omega
    | succ k =>
      show parseCoeffTailF (k + 1) acc ([] ++ r) = some (acc, r)
      rw [List.nil_append]
      rcases hm : msp0 r with _ | ⟨c, t⟩
      · apply parseCoeffTailF_stop_step
        intro t2 h2
        rw [hm] at h2
        exact absurd h2 (by simp)
      · by_cases hcs : c = '*'
        · subst hcs
          rw [parseCoeffTailF_star_step k acc hm, hts t hm k]
        · apply parseCoeffTailF_stop_step
          intro t2 h2
          rw [hm] at h2
          exact hcs (List.cons.inj h2).1
  | cons a atoms ih =>
    intro acc fuel hf
    have hfl : atoms.length + 2 ≤ fuel := by simpa using hf
    cases fuel with
    | zero => omega
    | succ k =>
      have ha1 : wfCoeffAtom a = true := ha a (by simp)
      have haR : ∀ x ∈ atoms, wfCoeffAtom x = true := fun x hx => ha x (by simp [hx])
      have hm : msp0 (printCTail (a :: atoms) ++ r)
          = '*' :: (' ' :: (printCoeff a ++ (printCTail atoms ++ r))) := by
        simp only [printCTail, List.cons_append, List.append_assoc]
        rw [msp0_cons_space]
        exact msp0_of_head1 rfl (by decide)
      rw [parseCoeffTailF_star_step k acc hm]
      have hmsp2 : msp0 (' ' :: (printCoeff a ++ (printCTail atoms ++ r)))
          = printCoeff a ++ (printCTail atoms ++ r) := by
        rw [msp0_cons_space]
        exact msp0_printCoeff_app (wfCoeff_of_atom ha1) _
      rw [hmsp2, parseFactorCoeffF_atom ha1 (noExt_printCTail hrx)
        (noDig_printCTail hrd) k (by omega)]
      show parseCoeffTailF k (.Mul acc a) (printCTail atoms ++ r)
          = some (cfoldl acc (a :: atoms), r)
      rw [show cfoldl acc (a :: atoms) = cfoldl (.Mul acc a) atoms from rfl]
      exact ih haR (.Mul acc a) k (by omega)

/-- Fuel sufficient for `parse_coeff` on a printed chain: one frame per atom
plus the closing loop step. -/
def cNeed : Coeff → Nat
  | .Mul l _ => cNeed l + 1
  | _ => 2

theorem cNeed_eq (c : Coeff) : cNeed c = (catoms c).length + 1 := by
  induction c with
  | Const n => rfl
  | ConstVar v => rfl
  | Mul l r ihl _ => simp [cNeed, catoms, ihl]

/-- `parse_coeff` on a printed well-formed coefficient chain restores the
chain exactly, leaving the continuation untouched. -/
theorem parseCoeffF_print {c : Coeff} (hc : wfCoeff c = true) {r : List Char}
    (hrx : NoExt r) (hrd : NoDig r) (hts : TailStops r) :
    ∀ fuel, cNeed c ≤ fuel → parseCoeffF fuel (printCoeff c ++ r) = some (c, r) := by
  intro fuel hf
  obtain ⟨a, atomsR, h1, h2, h3, h4, h5⟩ := catoms_spec c hc
  have hlen : cNeed c = atomsR.length + 2 := by
    rw [cNeed_eq, h1]
    simp
  cases fuel with
  | zero => omega
  | succ k =>
    rw [h3, List.append_assoc]
    simp only [parseCoeffF]
    rw [parseFactorCoeffF_atom h4 (noExt_printCTail hrx) (noDig_printCTail hrd) k
      (by omega)]
    show parseCoeffTailF k a (printCTail atomsR ++ r) = some (c, r)
    rw [← h2]
    exact parseCoeffTailF_chain h5 hrx hrd hts a k (by omega)

/-! ## Partial coefficient parses (arbitrary fuel) -/

theorem opChars_not_space {d : Char} (hd : d ∈ OpChars) :
    isMSpace d = false ∧ isSpTab d = false ∧ d ≠ '(' := by
  fin_cases hd <;> exact ⟨by decide, by decide, by decide⟩

theorem tailStops_space_op {d : Char} (hd : d ∈ OpChars) (hds : d ≠ '*')
    (y : List Char) : TailStops (' ' :: d :: y) := by
  intro t hm fuel
  rw [msp0_cons_space, msp0_of_head1 rfl (opChars_not_space hd).1] at hm
  exact absurd (List.cons.inj hm).1 hds

theorem opHead_space_op {d : Char} (hd : d ∈ OpChars) (y : List Char) :
    OpHead (' ' :: d :: y) := by
  unfold OpHead
  rw [msp0_cons_space, msp0_of_head1 rfl (opChars_not_space hd).1]
  exact hd

theorem coeffLike_wf_const {l : AffineExpr} (hw : wfExpr l = true)
    (hc : coeffLike l = true) : ∃ n, l = .Const n ∧ inI32 n = true := by
  cases l with
  | Const n => exact ⟨n, rfl, hw⟩
  | Mul c e2 => cases e2 <;> simp_all [coeffLike, wfExpr, wfAll]
  | Var v => simp [coeffLike] at hc
  | Add l r => simp [coeffLike] at hc
  | Sub l r => simp [coeffLike] at hc
  | Div f c => simp [coeffLike] at hc
  | Mod f c => simp [coeffLike] at hc

theorem parseCoeffTailF_chain_all {atoms : List Coeff}
    (ha : ∀ x ∈ atoms, wfCoeffAtom x = true) {r : List Char} (hrx : NoExt r)
    (hrd : NoDig r) (hts : TailStops r) :
    ∀ acc fuel, parseCoeffTailF fuel acc (printCTail atoms ++ r) = none ∨
      ∃ c2 lo, parseCoeffTailF fuel acc (printCTail atoms ++ r) = some (c2, lo) ∧
        (lo = r ∨ OpHead lo) := by
  induction atoms with
  | nil =>
    intro acc fuel
    cases fuel with
    | zero => exact Or.inl rfl
    | succ k =>
      right
      refine ⟨acc, r, ?_, Or.inl rfl⟩
      have hnil : ∀ x ∈ ([] : List Coeff), wfCoeffAtom x = true := by simp
      have hch := parseCoeffTailF_chain hnil hrx hrd hts acc (k + 1) (by simp)
      simpa [printCTail, cfoldl] using hch
  | cons a atoms ih =>
    intro acc fuel
    cases fuel with
    | zero => exact Or.inl rfl
    | succ k =>
      have ha1 : wfCoeffAtom a = true := ha a (by simp)
      have haR : ∀ x ∈ atoms, wfCoeffAtom x = true := fun x hx => ha x (by simp [hx])
      have hm : msp0 (printCTail (a :: atoms) ++ r)
          = '*' :: (' ' :: (printCoeff a ++ (printCTail atoms ++ r))) := by
        simp only [printCTail, List.cons_append, List.append_assoc]
        rw [msp0_cons_space]
        exact msp0_of_head1 rfl (by decide)
      rw [parseCoeffTailF_star_step k acc hm]
      cases k with
      | zero =>
        right
        exact ⟨acc, printCTail (a :: atoms) ++ r, rfl,
          Or.inr (by unfold OpHead; rw [hm]; simp [OpChars])⟩
      | succ k2 =>
        have hmsp2 : msp0 (' ' :: (printCoeff a ++ (printCTail atoms ++ r)))
            = printCoeff a ++ (printCTail atoms ++ r) := by
          rw [msp0_cons_space]
          exact msp0_printCoeff_app (wfCoeff_of_atom ha1) _
        rw [hmsp2, parseFactorCoeffF_atom ha1 (noExt_printCTail hrx)
          (noDig_printCTail hrd) (k2 + 1) (by omega)]
        exact ih haR (.Mul acc a) (k2 + 1)

theorem parseCoeffF_print_all {c : Coeff} (hc : wfCoeff c = true) {r : List Char}
    (hrx : NoExt r) (hrd : NoDig r) (hts : TailStops r) :
    ∀ fuel, parseCoeffF fuel (printCoeff c ++ r) = none ∨
      ∃ c2 lo, parseCoeffF fuel (printCoeff c ++ r) = some (c2, lo) ∧
        (lo = r ∨ OpHead lo) := by
  intro fuel
  obtain ⟨a, atomsR, h1, h2, h3, h4, h5⟩ := catoms_spec c hc
  cases fuel with
  | zero => exact Or.inl rfl
  | succ k =>
    rw [h3, List.append_assoc]
    cases k with
    | zero =>
      left
      simp [parseCoeffF, parseFactorCoeffF]
    | succ k2 =>
      simp only [parseCoeffF]
      rw [parseFactorCoeffF_atom h4 (noExt_printCTail hrx) (noDig_printCTail hrd)
        (k2 + 1) (by omega)]
      exact parseCoeffTailF_chain_all h5 hrx hrd hts a (k2 + 1)

theorem parseFactorCoeffF_parens_fail {e2 : AffineExpr}
    (hIH : ∀ r : List Char, NoExt r → NoDig r → ∀ fuel,
      parseCoeffF fuel (printExpr e2 ++ r) = none ∨
      ∃ c2 lo, parseCoeffF fuel (printExpr e2 ++ r) = some (c2, lo) ∧ OpHead lo)
    (r : List Char) :
    ∀ fuel, parseFactorCoeffF fuel ('(' :: (printExpr e2 ++ (')' :: r))) = none := by
  intro fuel
  cases fuel with
  | zero => rfl
  | succ k =>
    have hmp : msp0 ('(' :: (printExpr e2 ++ (')' :: r)))
        = '(' :: (printExpr e2 ++ (')' :: r)) := msp0_of_head1 rfl (by decide)
    simp only [parseFactorCoeffF, parseConstVar_paren, parseInteger_paren, hmp]
    have hx1 : NoExt (')' :: r) := by
      intro cc hcc
      have h2 : ')' = cc := by simpa using hcc
      subst h2
      exact ⟨by decide, by decide⟩
    have hx2 : NoDig (')' :: r) := by
      intro cc hcc
      have h2 : ')' = cc := by simpa using hcc
      subst h2
      decide
    rcases hIH (')' :: r) hx1 hx2 k with hnone | ⟨c2, lo, hsome, hop⟩
    · simp [hnone]
    · simp only [hsome]
      obtain ⟨cc, rr, hm2, hne⟩ := opHead_not_rparen hop
      simp only [hm2]
      split
      · next heq => exact absurd (List.cons.inj heq).1 hne
      · rfl

theorem parseCoeffF_const_then_op {n : Int} (hi : inI32 n = true) {d : Char}
    (hd : d ∈ OpChars) (hds : d ≠ '*') (y : List Char) :
    ∀ fuel, parseCoeffF fuel (printInt n ++ (' ' :: d :: y)) = none ∨
      ∃ c2 lo, parseCoeffF fuel (printInt n ++ (' ' :: d :: y)) = some (c2, lo) ∧
        OpHead lo := by
  intro fuel
  have hwc : wfCoeff (.Const n) = true := hi
  rcases parseCoeffF_print_all hwc (noExt_space _) (noDig_space _)
    (tailStops_space_op hd hds _) fuel with hnone | ⟨c2, lo, hsome, hor⟩
  · exact Or.inl hnone
  · right
    refine ⟨c2, lo, hsome, ?_⟩
    rcases hor with rfl | hop
    · exact opHead_space_op hd _
    · exact hop

theorem parseCoeffF_on_mul_parens {c : Coeff} {e2 : AffineExpr}
    (hwc : wfCoeff c = true)
    (hIH : ∀ r : List Char, NoExt r → NoDig r → ∀ fuel,
      parseCoeffF fuel (printExpr e2 ++ r) = none ∨
      ∃ c2 lo, parseCoeffF fuel (printExpr e2 ++ r) = some (c2, lo) ∧ OpHead lo)
    (r : List Char) :
    ∀ fuel,
      parseCoeffF fuel
        (printCoeff c ++ (' ' :: '*' :: ' ' :: ('(' :: (printExpr e2 ++ (')' :: r)))))
        = none ∨
      ∃ c2 lo,
        parseCoeffF fuel
          (printCoeff c ++ (' ' :: '*' :: ' ' :: ('(' :: (printExpr e2 ++ (')' :: r)))))
          = some (c2, lo) ∧ OpHead lo := by
  intro fuel
  have hts : TailStops (' ' :: '*' :: ' ' :: ('(' :: (printExpr e2 ++ (')' :: r)))) := by
    intro t hm fuel2
    rw [msp0_cons_space, msp0_of_head1 rfl (by decide)] at hm
    obtain ⟨_, h2⟩ := List.cons.inj hm
    rw [← h2, msp0_cons_space, msp0_of_head1 rfl (by decide)]
    exact parseFactorCoeffF_parens_fail hIH r fuel2
  rcases parseCoeffF_print_all hwc (noExt_space _) (noDig_space _) hts fuel with
    hnone | ⟨c2, lo, hsome, hor⟩
  · exact Or.inl hnone
  · right
    refine ⟨c2, lo, hsome, ?_⟩
    rcases hor with rfl | hop
    · exact opHead_space_op (by simp [OpChars]) _
    · exact hop

theorem wf_mul_parts {c : Coeff} {e2 : AffineExpr} (hn : ∀ v, e2 ≠ .Var v)
    (he : wfExpr (.Mul c e2) = true) :
    wfCoeff c = true ∧ wfExpr e2 = true ∧ coeffLike e2 = false := by
  have hf : wfFactor (.Mul c e2) = true := he
  rw [wfFactor_mul_of_ne c e2 hn] at hf
  simp only [Bool.and_eq_true, Bool.not_eq_true'] at hf
  exact ⟨hf.1.1, hf.2.1, hf.2.2⟩

theorem wf_mul_var_parts {c : Coeff} {v : String}
    (he : wfExpr (.Mul c (.Var v)) = true) :
    wfCoeff c = true ∧ wfName v = true := by
  have hf : wfFactor (.Mul c (.Var v)) = true := he
  rw [wfFactor_mul_var] at hf
  simp only [Bool.and_eq_true] at hf
  exact ⟨hf.1.1, hf.2⟩

/-- A coefficient parse of a printed non-constant well-formed expression
either fails or stops at an infix operator of the printed form (never at a
closing parenthesis); the coefficient grammar cannot swallow such an
expression. -/
theorem parseCoeffF_on_expr : ∀ e : AffineExpr, wfExpr e = true →
    coeffLike e = false → ∀ r : List Char, NoExt r → NoDig r → ∀ fuel,
    parseCoeffF fuel (printExpr e ++ r) = none ∨
      ∃ c2 lo, parseCoeffF fuel (printExpr e ++ r) = some (c2, lo) ∧ OpHead lo := by
  intro e
  induction e with
  | Var v =>
    intro he _ r hrx _ fuel
    exact Or.inl (parseCoeffF_name he hrx fuel)
  | Const n =>
    intro _ hcl r _ _ _
    simp [coeffLike] at hcl
  | Add l r2 ihl _ =>
    intro he _ r _ _ fuel
    rw [wfExpr_add] at he
    have he2 := Bool.and_eq_true .. ▸ he
    have hshape : printExpr (.Add l r2) ++ r
        = printExpr l ++ (' ' :: '+' :: ' ' :: (printExpr r2 ++ r)) := by
      simp [printExpr]
    rw [hshape]
    by_cases hcll : coeffLike l = true
    · obtain ⟨n, rfl, hi⟩ := coeffLike_wf_const he2.1 hcll
      exact parseCoeffF_const_then_op hi (by simp [OpChars]) (by decide) _ fuel
    · exact ihl he2.1 (by simpa using hcll) _ (noExt_space _) (noDig_space _) fuel
  | Sub l r2 ihl _ =>
    intro he _ r _ _ fuel
    rw [wfExpr_sub] at he
    have he2 := Bool.and_eq_true .. ▸ he
    have hshape : printExpr (.Sub l r2) ++ r
        = printExpr l ++ (' ' :: '-' :: ' ' :: (printExpr r2 ++ r)) := by
      simp [printExpr]
    rw [hshape]
    by_cases hcll : coeffLike l = true
    · obtain ⟨n, rfl, hi⟩ := coeffLike_wf_const he2.1 hcll
      exact parseCoeffF_const_then_op hi (by simp [OpChars]) (by decide) _ fuel
    · exact ihl he2.1 (by simpa using hcll) _ (noExt_space _) (noDig_space _) fuel
  | Mul c e2 ih =>
    intro he _ r hrx _ fuel
    cases e2 with
    | Var v =>
      obtain ⟨hwc, hwn⟩ := wf_mul_var_parts he
      have hshape : printExpr (.Mul c (.Var v)) ++ r
          = printCoeff c ++ (' ' :: '*' :: ' ' :: (v.data ++ r)) := by
        simp [printExpr]
      rw [hshape]
      have hts : TailStops (' ' :: '*' :: ' ' :: (v.data ++ r)) := by
        intro t hm fuel2
        rw [msp0_cons_space, msp0_of_head1 rfl (by decide)] at hm
        obtain ⟨_, h2⟩ := List.cons.inj hm
        rw [← h2, msp0_cons_space, msp0_name hwn r]
        exact parseFactorCoeffF_name hwn hrx fuel2
      rcases parseCoeffF_print_all hwc (noExt_space _) (noDig_space _) hts fuel with
        hnone | ⟨c2, lo, hsome, hor⟩
      · exact Or.inl hnone
      · right
        refine ⟨c2, lo, hsome, ?_⟩
        rcases hor with rfl | hop
        · exact opHead_space_op (by simp [OpChars]) _
        · exact hop
    | Const n =>
      have hp := wf_mul_parts (by intro v h; cases h) he
      exact absurd hp.2.2 (by simp [coeffLike])
    | Add a b =>
      obtain ⟨hwc, hwe, hcl2⟩ := wf_mul_parts (by intro v h; cases h) he
      have hshape : printExpr (.Mul c (.Add a b)) ++ r
          = printCoeff c ++
            (' ' :: '*' :: ' ' :: ('(' :: (printExpr (.Add a b) ++ (')' :: r)))) := by
        simp [printExpr]
      rw [hshape]
      exact parseCoeffF_on_mul_parens hwc (ih hwe hcl2) r fuel
    | Sub a b =>
      obtain ⟨hwc, hwe, hcl2⟩ := wf_mul_parts (by intro v h; cases h) he
      have hshape : printExpr (.Mul c (.Sub a b)) ++ r
          = printCoeff c ++
            (' ' :: '*' :: ' ' :: ('(' :: (printExpr (.Sub a b) ++ (')' :: r)))) := by
        simp [printExpr]
      rw [hshape]
      exact parseCoeffF_on_mul_parens hwc (ih hwe hcl2) r fuel
    | Mul c3 e3 =>
      obtain ⟨hwc, hwe, hcl2⟩ := wf_mul_parts (by intro v h; cases h) he
      have hshape : printExpr (.Mul c (.Mul c3 e3)) ++ r
          = printCoeff c ++
            (' ' :: '*' :: ' ' :: ('(' :: (printExpr (.Mul c3 e3) ++ (')' :: r)))) := by
        simp [printExpr]
      rw [hshape]
      exact parseCoeffF_on_mul_parens hwc (ih hwe hcl2) r fuel
    | Div a b =>
      obtain ⟨hwc, hwe, hcl2⟩ := wf_mul_parts (by intro v h; cases h) he
      have hshape : printExpr (.Mul c (.Div a b)) ++ r
          = printCoeff c ++
            (' ' :: '*' :: ' ' :: ('(' :: (printExpr (.Div a b) ++ (')' :: r)))) := by
        simp [printExpr]
      rw [hshape]
      exact parseCoeffF_on_mul_parens hwc (ih hwe hcl2) r fuel
    | Mod a b =>
      obtain ⟨hwc, hwe, hcl2⟩ := wf_mul_parts (by intro v h; cases h) he
      have hshape : printExpr (.Mul c (.Mod a b)) ++ r
          = printCoeff c ++
            (' ' :: '*' :: ' ' :: ('(' :: (printExpr (.Mod a b) ++ (')' :: r)))) := by
        simp [printExpr]
      rw [hshape]
      exact parseCoeffF_on_mul_parens hwc (ih hwe hcl2) r fuel
  | Div f c2 ihf =>
    intro he _ r _ _ fuel
    have hfc : wfFactor f = true ∧ wfCoeff c2 = true := by
      rw [show wfExpr (.Div f c2) = (wfFactor f && wfCoeff c2) from rfl] at he
      simpa using he
    have hwe : wfExpr f = true := wfExpr_of_wfTerm (wfTerm_of_wfFactor hfc.1)
    have hshape : printExpr (.Div f c2) ++ r
        = printExpr f ++ (' ' :: '/' :: ' ' :: (printCoeff c2 ++ r)) := by
      simp [printExpr]
    rw [hshape]
    by_cases hclf : coeffLike f = true
    · obtain ⟨n, rfl, hi⟩ := coeffLike_wf_const hwe hclf
      exact parseCoeffF_const_then_op hi (by simp [OpChars]) (by decide) _ fuel
    · exact ihf hwe (by simpa using hclf) _ (noExt_space _) (noDig_space _) fuel
  | Mod f c2 ihf =>
    intro he _ r _ _ fuel
    have hfc : wfFactor f = true ∧ wfCoeff c2 = true := by
      rw [show wfExpr (.Mod f c2) = (wfFactor f && wfCoeff c2) from rfl] at he
      simpa using he
    have hwe : wfExpr f = true := wfExpr_of_wfTerm (wfTerm_of_wfFactor hfc.1)
    have hshape : printExpr (.Mod f c2) ++ r
        = printExpr f ++ (' ' :: '%' :: ' ' :: (printCoeff c2 ++ r)) := by
      simp [printExpr]
    rw [hshape]
    by_cases hclf : coeffLike f = true
    · obtain ⟨n, rfl, hi⟩ := coeffLike_wf_const hwe hclf
      exact parseCoeffF_const_then_op hi (by simp [OpChars]) (by decide) _ fuel
    · exact ihf hwe (by simpa using hclf) _ (noExt_space _) (noDig_space _) fuel

/-! ## The `+`/`-` spine of a printed expression

`printExpr` flattens the left-associated `Add`/`Sub` spine into its leading
term followed by `" + "`/`" - "`-separated terms; `parse_expr` rebuilds the
spine by left-folding `many0(('+'|'-') term)`. -/

def spineHead : AffineExpr → AffineExpr
  | .Add l _ => spineHead l
  | .Sub l _ => spineHead l
  | e => e

def spineTerms : AffineExpr → List (Char × AffineExpr)
  | .Add l r => spineTerms l ++ [('+', r)]
  | .Sub l r => spineTerms l ++ [('-', r)]
  | _ => []

def spineFold (acc : AffineExpr) : List (Char × AffineExpr) → AffineExpr
  | [] => acc
  | (d, t) :: ts => spineFold (if d = '+' then .Add acc t else .Sub acc t) ts

def printSpineTail : List (Char × AffineExpr) → List Char
  | [] => []
  | (d, t) :: ts => ' ' :: d :: ' ' :: (printExpr t ++ printSpineTail ts)

theorem spineFold_append (acc : AffineExpr) (xs ys : List (Char × AffineExpr)) :
    spineFold acc (xs ++ ys) = spineFold (spineFold acc xs) ys := by
  induction xs generalizing acc with
  | nil => rfl
  | cons x xs ih => cases x with | mk d t => simp [spineFold, ih]

theorem printSpineTail_append (xs ys : List (Char × AffineExpr)) :
    printSpineTail (xs ++ ys) = printSpineTail xs ++ printSpineTail ys := by
  induction xs with
  | nil => rfl
  | cons x xs ih => cases x with | mk d t => simp [printSpineTail, ih]

theorem spine_decomp (e : AffineExpr) :
    printExpr e = printExpr (spineHead e) ++ printSpineTail (spineTerms e) := by
  induction e with
  | Add l r ihl _ =>
    rw [show printExpr (.Add l r) = printExpr l ++ ' ' :: '+' :: ' ' :: printExpr r
        from rfl, show spineHead (.Add l r) = spineHead l from rfl,
      show spineTerms (.Add l r) = spineTerms l ++ [('+', r)] from rfl,
      printSpineTail_append, ihl]
    simp [printSpineTail]
  | Sub l r ihl _ =>
    rw [show printExpr (.Sub l r) = printExpr l ++ ' ' :: '-' :: ' ' :: printExpr r
        from rfl, show spineHead (.Sub l r) = spineHead l from rfl,
      show spineTerms (.Sub l r) = spineTerms l ++ [('-', r)] from rfl,
      printSpineTail_append, ihl]
    simp [printSpineTail]
  | Var v => simp [spineHead, spineTerms, printSpineTail]
  | Const n => simp [spineHead, spineTerms, printSpineTail]
  | Mul c e2 _ => simp [spineHead, spineTerms, printSpineTail]
  | Div f c _ => simp [spineHead, spineTerms, printSpineTail]
  | Mod f c _ => simp [spineHead, spineTerms, printSpineTail]

theorem spineFold_spine (e : AffineExpr) :
    spineFold (spineHead e) (spineTerms e) = e := by
  induction e with
  | Add l r ihl _ =>
    rw [show spineHead (.Add l r) = spineHead l from rfl,
      show spineTerms (.Add l r) = spineTerms l ++ [('+', r)] from rfl,
      spineFold_append, ihl]
    simp [spineFold]
  | Sub l r ihl _ =>
    rw [show spineHead (.Sub l r) = spineHead l from rfl,
      show spineTerms (.Sub l r) = spineTerms l ++ [('-', r)] from rfl,
      spineFold_append, ihl]
    simp [spineFold]
  | Var v => rfl
  | Const n => rfl
  | Mul c e2 _ => rfl
  | Div f c _ => rfl
  | Mod f c _ => rfl

theorem spine_wf (e : AffineExpr) (he : wfExpr e = true) :
    wfTerm (spineHead e) = true ∧
      ∀ p ∈ spineTerms e, (p.1 = '+' ∨ p.1 = '-') ∧ wfTerm p.2 = true := by
  induction e with
  | Add l r ihl _ =>
    rw [wfExpr_add] at he
    have he2 := Bool.and_eq_true .. ▸ he
    obtain ⟨h1, h2⟩ := ihl he2.1
    refine ⟨h1, ?_⟩
    intro p hp
    rw [show spineTerms (.Add l r) = spineTerms l ++ [('+', r)] from rfl] at hp
    rcases List.mem_append.mp hp with hm | hm
    · exact h2 p hm
    · simp at hm
      subst hm
      exact ⟨Or.inl rfl, he2.2⟩
  | Sub l r ihl _ =>
    rw [wfExpr_sub] at he
    have he2 := Bool.and_eq_true .. ▸ he
    obtain ⟨h1, h2⟩ := ihl he2.1
    refine ⟨h1, ?_⟩
    intro p hp
    rw [show spineTerms (.Sub l r) = spineTerms l ++ [('-', r)] from rfl] at hp
    rcases List.mem_append.mp hp with hm | hm
    · exact h2 p hm
    · simp at hm
      subst hm
      exact ⟨Or.inr rfl, he2.2⟩
  | Var v => exact ⟨he, by simp [spineTerms]⟩
  | Const n => exact ⟨he, by simp [spineTerms]⟩
  | Mul c e2 _ => exact ⟨he, by simp [spineTerms]⟩
  | Div f c _ => exact ⟨he, by simp [spineTerms]⟩
  | Mod f c _ => exact ⟨he, by simp [spineTerms]⟩

def esize : AffineExpr → Nat
  | .Add l r => esize l + esize r + 1
  | .Sub l r => esize l + esize r + 1
  | .Mul _ e => esize e + 1
  | .Div f _ => esize f + 1
  | .Mod f _ => esize f + 1
  | _ => 1

theorem esize_pos (e : AffineExpr) : 1 ≤ esize e := by
  cases e <;> simp [esize]

theorem spineHead_esize (e : AffineExpr) : esize (spineHead e) ≤ esize e := by
  induction e with
  | Add l r ihl _ =>
    have := esize_pos r
    simp only [spineHead, esize]
    omega
  | Sub l r ihl _ =>
    have := esize_pos r
    simp only [spineHead, esize]
    omega
  | Var v => simp [spineHead]
  | Const n => simp [spineHead]
  | Mul c e2 _ => simp [spineHead]
  | Div f c _ => simp [spineHead]
  | Mod f c _ => simp [spineHead]

theorem spineTerms_esize (e : AffineExpr) :
    ∀ p ∈ spineTerms e, esize p.2 < esize e := by
  induction e with
  | Add l r ihl _ =>
    intro p hp
    rw [show spineTerms (.Add l r) = spineTerms l ++ [('+', r)] from rfl] at hp
    have hrp := esize_pos r
    have hlp := esize_pos l
    rcases List.mem_append.mp hp with hm | hm
    · have := ihl p hm
      simp only [esize]
      omega
    · simp at hm
      subst hm
      simp only [esize]
      omega
  | Sub l r ihl _ =>
    intro p hp
    rw [show spineTerms (.Sub l r) = spineTerms l ++ [('-', r)] from rfl] at hp
    have hrp := esize_pos r
    have hlp := esize_pos l
    rcases List.mem_append.mp hp with hm | hm
    · have := ihl p hm
      simp only [esize]
      omega
    · simp at hm
      subst hm
      simp only [esize]
      omega
  | Var v => simp [spineTerms]
  | Const n => simp [spineTerms]
  | Mul c e2 _ => simp [spineTerms]
  | Div f c _ => simp [spineTerms]
  | Mod f c _ => simp [spineTerms]

/-! ## Leftover bookkeeping -/

/-- The leftover of a sub-parse is the continuation, possibly with its
leading spaces consumed (`parse_term` consumes trailing whitespace through
`preceded(multispace0, opt(..))`; the `many0` loops backtrack to the raw
position). -/
def TrimEq (lo r : List Char) : Prop := lo = r ∨ lo = stopCore r

theorem trimEq_msp0 {lo r : List Char} (ht : TrimEq lo r) (h : StopAt SFact r) :
    msp0 lo = stopCore r := by
  rcases ht with rfl | rfl
  · exact msp0_eq_stopCore h
  · exact (stoppedHead_msp0 (stoppedHead_stopCore h)).1

theorem sp0_cons_space (x : List Char) : sp0 (' ' :: x) = sp0 x := by
  have h : isSpTab ' ' = true := by decide
  simp [sp0, List.dropWhile_cons, h]

theorem sterm_mem_props {c : Char} (h : c ∈ STerm) :
    c ≠ '/' ∧ c ≠ '%' ∧ c ≠ '*' := by
  fin_cases h <;> exact ⟨by decide, by decide, by decide⟩

theorem sexpr_mem_props {c : Char} (h : c ∈ SExpr) : c ≠ '+' ∧ c ≠ '-' := by
  fin_cases h <;> exact ⟨by decide, by decide⟩

/-- The continuation after any non-final term of a printed spine is a valid
term continuation. -/
theorem stopAt_spineTail {ts : List (Char × AffineExpr)}
    (hop : ∀ p ∈ ts, p.1 = '+' ∨ p.1 = '-') {r : List Char}
    (hst : StopAt SExpr r) : StopAt STerm (printSpineTail ts ++ r) := by
  cases ts with
  | nil =>
    simpa [printSpineTail] using stopAt_mono sexpr_sub_sterm hst
  | cons p ts =>
    cases p with
    | mk d t =>
      have hd : d = '+' ∨ d = '-' := hop (d, t) (by simp)
      have hdm : isMSpace d = false := by rcases hd with rfl | rfl <;> decide
      have hds : (d == ' ') = false := by rcases hd with rfl | rfl <;> decide
      unfold StopAt
      rw [show printSpineTail ((d, t) :: ts) ++ r
          = ' ' :: d :: ' ' :: (printExpr t ++ (printSpineTail ts ++ r)) by
        simp [printSpineTail]]
      rw [stopCore_cons_space, stopCore_cons_of hds]
      refine ⟨by rcases hd with rfl | rfl <;> simp [STerm], ?_⟩
      intro _ dd hdd
      have hsp : ' ' = dd := by simpa using hdd
      subst hsp
      decide

/-! ## Fuel accounting for the positive round-trip lemmas -/

def needs : AffineExpr → Nat × Nat × Nat
  | .Var _ => (1, 2, 3)
  | .Const _ => (1, 2, 3)
  | .Add l r => (1, 1, (needs l).2.2 + (needs r).2.1 + 2)
  | .Sub l r => (1, 1, (needs l).2.2 + (needs r).2.1 + 2)
  | .Mul c e2 =>
    let p : Nat :=
      match e2 with
      | .Var _ => 1
      | _ => (needs e2).2.2 + 2
    (cNeed c + p + 1, cNeed c + p + 2, cNeed c + p + 3)
  | .Div f c =>
    ((needs f).1 + cNeed c + 1, (needs f).1 + cNeed c + 1, (needs f).1 + cNeed c + 2)
  | .Mod f c =>
    ((needs f).1 + cNeed c + 1, (needs f).1 + cNeed c + 1, (needs f).1 + cNeed c + 2)

def fNeedOf (e : AffineExpr) : Nat := (needs e).1

def tNeedOf (e : AffineExpr) : Nat := (needs e).2.1

def eNeedOf (e : AffineExpr) : Nat := (needs e).2.2

def etNeed : List (Char × AffineExpr) → Nat
  | [] => 1
  | (_, t) :: ts => max (tNeedOf t) (etNeed ts) + 1

theorem tNeedOf_pos (e : AffineExpr) : 1 ≤ tNeedOf e := by
  cases e <;> simp [tNeedOf, needs]

theorem cNeed_pos (c : Coeff) : 2 ≤ cNeed c := by
  induction c <;> simp [cNeed]
  omega

theorem needs_mono (e : AffineExpr) : fNeedOf e ≤ tNeedOf e ∧ tNeedOf e ≤ eNeedOf e := by
  cases e <;> simp [fNeedOf, tNeedOf, eNeedOf, needs]

theorem etNeed_append (ts : List (Char × AffineExpr)) (d : Char) (b : AffineExpr) :
    etNeed (ts ++ [(d, b)]) ≤ etNeed ts + tNeedOf b + 1 := by
  induction ts with
  | nil => simp [etNeed]
  | cons p ts ih =>
    cases p with
    | mk d2 t2 =>
      simp only [List.cons_append, etNeed, List.append_eq] at ih ⊢
      omega

theorem eNeed_succ {e : AffineExpr} (h1 : ∀ l r, e ≠ .Add l r)
    (h2 : ∀ l r, e ≠ .Sub l r) : eNeedOf e = tNeedOf e + 1 := by
  cases e <;>
    first
    | (exact absurd rfl (h1 _ _))
    | (exact absurd rfl (h2 _ _))
    | simp [eNeedOf, tNeedOf, needs]

theorem eNeed_bridge (e : AffineExpr) :
    1 + max (tNeedOf (spineHead e)) (etNeed (spineTerms e)) ≤ eNeedOf e := by
  induction e with
  | Add l r ihl _ =>
    have hap := etNeed_append (spineTerms l) '+' r
    have h4 : eNeedOf (.Add l r) = eNeedOf l + tNeedOf r + 2 := rfl
    simp only [show spineHead (.Add l r) = spineHead l from rfl,
      show spineTerms (.Add l r) = spineTerms l ++ [('+', r)] from rfl]
    omega
  | Sub l r ihl _ =>
    have hap := etNeed_append (spineTerms l) '-' r
    have h4 : eNeedOf (.Sub l r) = eNeedOf l + tNeedOf r + 2 := rfl
    simp only [show spineHead (.Sub l r) = spineHead l from rfl,
      show spineTerms (.Sub l r) = spineTerms l ++ [('-', r)] from rfl]
    omega
  | Var v =>
    have h1 := tNeedOf_pos (.Var v)
    have h2 : eNeedOf (.Var v) = tNeedOf (.Var v) + 1 := rfl
    simp only [spineHead, spineTerms, etNeed]
    omega
  | Const n =>
    have h1 := tNeedOf_pos (.Const n)
    have h2 : eNeedOf (.Const n) = tNeedOf (.Const n) + 1 := rfl
    simp only [spineHead, spineTerms, etNeed]
    omega
  | Mul c e2 _ =>
    have h1 := tNeedOf_pos (.Mul c e2)
    have h2 : eNeedOf (.Mul c e2) = tNeedOf (.Mul c e2) + 1 :=
      eNeed_succ (by intro l r h; cases h) (by intro l r h; cases h)
    simp only [spineHead, spineTerms, etNeed]
    omega
  | Div f c _ =>
    have h1 := tNeedOf_pos (.Div f c)
    have h2 : eNeedOf (.Div f c) = tNeedOf (.Div f c) + 1 :=
      eNeed_succ (by intro l r h; cases h) (by intro l r h; cases h)
    simp only [spineHead, spineTerms, etNeed]
    omega
  | Mod f c _ =>
    have h1 := tNeedOf_pos (.Mod f c)
    have h2 : eNeedOf (.Mod f c) = tNeedOf (.Mod f c) + 1 :=
      eNeed_succ (by intro l r h; cases h) (by intro l r h; cases h)
    simp only [spineHead, spineTerms, etNeed]
    omega

theorem printCoeff_len_pos {c : Coeff} (hc : wfCoeff c = true) :
    1 ≤ (printCoeff c).length := by
  obtain ⟨d, t, h1, _, _⟩ := printCoeff_head hc
  simp [h1]

theorem cNeed_le_print {c : Coeff} (hc : wfCoeff c = true) :
    cNeed c ≤ (printCoeff c).length + 1 := by
  induction c with
  | Const n =>
    have h1 := printCoeff_len_pos hc
    have h2 : cNeed (.Const n) = 2 := rfl
    omega
  | ConstVar v =>
    have h1 := printCoeff_len_pos hc
    have h2 : cNeed (.ConstVar v) = 2 := rfl
    omega
  | Mul l r ihl _ =>
    rw [wfCoeff_mul] at hc
    have hc2 := Bool.and_eq_true .. ▸ hc
    have h1 := ihl hc2.1
    have h2 : cNeed (.Mul l r) = cNeed l + 1 := rfl
    have h3 : (printCoeff (.Mul l r)).length
        = (printCoeff l).length + 3 + (printCoeff r).length := by
      simp only [show printCoeff (.Mul l r)
          = printCoeff l ++ ' ' :: '*' :: ' ' :: printCoeff r from rfl,
        List.length_append, List.length_cons]
      omega
    omega

/-- The top-level fuel `8 * (length + 1)` always covers the fuel needed to
re-parse a printed well-formed expression. -/
theorem eNeed_le_print : ∀ e : AffineExpr, wfExpr e = true →
    eNeedOf e ≤ 8 * ((printExpr e).length + 1) := by
  intro e
  induction e with
  | Var v =>
    intro _
    have h : eNeedOf (.Var v) = 3 := rfl
    omega
  | Const n =>
    intro _
    have h : eNeedOf (.Const n) = 3 := rfl
    omega
  | Add l r ihl ihr =>
    intro he
    rw [wfExpr_add] at he
    have he2 := Bool.and_eq_true .. ▸ he
    have h1 := ihl he2.1
    have h2 := ihr (wfExpr_of_wfTerm he2.2)
    have h3 := (needs_mono r).2
    have h4 : eNeedOf (.Add l r) = eNeedOf l + tNeedOf r + 2 := rfl
    have h5 : (printExpr (.Add l r)).length
        = (printExpr l).length + 3 + (printExpr r).length := by
      simp only [show printExpr (.Add l r)
          = printExpr l ++ ' ' :: '+' :: ' ' :: printExpr r from rfl,
        List.length_append, List.length_cons]
      omega
    omega
  | Sub l r ihl ihr =>
    intro he
    rw [wfExpr_sub] at he
    have he2 := Bool.and_eq_true .. ▸ he
    have h1 := ihl he2.1
    have h2 := ihr (wfExpr_of_wfTerm he2.2)
    have h3 := (needs_mono r).2
    have h4 : eNeedOf (.Sub l r) = eNeedOf l + tNeedOf r + 2 := rfl
    have h5 : (printExpr (.Sub l r)).length
        = (printExpr l).length + 3 + (printExpr r).length := by
      simp only [show printExpr (.Sub l r)
          = printExpr l ++ ' ' :: '-' :: ' ' :: printExpr r from rfl,
        List.length_append, List.length_cons]
      omega
    omega
  | Mul c e2 ih =>
    intro he
    cases e2 with
    | Var v =>
      obtain ⟨hwc, _⟩ := wf_mul_var_parts he
      have h1 := cNeed_le_print hwc
      have h4 : eNeedOf (.Mul c (.Var v)) = cNeed c + 4 := rfl
      have h5 : (printExpr (.Mul c (.Var v))).length
          = (printCoeff c).length + 3 + v.data.length := by
        simp only [show printExpr (.Mul c (.Var v))
            = printCoeff c ++ ' ' :: '*' :: ' ' :: v.data from rfl,
          List.length_append, List.length_cons]
        omega
      omega
    | Const n =>
      have hp := wf_mul_parts (by intro v h; cases h) he
      exact absurd hp.2.2 (by simp [coeffLike])
    | Add a b =>
      obtain ⟨hwc, hwe, _⟩ := wf_mul_parts (by intro v h; cases h) he
      have h1 := cNeed_le_print hwc
      have h2 := ih hwe
      have h4 : eNeedOf (.Mul c (.Add a b)) = cNeed c + eNeedOf (.Add a b) + 5 := rfl
      have h5 : (printExpr (.Mul c (.Add a b))).length
          = (printCoeff c).length + 5 + (printExpr (.Add a b)).length := by
        simp only [show printExpr (.Mul c (.Add a b))
            = printCoeff c ++ ' ' :: '*' :: ' ' :: '(' :: (printExpr (.Add a b) ++ [')'])
            from rfl, List.length_append, List.length_cons, List.length_nil]
        omega
      omega
    | Sub a b =>
      obtain ⟨hwc, hwe, _⟩ := wf_mul_parts (by intro v h; cases h) he
      have h1 := cNeed_le_print hwc
      have h2 := ih hwe
      have h4 : eNeedOf (.Mul c (.Sub a b)) = cNeed c + eNeedOf (.Sub a b) + 5 := rfl
      have h5 : (printExpr (.Mul c (.Sub a b))).length
          = (printCoeff c).length + 5 + (printExpr (.Sub a b)).length := by
        simp only [show printExpr (.Mul c (.Sub a b))
            = printCoeff c ++ ' ' :: '*' :: ' ' :: '(' :: (printExpr (.Sub a b) ++ [')'])
            from rfl, List.length_append, List.length_cons, List.length_nil]
        omega
      omega
    | Mul c3 e3 =>
      obtain ⟨hwc, hwe, _⟩ := wf_mul_parts (by intro v h; cases h) he
      have h1 := cNeed_le_print hwc
      have h2 := ih hwe
      have h4 : eNeedOf (.Mul c (.Mul c3 e3)) = cNeed c + eNeedOf (.Mul c3 e3) + 5 := rfl
      have h5 : (printExpr (.Mul c (.Mul c3 e3))).length
          = (printCoeff c).length + 5 + (printExpr (.Mul c3 e3)).length := by
        simp only [show printExpr (.Mul c (.Mul c3 e3))
            = printCoeff c ++ ' ' :: '*' :: ' ' :: '(' :: (printExpr (.Mul c3 e3) ++ [')'])
            from rfl, List.length_append, List.length_cons, List.length_nil]
        omega
      omega
    | Div a b =>
      obtain ⟨hwc, hwe, _⟩ := wf_mul_parts (by intro v h; cases h) he
      have h1 := cNeed_le_print hwc
      have h2 := ih hwe
      have h4 : eNeedOf (.Mul c (.Div a b)) = cNeed c + eNeedOf (.Div a b) + 5 := rfl
      have h5 : (printExpr (.Mul c (.Div a b))).length
          = (printCoeff c).length + 5 + (printExpr (.Div a b)).length := by
        simp only [show printExpr (.Mul c (.Div a b))
            = printCoeff c ++ ' ' :: '*' :: ' ' :: '(' :: (printExpr (.Div a b) ++ [')'])
            from rfl, List.length_append, List.length_cons, List.length_nil]
        omega
      omega
    | Mod a b =>
      obtain ⟨hwc, hwe, _⟩ := wf_mul_parts (by intro v h; cases h) he
      have h1 := cNeed_le_print hwc
      have h2 := ih hwe
      have h4 : eNeedOf (.Mul c (.Mod a b)) = cNeed c + eNeedOf (.Mod a b) + 5 := rfl
      have h5 : (printExpr (.Mul c (.Mod a b))).length
          = (printCoeff c).length + 5 + (printExpr (.Mod a b)).length := by
        simp only [show printExpr (.Mul c (.Mod a b))
            = printCoeff c ++ ' ' :: '*' :: ' ' :: '(' :: (printExpr (.Mod a b) ++ [')'])
            from rfl, List.length_append, List.length_cons, List.length_nil]
        omega
      omega
  | Div f c2 ihf =>
    intro he
    have hfc : wfFactor f = true ∧ wfCoeff c2 = true := by
      rw [show wfExpr (.Div f c2) = (wfFactor f && wfCoeff c2) from rfl] at he
      simpa using he
    have h1 := cNeed_le_print hfc.2
    have h2 := ihf (wfExpr_of_wfTerm (wfTerm_of_wfFactor hfc.1))
    have h3a := (needs_mono f).1
    have h3b := (needs_mono f).2
    have h4 : eNeedOf (.Div f c2) = fNeedOf f + cNeed c2 + 2 := rfl
    have h5 : (printExpr (.Div f c2)).length
        = (printExpr f).length + 3 + (printCoeff c2).length := by
      simp only [show printExpr (.Div f c2)
          = printExpr f ++ ' ' :: '/' :: ' ' :: printCoeff c2 from rfl,
        List.length_append, List.length_cons]
      omega
    omega
  | Mod f c2 ihf =>
    intro he
    have hfc : wfFactor f = true ∧ wfCoeff c2 = true := by
      rw [show wfExpr (.Mod f c2) = (wfFactor f && wfCoeff c2) from rfl] at he
      simpa using he
    have h1 := cNeed_le_print hfc.2
    have h2 := ihf (wfExpr_of_wfTerm (wfTerm_of_wfFactor hfc.1))
    have h3a := (needs_mono f).1
    have h3b := (needs_mono f).2
    have h4 : eNeedOf (.Mod f c2) = fNeedOf f + cNeed c2 + 2 := rfl
    have h5 : (printExpr (.Mod f c2)).length
        = (printExpr f).length + 3 + (printCoeff c2).length := by
      simp only [show printExpr (.Mod f c2)
          = printExpr f ++ ' ' :: '%' :: ' ' :: printCoeff c2 from rfl,
        List.length_append, List.length_cons]
      omega
    omega

/-! ## Step lemmas for `parse_expr`, `parse_term` and `parse_mul` -/

theorem parseExprTailF_plus_step (k : Nat) (acc : AffineExpr) {s t : List Char}
    (hm : msp0 s = '+' :: t) :
    parseExprTailF (k + 1) acc s =
      (match parseTermF k (msp0 t) with
       | some (t2, rest2) => parseExprTailF k (.Add acc t2) rest2
       | none => some (acc, s)) := by
  simp only [parseExprTailF, hm]

theorem parseExprTailF_minus_step (k : Nat) (acc : AffineExpr) {s t : List Char}
    (hm : msp0 s = '-' :: t) :
    parseExprTailF (k + 1) acc s =
      (match parseTermF k (msp0 t) with
       | some (t2, rest2) => parseExprTailF k (.Sub acc t2) rest2
       | none => some (acc, s)) := by
  simp only [parseExprTailF, hm]

theorem parseExprTailF_stop_step (k : Nat) (acc : AffineExpr) {s : List Char}
    (hm1 : ∀ t, msp0 s ≠ '+' :: t) (hm2 : ∀ t, msp0 s ≠ '-' :: t) :
    parseExprTailF (k + 1) acc s = some (acc, s) := by
  simp only [parseExprTailF]

theorem parseExprF_step (k : Nat) {s : List Char} {t2 : AffineExpr}
    {rest : List Char} (ht : parseTermF k s = some (t2, rest)) :
    parseExprF (k + 1) s = parseExprTailF k t2 rest := by
  simp only [parseExprF, ht]

theorem parseTermF_div_pos (k : Nat) {s rest t rest3 : List Char} {f : AffineExpr}
    {c : Coeff} (hf : parseFactorF k s = some (f, rest)) (hm : msp0 rest = '/' :: t)
    (hc : parseCoeffF k (msp0 t) = some (c, rest3)) :
    parseTermF (k + 1) s = some (.Div f c, rest3) := by
  simp only [parseTermF, hf, hm, hc]

theorem parseTermF_mod_pos (k : Nat) {s rest t rest3 : List Char} {f : AffineExpr}
    {c : Coeff} (hf : parseFactorF k s = some (f, rest)) (hm : msp0 rest = '%' :: t)
    (hc : parseCoeffF k (msp0 t) = some (c, rest3)) :
    parseTermF (k + 1) s = some (.Mod f c, rest3) := by
  simp only [parseTermF, hf, hm, hc]

theorem parseTermF_plain (k : Nat) {s rest : List Char} {f : AffineExpr}
    (hf : parseFactorF k s = some (f, rest)) (hm1 : ∀ t, msp0 rest ≠ '/' :: t)
    (hm2 : ∀ t, msp0 rest ≠ '%' :: t) :
    parseTermF (k + 1) s = some (f, msp0 rest) := by
  simp only [parseTermF, hf]

theorem parseFactorF_var {v : String} (hv : wfName v = true) {r : List Char}
    (hrx : NoExt r) : ∀ fuel, 1 ≤ fuel →
      parseFactorF fuel (v.data ++ r) = some (.Var v, r) := by
  intro fuel hf
  cases fuel with
  | zero => omega
  | succ k =>
    simp only [parseFactorF, msp0_name hv r, parseMulF_name hv hrx k,
      parseInteger_name hv r, parseIdent_print hv hrx, mkData]

theorem parseMulF_attempt_none {m : Nat} {s : List Char} {c : Coeff}
    {rest : List Char} (hcf : parseCoeffF m s = some (c, rest))
    (hf1 : parseFactorF m (sp0 rest) = none)
    (hf2 : ∀ t, sp0 rest = '*' :: t → parseFactorF m (sp0 t) = none) :
    parseMulF (m + 1) s = none := by
  rcases hsc : sp0 rest with _ | ⟨d, t⟩
  · have hf1a : parseFactorF m ([] : List Char) = none := by rw [← hsc]; exact hf1
    simp only [parseMulF, hcf, hsc, hf1a]
  · have hf1a : parseFactorF m (d :: t) = none := by rw [← hsc]; exact hf1
    by_cases hds : d = '*'
    · subst hds
      have hf2a := hf2 t hsc
      simp only [parseMulF, hcf, hsc, hf1a, hf2a]
    · have hne : ∀ t2 : List Char, d :: t ≠ '*' :: t2 :=
        fun t2 he => hds (List.cons.inj he).1
      simp only [parseMulF, hcf, hsc, hf1a, hne]

theorem parseMulF_star_attempt {m : Nat} {s : List Char} {c : Coeff}
    {rest t : List Char} (hcf : parseCoeffF m s = some (c, rest))
    (hst : sp0 rest = '*' :: t) {e : AffineExpr} {rest2 : List Char}
    (hf2 : parseFactorF m (sp0 t) = some (e, rest2)) (hne : c ≠ .Const 1) :
    parseMulF (m + 1) s = some (.Mul c e, rest2) := by
  have hf1a : parseFactorF m ('*' :: t) = none := parseFactorF_star t m
  simp only [parseMulF, hcf, hst, hf1a, hf2]
  rw [if_neg hne]

theorem tailStops_of_sfact {r : List Char} (h : StopAt SFact r) : TailStops r := by
  intro t hm fuel
  exfalso
  rw [msp0_eq_stopCore h] at hm
  unfold StopAt at h
  rw [hm] at h
  have hmem := h.1
  simp [SFact] at hmem

theorem parseMulF_const {n : Int} (hi : inI32 n = true) {r : List Char}
    (h : StopAt SFact r) : ∀ fuel, parseMulF fuel (printInt n ++ r) = none := by
  intro fuel
  cases fuel with
  | zero => rfl
  | succ m =>
    cases m with
    | zero => simp [parseMulF, parseCoeffF]
    | succ m2 =>
      cases m2 with
      | zero => simp [parseMulF, parseCoeffF, parseFactorCoeffF]
      | succ m3 =>
        have hrx := noExt_of_stopAt h
        have hrd := noDig_of_stopAt h
        have hts := tailStops_of_sfact h
        have hcf : parseCoeffF (m3 + 2) (printInt n ++ r) = some (.Const n, r) :=
          parseCoeffF_print (c := .Const n) hi hrx hrd hts (m3 + 2)
            (by simp only [cNeed]; omega)
        have hsp : sp0 r = stopCore r := sp0_eq_stopCore h
        have hstp := stoppedHead_stopCore h
        apply parseMulF_attempt_none hcf
        · rw [hsp]
          exact parseFactorF_stopped hstp _
        · intro t ht
          rw [hsp] at ht
          exfalso
          rcases hsc : stopCore r with _ | ⟨d, t2⟩
          · rw [hsc] at ht
            simp at ht
          · rw [hsc] at ht
            obtain ⟨hd, _⟩ := List.cons.inj ht
            have hstp2 := hstp
            rw [hsc] at hstp2
            exact absurd hd (sfact_mem_props hstp2.1).2.2.2.2.2.1

theorem parseCoeffF_paren {e2 : AffineExpr} (hwe : wfExpr e2 = true)
    (hcl : coeffLike e2 = false) (r : List Char) :
    ∀ fuel, parseCoeffF fuel ('(' :: (printExpr e2 ++ (')' :: r))) = none := by
  intro fuel
  cases fuel with
  | zero => rfl
  | succ m =>
    simp [parseCoeffF,
      parseFactorCoeffF_parens_fail (parseCoeffF_on_expr e2 hwe hcl) r m]

theorem parseMulF_paren {e2 : AffineExpr} (hwe : wfExpr e2 = true)
    (hcl : coeffLike e2 = false) (r : List Char) :
    ∀ fuel, parseMulF fuel ('(' :: (printExpr e2 ++ (')' :: r))) = none := by
  intro fuel
  cases fuel with
  | zero => rfl
  | succ m => simp [parseMulF, parseCoeffF_paren hwe hcl r m]

/-- The `many0(('+'|'-') term)` loop of `parse_expr` folds the printed spine
terms onto the accumulator and stops at the continuation. -/
theorem parseExprTailF_spine {ts : List (Char × AffineExpr)}
    (hterm : ∀ p ∈ ts, (p.1 = '+' ∨ p.1 = '-') ∧ wfTerm p.2 = true ∧
      ∀ r2 : List Char, StopAt STerm r2 → ∀ fuel2, tNeedOf p.2 ≤ fuel2 →
        ∃ lo, parseTermF fuel2 (printExpr p.2 ++ r2) = some (p.2, lo) ∧ TrimEq lo r2)
    {r : List Char} (hst : StopAt SExpr r) :
    ∀ acc x fuel, TrimEq x (printSpineTail ts ++ r) → etNeed ts ≤ fuel →
      ∃ lo, parseExprTailF fuel acc x = some (spineFold acc ts, lo) ∧ TrimEq lo r := by
  induction ts with
  | nil =>
    intro acc x fuel htr hf
    have htr2 : TrimEq x r := by simpa [printSpineTail] using htr
    have hsf : StopAt SFact r := stopAt_mono sexpr_sub_sfact hst
    have hmx : msp0 x = stopCore r := trimEq_msp0 htr2 hsf
    cases fuel with
    | zero =>
      simp only [etNeed] at hf
      omega
    | succ k =>
      refine ⟨x, ?_, htr2⟩
      rw [show spineFold acc [] = acc from rfl]
      apply parseExprTailF_stop_step
      · intro t hcon
        rw [hmx] at hcon
        rcases hsc : stopCore r with _ | ⟨d, t2⟩ <;> rw [hsc] at hcon
        · simp at hcon
        · have hst2 := hst
          unfold StopAt at hst2
          rw [hsc] at hst2
          exact absurd (List.cons.inj hcon).1 (sexpr_mem_props hst2.1).1
      · intro t hcon
        rw [hmx] at hcon
        rcases hsc : stopCore r with _ | ⟨d, t2⟩ <;> rw [hsc] at hcon
        · simp at hcon
        · have hst2 := hst
          unfold StopAt at hst2
          rw [hsc] at hst2
          exact absurd (List.cons.inj hcon).1 (sexpr_mem_props hst2.1).2
  | cons p ts ih =>
    intro acc x fuel htr hf
    cases p with
    | mk d t =>
      obtain ⟨hd, hwt, hT⟩ := hterm (d, t) (by simp)
      have hterm2 : ∀ p ∈ ts, (p.1 = '+' ∨ p.1 = '-') ∧ wfTerm p.2 = true ∧
          ∀ r2 : List Char, StopAt STerm r2 → ∀ fuel2, tNeedOf p.2 ≤ fuel2 →
            ∃ lo, parseTermF fuel2 (printExpr p.2 ++ r2) = some (p.2, lo) ∧
              TrimEq lo r2 := fun p hp => hterm p (by simp [hp])
      have hsh : printSpineTail ((d, t) :: ts) ++ r
          = ' ' :: d :: ' ' :: (printExpr t ++ (printSpineTail ts ++ r)) := by
        simp [printSpineTail]
      have hdm : isMSpace d = false := by rcases hd with rfl | rfl <;> decide
      have hds : (d == ' ') = false := by rcases hd with rfl | rfl <;> decide
      have hmx : msp0 x = d :: (' ' :: (printExpr t ++ (printSpineTail ts ++ r))) := by
        rcases htr with rfl | rfl
        · rw [hsh, msp0_cons_space]
          exact msp0_of_head1 rfl hdm
        · rw [hsh, stopCore_cons_space, stopCore_cons_of hds]
          exact msp0_of_head1 rfl hdm
      cases fuel with
      | zero =>
        simp only [etNeed] at hf
        omega
      | succ k =>
        have hfk : max (tNeedOf t) (etNeed ts) + 1 ≤ k + 1 := by
          simpa [etNeed] using hf
        have hZst : StopAt STerm (printSpineTail ts ++ r) :=
          stopAt_spineTail (fun p hp => (hterm2 p hp).1) hst
        have hwe2 : wfExpr t = true := wfExpr_of_wfTerm hwt
        have hmsp1 : msp0 (' ' :: (printExpr t ++ (printSpineTail ts ++ r)))
            = printExpr t ++ (printSpineTail ts ++ r) := by
          rw [msp0_cons_space]
          exact msp0_print_app hwe2 _
        have hT2 : ∀ r2 : List Char, StopAt STerm r2 → ∀ fuel2, tNeedOf t ≤ fuel2 →
            ∃ lo, parseTermF fuel2 (printExpr t ++ r2) = some (t, lo) ∧
              TrimEq lo r2 := hT
        obtain ⟨lo1, hlo1, htr1⟩ := hT2 (printSpineTail ts ++ r) hZst k (by omega)
        rcases hd with rfl | rfl
        · rw [parseExprTailF_plus_step k acc hmx, hmsp1, hlo1]
          obtain ⟨lo, hlo, htr2⟩ := ih hterm2 (.Add acc t) lo1 k htr1 (by omega)
          refine ⟨lo, ?_, htr2⟩
          show parseExprTailF k (.Add acc t) lo1 = some (spineFold acc (('+', t) :: ts), lo)
          rw [show spineFold acc (('+', t) :: ts) = spineFold (.Add acc t) ts by
            simp [spineFold]]
          exact hlo
        · rw [parseExprTailF_minus_step k acc hmx, hmsp1, hlo1]
          obtain ⟨lo, hlo, htr2⟩ := ih hterm2 (.Sub acc t) lo1 k htr1 (by omega)
          refine ⟨lo, ?_, htr2⟩
          show parseExprTailF k (.Sub acc t) lo1 = some (spineFold acc (('-', t) :: ts), lo)
          rw [show spineFold acc (('-', t) :: ts) = spineFold (.Sub acc t) ts by
            simp [spineFold]]
          exact hlo

/-! ## Positive factor and term lemmas -/

theorem sp0_name {v : String} (hv : wfName v = true) (rest : List Char) :
    sp0 (v.data ++ rest) = v.data ++ rest := by
  obtain ⟨c, t, hct, hca, _⟩ := wfName_head hv
  exact sp0_of_head1 (t := t ++ rest) (by simp [hct]) (isAlpha_not_space hca).2

theorem wf_mul_parts2 {c : Coeff} {e2 : AffineExpr} (hn : ∀ v, e2 ≠ .Var v)
    (he : wfFactor (.Mul c e2) = true) :
    wfCoeff c = true ∧ c ≠ .Const 1 ∧ wfExpr e2 = true ∧ coeffLike e2 = false := by
  rw [wfFactor_mul_of_ne c e2 hn] at he
  simp only [Bool.and_eq_true, Bool.not_eq_true'] at he
  refine ⟨he.1.1, ?_, he.2.1, he.2.2⟩
  intro hcc
  rw [hcc] at he
  exact absurd he.1.2 (by simp)

theorem wf_mul_var_parts2 {c : Coeff} {v : String}
    (he : wfFactor (.Mul c (.Var v)) = true) :
    wfCoeff c = true ∧ c ≠ .Const 1 ∧ wfName v = true := by
  rw [wfFactor_mul_var] at he
  simp only [Bool.and_eq_true, Bool.not_eq_true'] at he
  refine ⟨he.1.1, ?_, he.2⟩
  intro hcc
  rw [hcc] at he
  exact absurd he.1.2 (by simp)

/-- A parenthesised printed expression parses as a factor (through
`parse_parens`), consuming the trailing whitespace of the continuation. -/
theorem parseFactorF_paren_pos {e2 : AffineExpr} (hwe : wfExpr e2 = true)
    (hcl : coeffLike e2 = false)
    (hE : ∀ r2 : List Char, StopAt SExpr r2 → ∀ fuel2, eNeedOf e2 ≤ fuel2 →
      ∃ lo, parseExprF fuel2 (printExpr e2 ++ r2) = some (e2, lo) ∧ TrimEq lo r2)
    {r : List Char} (hst : StopAt SFact r) :
    ∀ fuel, eNeedOf e2 + 2 ≤ fuel →
      parseFactorF fuel ('(' :: (printExpr e2 ++ (')' :: r)))
        = some (e2, stopCore r) := by
  intro fuel hfl
  obtain ⟨m2, rfl⟩ : ∃ m2, fuel = m2 + 1 := ⟨fuel - 1, by omega⟩
  obtain ⟨m3, rfl⟩ : ∃ m3, m2 = m3 + 1 := ⟨m2 - 1, by omega⟩
  have hmp : msp0 ('(' :: (printExpr e2 ++ (')' :: r)))
      = '(' :: (printExpr e2 ++ (')' :: r)) := msp0_of_head1 rfl (by decide)
  have hid : parseIdent ('(' :: (printExpr e2 ++ (')' :: r))) = none :=
    parseIdent_paren _
  have hint : parseInteger ('(' :: (printExpr e2 ++ (')' :: r))) = none :=
    parseInteger_paren _
  have hmul := parseMulF_paren hwe hcl r (m3 + 1)
  have hstp : StopAt SExpr (')' :: r) := by
    unfold StopAt
    rw [stopCore_cons_of (by decide)]
    exact ⟨by simp [SExpr], fun hc => absurd hc (by decide)⟩
  obtain ⟨lo2, hlo2, htr2⟩ := hE (')' :: r) hstp m3 (by omega)
  have hlo2e : lo2 = ')' :: r := by
    rcases htr2 with rfl | rfl
    · rfl
    · exact stopCore_cons_of (by decide) r
  subst hlo2e
  have hpp : parseParensF (m3 + 1) ('(' :: (printExpr e2 ++ (')' :: r)))
      = some (e2, stopCore r) := by
    simp only [parseParensF, hmp, msp0_print_app hwe, hlo2,
      show msp0 (')' :: r) = ')' :: r from msp0_of_head1 rfl (by decide),
      msp0_eq_stopCore hst]
  simp only [parseFactorF, hmp, hmul, hint, hid, hpp]

/-- A printed `Mul` factor with a parenthesised operand parses back through
`parse_mul`. -/
theorem parseFactorF_mul_paren {c : Coeff} {e2 : AffineExpr}
    (hwc : wfCoeff c = true) (hne : c ≠ .Const 1) (hwe : wfExpr e2 = true)
    (hcl : coeffLike e2 = false)
    (hE : ∀ r2 : List Char, StopAt SExpr r2 → ∀ fuel2, eNeedOf e2 ≤ fuel2 →
      ∃ lo, parseExprF fuel2 (printExpr e2 ++ r2) = some (e2, lo) ∧ TrimEq lo r2)
    {r : List Char} (hst : StopAt SFact r) :
    ∀ fuel, cNeed c + eNeedOf e2 + 3 ≤ fuel →
      parseFactorF fuel
        (printCoeff c ++ (' ' :: '*' :: ' ' :: ('(' :: (printExpr e2 ++ (')' :: r)))))
        = some (.Mul c e2, stopCore r) := by
  intro fuel hfl
  have hc2 := cNeed_pos c
  obtain ⟨m, rfl⟩ : ∃ m, fuel = m + 2 := ⟨fuel - 2, by omega⟩
  have hts : TailStops (' ' :: '*' :: ' ' :: ('(' :: (printExpr e2 ++ (')' :: r)))) := by
    intro t hm fuel2
    rw [msp0_cons_space, msp0_of_head1 rfl (by decide)] at hm
    obtain ⟨_, h2⟩ := List.cons.inj hm
    rw [← h2, msp0_cons_space, msp0_of_head1 rfl (by decide)]
    exact parseFactorCoeffF_parens_fail (parseCoeffF_on_expr e2 hwe hcl) r fuel2
  have hcf := parseCoeffF_print hwc (noExt_space _) (noDig_space _) hts m (by omega)
  have hsp : sp0 (' ' :: '*' :: ' ' :: ('(' :: (printExpr e2 ++ (')' :: r))))
      = '*' :: (' ' :: ('(' :: (printExpr e2 ++ (')' :: r)))) := by
    rw [sp0_cons_space]
    exact sp0_of_head1 rfl (by decide)
  have hin : parseFactorF m (sp0 (' ' :: ('(' :: (printExpr e2 ++ (')' :: r)))))
      = some (e2, stopCore r) := by
    rw [sp0_cons_space, sp0_of_head1 rfl (by decide)]
    exact parseFactorF_paren_pos hwe hcl hE hst m (by omega)
  have hmul := parseMulF_star_attempt hcf hsp hin hne
  have hmsp : msp0
      (printCoeff c ++ (' ' :: '*' :: ' ' :: ('(' :: (printExpr e2 ++ (')' :: r)))))
      = printCoeff c ++ (' ' :: '*' :: ' ' :: ('(' :: (printExpr e2 ++ (')' :: r)))) :=
    msp0_printCoeff_app hwc _
  simp only [parseFactorF, hmsp, hmul]

/-- A printed `Mul` factor with a variable operand parses back through
`parse_mul` with the raw continuation untouched. -/
theorem parseFactorF_mul_var {c : Coeff} {v : String} (hwc : wfCoeff c = true)
    (hne : c ≠ .Const 1) (hwn : wfName v = true) {r : List Char}
    (hst : StopAt SFact r) :
    ∀ fuel, cNeed c + 2 ≤ fuel →
      parseFactorF fuel (printCoeff c ++ (' ' :: '*' :: ' ' :: (v.data ++ r)))
        = some (.Mul c (.Var v), r) := by
  intro fuel hfl
  have hc2 := cNeed_pos c
  have hrx : NoExt r := noExt_of_stopAt hst
  obtain ⟨m, rfl⟩ : ∃ m, fuel = m + 2 := ⟨fuel - 2, by omega⟩
  have hts : TailStops (' ' :: '*' :: ' ' :: (v.data ++ r)) := by
    intro t hm fuel2
    rw [msp0_cons_space, msp0_of_head1 rfl (by decide)] at hm
    obtain ⟨_, h2⟩ := List.cons.inj hm
    rw [← h2, msp0_cons_space, msp0_name hwn r]
    exact parseFactorCoeffF_name hwn hrx fuel2
  have hcf := parseCoeffF_print hwc (noExt_space _) (noDig_space _) hts m (by omega)
  have hsp : sp0 (' ' :: '*' :: ' ' :: (v.data ++ r))
      = '*' :: (' ' :: (v.data ++ r)) := by
    rw [sp0_cons_space]
    exact sp0_of_head1 rfl (by decide)
  have hin : parseFactorF m (sp0 (' ' :: (v.data ++ r))) = some (.Var v, r) := by
    rw [sp0_cons_space, sp0_name hwn r]
    exact parseFactorF_var hwn hrx m (by omega)
  have hmul := parseMulF_star_attempt hcf hsp hin hne
  have hmsp : msp0 (printCoeff c ++ (' ' :: '*' :: ' ' :: (v.data ++ r)))
      = printCoeff c ++ (' ' :: '*' :: ' ' :: (v.data ++ r)) :=
    msp0_printCoeff_app hwc _
  simp only [parseFactorF, hmsp, hmul]

/-- Lifting a positive factor parse to `parse_term` when the continuation
does not continue with `'/'` or `'%'`. -/
theorem parseTermF_of_factor {e : AffineExpr}
    (hFe : ∀ r2 : List Char, StopAt SFact r2 → ∀ fuel, fNeedOf e ≤ fuel →
      ∃ lo, parseFactorF fuel (printExpr e ++ r2) = some (e, lo) ∧ TrimEq lo r2)
    {r : List Char} (hst : StopAt STerm r) :
    ∀ fuel, fNeedOf e + 1 ≤ fuel →
      ∃ lo, parseTermF fuel (printExpr e ++ r) = some (e, lo) ∧ TrimEq lo r := by
  intro fuel hfl
  cases fuel with
  | zero => omega
  | succ k =>
    have hsf : StopAt SFact r := stopAt_mono sterm_sub_sfact hst
    obtain ⟨lo1, hlo1, htr1⟩ := hFe r hsf k (by omega)
    have hmx : msp0 lo1 = stopCore r := trimEq_msp0 htr1 hsf
    have hm1 : ∀ t, msp0 lo1 ≠ '/' :: t := by
      intro t hcon
      rw [hmx] at hcon
      rcases hsc : stopCore r with _ | ⟨d, t2⟩ <;> rw [hsc] at hcon
      · simp at hcon
      · have hst2 := hst
        unfold StopAt at hst2
        rw [hsc] at hst2
        exact absurd (List.cons.inj hcon).1 (sterm_mem_props hst2.1).1
    have hm2 : ∀ t, msp0 lo1 ≠ '%' :: t := by
      intro t hcon
      rw [hmx] at hcon
      rcases hsc : stopCore r with _ | ⟨d, t2⟩ <;> rw [hsc] at hcon
      · simp at hcon
      · have hst2 := hst
        unfold StopAt at hst2
        rw [hsc] at hst2
        exact absurd (List.cons.inj hcon).1 (sterm_mem_props hst2.1).2.1
    refine ⟨stopCore r, ?_, Or.inr rfl⟩
    rw [← hmx]
    exact parseTermF_plain k hlo1 hm1 hm2

/-- Positive round trip, proved for factors, terms and expressions
simultaneously by strong induction on the size of the expression: the parser
of each precedence level returns exactly the printed value, leaving the
continuation (possibly trimmed of leading spaces) as leftover. -/
theorem parse_print_triple : ∀ n : Nat, ∀ e : AffineExpr, esize e ≤ n →
    ((wfFactor e = true → ∀ r : List Char, StopAt SFact r →
        ∀ fuel, fNeedOf e ≤ fuel →
        ∃ lo, parseFactorF fuel (printExpr e ++ r) = some (e, lo) ∧ TrimEq lo r) ∧
     (wfTerm e = true → ∀ r : List Char, StopAt STerm r →
        ∀ fuel, tNeedOf e ≤ fuel →
        ∃ lo, parseTermF fuel (printExpr e ++ r) = some (e, lo) ∧ TrimEq lo r) ∧
     (wfExpr e = true → ∀ r : List Char, StopAt SExpr r →
        ∀ fuel, eNeedOf e ≤ fuel →
        ∃ lo, parseExprF fuel (printExpr e ++ r) = some (e, lo) ∧ TrimEq lo r)) := by
  intro n
  induction n with
  | zero =>
    intro e hesz
    have := esize_pos e
    omega
  | succ n ih =>
    intro e hesz
    have hF : wfFactor e = true → ∀ r : List Char, StopAt SFact r →
        ∀ fuel, fNeedOf e ≤ fuel →
        ∃ lo, parseFactorF fuel (printExpr e ++ r) = some (e, lo) ∧ TrimEq lo r := by
      intro he r hst fuel hfl
      cases e with
      | Var v =>
        refine ⟨r, ?_, Or.inl rfl⟩
        exact parseFactorF_var he (noExt_of_stopAt hst) fuel
          (by have h0 : fNeedOf (.Var v) = 1 := rfl; omega)
      | Const n2 =>
        have hi : inI32 n2 = true := he
        have hfl1 : 1 ≤ fuel := by
          have h0 : fNeedOf (.Const n2) = 1 := rfl
          omega
        obtain ⟨k, rfl⟩ : ∃ k, fuel = k + 1 := ⟨fuel - 1, by omega⟩
        refine ⟨r, ?_, Or.inl rfl⟩
        rw [show printExpr (.Const n2) = printInt n2 from rfl]
        have hm : msp0 (printInt n2 ++ r) = printInt n2 ++ r := by
          obtain ⟨d, t, h1, h2, _, _⟩ := printInt_head n2
          exact msp0_of_head1 (t := t ++ r) (by simp [h1]) h2
        simp only [parseFactorF, hm, parseMulF_const hi hst k,
          parseInteger_print hi (noDig_of_stopAt hst)]
      | Mul c e2 =>
        cases e2 with
        | Var v =>
          obtain ⟨hwc, hne, hwn⟩ := wf_mul_var_parts2 he
          refine ⟨r, ?_, Or.inl rfl⟩
          rw [show printExpr (.Mul c (.Var v)) ++ r
              = printCoeff c ++ (' ' :: '*' :: ' ' :: (v.data ++ r)) by
            simp [printExpr]]
          exact parseFactorF_mul_var hwc hne hwn hst fuel
            (by have h0 : fNeedOf (.Mul c (.Var v)) = cNeed c + 2 := rfl; omega)
        | Const n3 =>
          have hp := wf_mul_parts2 (by intro v h; cases h) he
          exact absurd hp.2.2.2 (by simp [coeffLike])
        | Add a b =>
          obtain ⟨hwc, hne, hwe, hcl⟩ := wf_mul_parts2 (by intro v h; cases h) he
          have hsz : esize (.Add a b) ≤ n := by
            simp only [esize] at hesz ⊢
            omega
          have hEsub := (ih _ hsz).2.2 hwe
          refine ⟨stopCore r, ?_, Or.inr rfl⟩
          rw [show printExpr (.Mul c (.Add a b)) ++ r
              = printCoeff c ++ (' ' :: '*' :: ' ' ::
                  ('(' :: (printExpr (.Add a b) ++ (')' :: r)))) by
            simp [printExpr]]
          exact parseFactorF_mul_paren hwc hne hwe hcl hEsub hst fuel
            (by
              have h0 : fNeedOf (.Mul c (.Add a b))
                  = cNeed c + eNeedOf (.Add a b) + 3 := rfl
              omega)
        | Sub a b =>
          obtain ⟨hwc, hne, hwe, hcl⟩ := wf_mul_parts2 (by intro v h; cases h) he
          have hsz : esize (.Sub a b) ≤ n := by
            simp only [esize] at hesz ⊢
            omega
          have hEsub := (ih _ hsz).2.2 hwe
          refine ⟨stopCore r, ?_, Or.inr rfl⟩
          rw [show printExpr (.Mul c (.Sub a b)) ++ r
              = printCoeff c ++ (' ' :: '*' :: ' ' ::
                  ('(' :: (printExpr (.Sub a b) ++ (')' :: r)))) by
            simp [printExpr]]
          exact parseFactorF_mul_paren hwc hne hwe hcl hEsub hst fuel
            (by
              have h0 : fNeedOf (.Mul c (.Sub a b))
                  = cNeed c + eNeedOf (.Sub a b) + 3 := rfl
              omega)
        | Mul c3 e3 =>
          obtain ⟨hwc, hne, hwe, hcl⟩ := wf_mul_parts2 (by intro v h; cases h) he
          have hsz : esize (.Mul c3 e3) ≤ n := by
            simp only [esize] at hesz ⊢
            omega
          have hEsub := (ih _ hsz).2.2 hwe
          refine ⟨stopCore r, ?_, Or.inr rfl⟩
          rw [show printExpr (.Mul c (.Mul c3 e3)) ++ r
              = printCoeff c ++ (' ' :: '*' :: ' ' ::
                  ('(' :: (printExpr (.Mul c3 e3) ++ (')' :: r)))) by
            simp [printExpr]]
          exact parseFactorF_mul_paren hwc hne hwe hcl hEsub hst fuel
            (by
              have h0 : fNeedOf (.Mul c (.Mul c3 e3))
                  = cNeed c + eNeedOf (.Mul c3 e3) + 3 := rfl
              omega)
        | Div a b =>
          obtain ⟨hwc, hne, hwe, hcl⟩ := wf_mul_parts2 (by intro v h; cases h) he
          have hsz : esize (.Div a b) ≤ n := by
            simp only [esize] at hesz ⊢
            omega
          have hEsub := (ih _ hsz).2.2 hwe
          refine ⟨stopCore r, ?_, Or.inr rfl⟩
          rw [show printExpr (.Mul c (.Div a b)) ++ r
              = printCoeff c ++ (' ' :: '*' :: ' ' ::
                  ('(' :: (printExpr (.Div a b) ++ (')' :: r)))) by
            simp [printExpr]]
          exact parseFactorF_mul_paren hwc hne hwe hcl hEsub hst fuel
            (by
              have h0 : fNeedOf (.Mul c (.Div a b))
                  = cNeed c + eNeedOf (.Div a b) + 3 := rfl
              omega)
        | Mod a b =>
          obtain ⟨hwc, hne, hwe, hcl⟩ := wf_mul_parts2 (by intro v h; cases h) he
          have hsz : esize (.Mod a b) ≤ n := by
            simp only [esize] at hesz ⊢
            omega
          have hEsub := (ih _ hsz).2.2 hwe
          refine ⟨stopCore r, ?_, Or.inr rfl⟩
          rw [show printExpr (.Mul c (.Mod a b)) ++ r
              = printCoeff c ++ (' ' :: '*' :: ' ' ::
                  ('(' :: (printExpr (.Mod a b) ++ (')' :: r)))) by
            simp [printExpr]]
          exact parseFactorF_mul_paren hwc hne hwe hcl hEsub hst fuel
            (by
              have h0 : fNeedOf (.Mul c (.Mod a b))
                  = cNeed c + eNeedOf (.Mod a b) + 3 := rfl
              omega)
      | Add a b => simp [wfFactor, wfAll] at he
      | Sub a b => simp [wfFactor, wfAll] at he
      | Div f c2 => simp [wfFactor, wfAll] at he
      | Mod f c2 => simp [wfFactor, wfAll] at he
    have hT : wfTerm e = true → ∀ r : List Char, StopAt STerm r →
        ∀ fuel, tNeedOf e ≤ fuel →
        ∃ lo, parseTermF fuel (printExpr e ++ r) = some (e, lo) ∧ TrimEq lo r := by
      intro he r hst fuel hfl
      cases e with
      | Var v =>
        have hf : wfFactor (.Var v) = true := he
        exact parseTermF_of_factor (hF hf) hst fuel
          (by have h0 : tNeedOf (.Var v) = fNeedOf (.Var v) + 1 := rfl; omega)
      | Const n2 =>
        have hf : wfFactor (.Const n2) = true := he
        exact parseTermF_of_factor (hF hf) hst fuel
          (by have h0 : tNeedOf (.Const n2) = fNeedOf (.Const n2) + 1 := rfl; omega)
      | Mul c e2 =>
        have hf : wfFactor (.Mul c e2) = true := he
        exact parseTermF_of_factor (hF hf) hst fuel
          (by have h0 : tNeedOf (.Mul c e2) = fNeedOf (.Mul c e2) + 1 := rfl; omega)
      | Div f c2 =>
        have hfc : wfFactor f = true ∧ wfCoeff c2 = true := by
          rw [show wfTerm (.Div f c2) = (wfFactor f && wfCoeff c2) from rfl] at he
          simpa using he
        have hsz : esize f ≤ n := by
          simp only [esize] at hesz
          omega
        have hFf := (ih _ hsz).1 hfc.1
        have htd : tNeedOf (.Div f c2) = fNeedOf f + cNeed c2 + 1 := rfl
        obtain ⟨k, rfl⟩ : ∃ k, fuel = k + 1 := ⟨fuel - 1, by omega⟩
        rw [show printExpr (.Div f c2) ++ r
            = printExpr f ++ (' ' :: '/' :: ' ' :: (printCoeff c2 ++ r)) by
          simp [printExpr]]
        have hstc : StopAt SFact (' ' :: '/' :: ' ' :: (printCoeff c2 ++ r)) := by
          unfold StopAt
          rw [stopCore_cons_space, stopCore_cons_of (by decide)]
          exact ⟨by simp [SFact], fun hc => absurd hc (by decide)⟩
        obtain ⟨lo1, hlo1, htr1⟩ := hFf _ hstc k (by omega)
        have hmx : msp0 lo1 = '/' :: (' ' :: (printCoeff c2 ++ r)) := by
          rw [trimEq_msp0 htr1 hstc, stopCore_cons_space, stopCore_cons_of (by decide)]
        have hcf : parseCoeffF k (msp0 (' ' :: (printCoeff c2 ++ r)))
            = some (c2, r) := by
          rw [msp0_cons_space, msp0_printCoeff_app hfc.2]
          exact parseCoeffF_print hfc.2
            (noExt_of_stopAt (stopAt_mono sterm_sub_sfact hst))
            (noDig_of_stopAt (stopAt_mono sterm_sub_sfact hst))
            (tailStops_of_stopAt hst) k (by omega)
        refine ⟨r, ?_, Or.inl rfl⟩
        exact parseTermF_div_pos k hlo1 hmx hcf
      | Mod f c2 =>
        have hfc : wfFactor f = true ∧ wfCoeff c2 = true := by
          rw [show wfTerm (.Mod f c2) = (wfFactor f && wfCoeff c2) from rfl] at he
          simpa using he
        have hsz : esize f ≤ n := by
          simp only [esize] at hesz
          omega
        have hFf := (ih _ hsz).1 hfc.1
        have htd : tNeedOf (.Mod f c2) = fNeedOf f + cNeed c2 + 1 := rfl
        obtain ⟨k, rfl⟩ : ∃ k, fuel = k + 1 := ⟨fuel - 1, by omega⟩
        rw [show printExpr (.Mod f c2) ++ r
            = printExpr f ++ (' ' :: '%' :: ' ' :: (printCoeff c2 ++ r)) by
          simp [printExpr]]
        have hstc : StopAt SFact (' ' :: '%' :: ' ' :: (printCoeff c2 ++ r)) := by
          unfold StopAt
          rw [stopCore_cons_space, stopCore_cons_of (by decide)]
          exact ⟨by simp [SFact], fun hc => absurd hc (by decide)⟩
        obtain ⟨lo1, hlo1, htr1⟩ := hFf _ hstc k (by omega)
        have hmx : msp0 lo1 = '%' :: (' ' :: (printCoeff c2 ++ r)) := by
          rw [trimEq_msp0 htr1 hstc, stopCore_cons_space, stopCore_cons_of (by decide)]
        have hcf : parseCoeffF k (msp0 (' ' :: (printCoeff c2 ++ r)))
            = some (c2, r) := by
          rw [msp0_cons_space, msp0_printCoeff_app hfc.2]
          exact parseCoeffF_print hfc.2
            (noExt_of_stopAt (stopAt_mono sterm_sub_sfact hst))
            (noDig_of_stopAt (stopAt_mono sterm_sub_sfact hst))
            (tailStops_of_stopAt hst) k (by omega)
        refine ⟨r, ?_, Or.inl rfl⟩
        exact parseTermF_mod_pos k hlo1 hmx hcf
      | Add a b => simp [wfTerm, wfAll] at he
      | Sub a b => simp [wfTerm, wfAll] at he
    have hE : wfExpr e = true → ∀ r : List Char, StopAt SExpr r →
        ∀ fuel, eNeedOf e ≤ fuel →
        ∃ lo, parseExprF fuel (printExpr e ++ r) = some (e, lo) ∧ TrimEq lo r := by
      intro he r hst fuel hfl
      obtain ⟨hwh, hterms⟩ := spine_wf e he
      have hbr := eNeed_bridge e
      obtain ⟨k, rfl⟩ : ∃ k, fuel = k + 1 := ⟨fuel - 1, by omega⟩
      have hterm : ∀ p ∈ spineTerms e, (p.1 = '+' ∨ p.1 = '-') ∧ wfTerm p.2 = true ∧
          ∀ r2 : List Char, StopAt STerm r2 → ∀ fuel2, tNeedOf p.2 ≤ fuel2 →
            ∃ lo, parseTermF fuel2 (printExpr p.2 ++ r2) = some (p.2, lo) ∧
              TrimEq lo r2 := by
        intro p hp
        have h1 := hterms p hp
        have h2 : esize p.2 ≤ n := by
          have h3 := spineTerms_esize e p hp
          omega
        exact ⟨h1.1, h1.2, fun r2 hst2 fuel2 hfl2 =>
          (ih p.2 h2).2.1 h1.2 r2 hst2 fuel2 hfl2⟩
      have hTsh : ∀ r2 : List Char, StopAt STerm r2 → ∀ fuel2,
          tNeedOf (spineHead e) ≤ fuel2 →
          ∃ lo, parseTermF fuel2 (printExpr (spineHead e) ++ r2)
            = some (spineHead e, lo) ∧ TrimEq lo r2 := by
        cases e with
        | Add l r3 =>
          have hsz : esize (spineHead (.Add l r3)) ≤ n := by
            have h1 := spineHead_esize l
            have h2 := esize_pos r3
            rw [show spineHead (.Add l r3) = spineHead l from rfl]
            simp only [esize] at hesz
            omega
          exact fun r2 hst2 fuel2 hfl2 => (ih _ hsz).2.1 hwh r2 hst2 fuel2 hfl2
        | Sub l r3 =>
          have hsz : esize (spineHead (.Sub l r3)) ≤ n := by
            have h1 := spineHead_esize l
            have h2 := esize_pos r3
            rw [show spineHead (.Sub l r3) = spineHead l from rfl]
            simp only [esize] at hesz
            omega
          exact fun r2 hst2 fuel2 hfl2 => (ih _ hsz).2.1 hwh r2 hst2 fuel2 hfl2
        | Var v => exact hT hwh
        | Const n2 => exact hT hwh
        | Mul c e2 => exact hT hwh
        | Div f c2 => exact hT hwh
        | Mod f c2 => exact hT hwh
      have hZ : StopAt STerm (printSpineTail (spineTerms e) ++ r) :=
        stopAt_spineTail (fun p hp => (hterms p hp).1) hst
      rw [show printExpr e ++ r
          = printExpr (spineHead e) ++ (printSpineTail (spineTerms e) ++ r) by
        rw [spine_decomp e, List.append_assoc]]
      obtain ⟨lo1, hlo1, htr1⟩ := hTsh _ hZ k (by omega)
      obtain ⟨lo, hlo, htr2⟩ := parseExprTailF_spine hterm hst (spineHead e) lo1 k
        htr1 (by omega)
      refine ⟨lo, ?_, htr2⟩
      rw [parseExprF_step k hlo1]
      have hlo2 := hlo
      rw [spineFold_spine e] at hlo2
      exact hlo2
    exact ⟨hF, hT, hE⟩

/-- Top-level round trip on the printable fragment: `parse_expr` with the
fuel of `parseExprTop` restores a printed well-formed expression exactly,
consuming the entire input. -/
theorem parse_print_roundTrip {e : AffineExpr} (he : wfExpr e = true) :
    parseExprTop (printExpr e) = some (e, []) := by
  have hst : StopAt SExpr ([] : List Char) := trivial
  have hfl : eNeedOf e ≤ 8 * ((printExpr e).length + 1) := eNeed_le_print e he
  obtain ⟨lo, hlo, htr⟩ := (parse_print_triple (esize e) e (le_refl _)).2.2 he [] hst
    (8 * ((printExpr e).length + 1)) hfl
  have hlo2 : lo = [] := by
    rcases htr with rfl | rfl <;> rfl
  subst hlo2
  unfold parseExprTop
  simpa using hlo

/-- C5, amended.  The affine round trip `parse(print(e)) == e` holds exactly
on the printable fragment `wfExpr`: names are plain identifiers (`ConstVar`
names carry their underscore), constants fit in i32, `+`/`-` chains are
left-associated with term-level right operands, `Div`/`Mod` left operands
are factors, multiplication coefficients are left-associated chains not
equal to `Const 1`, and a parenthesised `Mul` operand is not itself
coefficient-shaped.  On this fragment the parser consumes the whole printed
string and returns a structurally equal value (the general claim is refuted
by `C5_counterexample`). -/
theorem C5_roundtrip_amended :
    ∀ e : AffineExpr, wfExpr e = true →
      parseExprTop (printExpr e) = some (e, []) ∧
      parseExprStr (String.mk (printExpr e)) = some e := by
  intro e he
  have h := parse_print_roundTrip he
  refine ⟨h, ?_⟩
  unfold parseExprStr
  rw [show (String.mk (printExpr e)).data = printExpr e from rfl, h]
  rfl

theorem C5_witness :
    wfExpr (AffineExpr.Sub
      (.Add (.Var "x") (.Div (.Mul (.Const 2) (.Var "y")) (.Const 3)))
      (.Mod (.Mul (.Const 3) (.Var "z")) (.Const 5))) = true ∧
    (parseExprTop (printExpr (AffineExpr.Sub
        (.Add (.Var "x") (.Div (.Mul (.Const 2) (.Var "y")) (.Const 3)))
        (.Mod (.Mul (.Const 3) (.Var "z")) (.Const 5))))
      = some ((AffineExpr.Sub
        (.Add (.Var "x") (.Div (.Mul (.Const 2) (.Var "y")) (.Const 3)))
        (.Mod (.Mul (.Const 3) (.Var "z")) (.Const 5))), []) ∧
    parseExprStr (String.mk (printExpr (AffineExpr.Sub
        (.Add (.Var "x") (.Div (.Mul (.Const 2) (.Var "y")) (.Const 3)))
        (.Mod (.Mul (.Const 3) (.Var "z")) (.Const 5)))))
      = some (AffineExpr.Sub
        (.Add (.Var "x") (.Div (.Mul (.Const 2) (.Var "y")) (.Const 3)))
        (.Mod (.Mul (.Const 3) (.Var "z")) (.Const 5)))) :=
  ⟨by decide, C5_roundtrip_amended (AffineExpr.Sub
      (.Add (.Var "x") (.Div (.Mul (.Const 2) (.Var "y")) (.Const 3)))
      (.Mod (.Mul (.Const 3) (.Var "z")) (.Const 5))) (by decide)⟩

/-! ## The instruction printer and parser (from `instruction.rs`)

`Display for Instruction` and `parse_instruction`, embedded on `List Char`.
The unwraps of the source (a `cond` without a `cond_suffix` when printing,
a failing affine parse of an index, an immediate overflowing i32) are
modelled as `none`. -/

def printCS : ConditionSuffix → List Char
  | .EQ => ['E', 'Q']
  | .NE => ['N', 'E']
  | .LT => ['L', 'T']
  | .LE => ['L', 'E']
  | .GT => ['G', 'T']
  | .GE => ['G', 'E']

def printOperand : Operand → List Char
  | .Reg r => r.data
  | .Imm i => '$' :: printInt i

def printAddrPart : List AffineExpr → List Char
  | [] => []
  | e :: rest => '[' :: (printExpr e ++ ']' :: printAddrPart rest)

def printCondPart : Option ConditionSuffix → Option String → Option (List Char)
  | _, none => some []
  | none, some _ => none
  | some cs, some c => some (' ' :: '(' :: (printCS cs ++ ' ' :: (c.data ++ [')'])))

def printSrcRest : List Operand → List Char
  | [] => []
  | o :: rest => ',' :: ' ' :: (printOperand o ++ printSrcRest rest)

def printSrcPart : List Operand → List Char
  | [] => []
  | o :: rest => ' ' :: (printOperand o ++ printSrcRest rest)

/-- `Display for Instruction` (via `Display for Compute`/`Operand`). -/
def printInst : Instruction → Option (List Char)
  | .DataLoad da =>
    (printCondPart da.condSuffix da.cond).map fun cp =>
      da.reg.data ++ ' ' :: '<' :: '=' :: ' ' ::
        (da.arrayName.data ++ (printAddrPart da.addr ++ cp))
  | .DataStore da =>
    (printCondPart da.condSuffix da.cond).map fun cp =>
      da.reg.data ++ ' ' :: '=' :: '>' :: ' ' ::
        (da.arrayName.data ++ (printAddrPart da.addr ++ cp))
  | .Compute c =>
    (printCondPart c.condSuffix c.cond).map fun cp =>
      c.op.data ++ ' ' :: (c.dst.data ++ (printSrcPart c.src ++ cp))

/-- `tag(t)`. -/
def parseTag : List Char → List Char → Option (List Char)
  | [], s => some s
  | c :: t, d :: s => if c = d then parseTag t s else none
  | _ :: _, [] => none

/-- `multispace1` followed by nothing: one mandatory whitespace character,
then the remaining maximal whitespace run. -/
def msp1 (s : List Char) : Option (List Char) :=
  match s with
  | c :: r => if isMSpace c then some (msp0 r) else none
  | [] => none

/-- `parse_reg_id`: `recognize(pair(char('R'), alphanumeric0))`. -/
def parseRegId (s : List Char) : Option (List Char × List Char) :=
  match s with
  | 'R' :: r => some ('R' :: r.takeWhile Char.isAlphanum, r.dropWhile Char.isAlphanum)
  | _ => none

/-- `parse_immediate`: `recognize(pair(char('$'), digit1))`. -/
def parseImmediate (s : List Char) : Option (List Char × List Char) :=
  match s with
  | '$' :: r =>
    if r.takeWhile Char.isDigit = [] then none
    else some ('$' :: r.takeWhile Char.isDigit, r.dropWhile Char.isDigit)
  | _ => none

/-- `parse_src`: `alt((parse_reg_id, parse_immediate))`. -/
def parseSrcTok (s : List Char) : Option (List Char × List Char) :=
  match parseRegId s with
  | some r => some r
  | none => parseImmediate s

/-- `parse_cond_code`, fused with `ConditionSuffix::from_str`. -/
def parseCondCode (s : List Char) : Option (ConditionSuffix × List Char) :=
  match parseTag ['E', 'Q'] s with
  | some r => some (.EQ, r)
  | none =>
    match parseTag ['N', 'E'] s with
    | some r => some (.NE, r)
    | none =>
      match parseTag ['L', 'T'] s with
      | some r => some (.LT, r)
      | none =>
        match parseTag ['L', 'E'] s with
        | some r => some (.LE, r)
        | none =>
          match parseTag ['G', 'T'] s with
          | some r => some (.GT, r)
          | none =>
            match parseTag ['G', 'E'] s with
            | some r => some (.GE, r)
            | none => none

/-- `parse_condition`: `'(' cond_code multispace1 reg_id ')'`. -/
def parseCondition (s : List Char) :
    Option ((ConditionSuffix × List Char) × List Char) :=
  match s with
  | '(' :: r =>
    (match parseCondCode r with
     | some (cs, r2) =>
       (match msp1 r2 with
        | some r3 =>
          (match parseRegId r3 with
           | some (reg, r4) =>
             (match r4 with
              | ')' :: r5 => some ((cs, reg), r5)
              | _ => none)
           | none => none)
        | none => none)
     | none => none)
  | _ => none

/-- The `separated_list0(tag("][") , parse_var_id)` loop: a failing separator
or element stops the loop at the position before the separator. -/
def parseIndicesLoop : Nat → List Char → List (List Char) →
    Option (List (List Char) × List Char)
  | 0, _, _ => none
  | fuel + 1, s, acc =>
    match parseTag [']', '['] s with
    | some r =>
      (match parseIdent r with
       | some (v, r2) => parseIndicesLoop fuel r2 (acc ++ [v])
       | none => some (acc, s))
    | none => some (acc, s)

/-- `parse_indices`: `'[' sep_list0("][", var_id) ']'`. -/
def parseIndices (s : List Char) : Option (List (List Char) × List Char) :=
  match s with
  | '[' :: r =>
    (match parseIdent r with
     | some (v, r2) =>
       (match parseIndicesLoop (r2.length + 1) r2 [v] with
        | some (vs, r3) =>
          (match r3 with
           | ']' :: r4 => some (vs, r4)
           | _ => none)
        | none => none)
     | none =>
       (match r with
        | ']' :: r2 => some ([], r2)
        | _ => none))
  | _ => none

/-- The index strings are re-parsed as affine expressions
(`parse_expr(expr).unwrap().1`); a failure is the source's panic. -/
def affParseAll : List (List Char) → Option (List AffineExpr)
  | [] => some []
  | ix :: rest =>
    match parseExprTop ix with
    | some (e, _) =>
      (match affParseAll rest with
       | some es => some (e :: es)
       | none => none)
    | none => none

/-- `Operand::from_str`. -/
def operandFromTok : List Char → Option Operand
  | '$' :: ds =>
    if inI32 (natOfDigits ds : Int) then some (.Imm (natOfDigits ds)) else none
  | tok => some (.Reg (String.mk tok))

def operandsAll : List (List Char) → Option (List Operand)
  | [] => some []
  | tok :: rest =>
    match operandFromTok tok with
    | some o =>
      (match operandsAll rest with
       | some os => some (o :: os)
       | none => none)
    | none => none

/-- `parse_data_load` (the `parse_data_store` twin differs in the tag). -/
def parseDataLoad (s : List Char) : Option (Instruction × List Char) :=
  match parseRegId s with
  | some (reg, r1) =>
    (match parseTag ['<', '='] (msp0 r1) with
     | some r2 =>
       (match parseIdent (msp0 r2) with
        | some (arr, r3) =>
          (match parseIndices r3 with
           | some (idxs, r4) =>
             (match affParseAll idxs with
              | some es =>
                (match (match msp1 r4 with
                        | some r5 => parseCondition r5
                        | none => none) with
                 | some ((cs, creg), r6) =>
                   some (.DataLoad ⟨String.mk arr, es, String.mk reg, some cs,
                     some (String.mk creg)⟩, r6)
                 | none =>
                   some (.DataLoad ⟨String.mk arr, es, String.mk reg, none, none⟩,
                     r4))
              | none => none)
           | none => none)
        | none => none)
     | none => none)
  | none => none

def parseDataStore (s : List Char) : Option (Instruction × List Char) :=
  match parseRegId s with
  | some (reg, r1) =>
    (match parseTag ['=', '>'] (msp0 r1) with
     | some r2 =>
       (match parseIdent (msp0 r2) with
        | some (arr, r3) =>
          (match parseIndices r3 with
           | some (idxs, r4) =>
             (match affParseAll idxs with
              | some es =>
                (match (match msp1 r4 with
                        | some r5 => parseCondition r5
                        | none => none) with
                 | some ((cs, creg), r6) =>
                   some (.DataStore ⟨String.mk arr, es, String.mk reg, some cs,
                     some (String.mk creg)⟩, r6)
                 | none =>
                   some (.DataStore ⟨String.mk arr, es, String.mk reg, none, none⟩,
                     r4))
              | none => none)
           | none => none)
        | none => none)
     | none => none)
  | none => none

/-- The `separated_list1((ms0, ',', ms0), parse_src)` loop. -/
def parseSrcLoop : Nat → List Char → List (List Char) →
    Option (List (List Char) × List Char)
  | 0, _, _ => none
  | fuel + 1, s, acc =>
    match msp0 s with
    | ',' :: r =>
      (match parseSrcTok (msp0 r) with
       | some (tok, r2) => parseSrcLoop fuel r2 (acc ++ [tok])
       | none => some (acc, s))
    | _ => some (acc, s)

/-- `parse_compute`. -/
def parseCompute (s : List Char) : Option (Instruction × List Char) :=
  let s1 := msp0 s
  let op := s1.takeWhile Char.isAlphanum
  if op = [] then none
  else
    match parseRegId (msp0 (s1.dropWhile Char.isAlphanum)) with
    | some (dst, r2) =>
      (if dst.head? = some '$' then none
       else
         match parseSrcTok (msp0 r2) with
         | some (tok1, r4) =>
           (match parseSrcLoop (r4.length + 1) r4 [tok1] with
            | some (toks, r5) =>
              (match operandsAll toks with
               | some ops =>
                 (match parseCondition (msp0 r5) with
                  | some ((cs, creg), r6) =>
                    some (.Compute ⟨String.mk op, ops, String.mk dst, some cs,
                      some (String.mk creg)⟩, r6)
                  | none =>
                    some (.Compute ⟨String.mk op, ops, String.mk dst, none, none⟩,
                      r5))
               | none => none)
            | none => none)
         | none => none)
    | none => none

/-- `parse_instruction`: `terminated(alt((load, store, compute)), ms0)`. -/
def parseInstruction (s : List Char) : Option (Instruction × List Char) :=
  match parseDataLoad s with
  | some (i, r) => some (i, msp0 r)
  | none =>
    match parseDataStore s with
    | some (i, r) => some (i, msp0 r)
    | none =>
      match parseCompute s with
      | some (i, r) => some (i, msp0 r)
      | none => none

/-! ## The printable instruction fragment -/

/-- A register name as `parse_reg_id` produces it: `'R'` then an
alphanumeric run. -/
def regOk (r : String) : Bool :=
  match r.data with
  | 'R' :: t => t.all Char.isAlphanum
  | _ => false

def operandOk : Operand → Bool
  | .Reg r => regOk r
  | .Imm i => (0 ≤ i) && (i ≤ 2147483647)

/-- A condition pair prints and re-parses only when the suffix and the
register are both present (with a parseable register) or both absent. -/
def condOk : Option ConditionSuffix → Option String → Bool
  | none, none => true
  | some _, some c => regOk c
  | _, _ => false

/-- `parse_indices` only accepts plain identifiers, so a printable address
index is exactly a `Var` with a parseable name. -/
def addrIdxOk : AffineExpr → Bool
  | .Var v => wfName v
  | _ => false

def daOk (da : DataAccess) : Bool :=
  regOk da.reg && wfName da.arrayName && !da.addr.isEmpty &&
    da.addr.all addrIdxOk && condOk da.condSuffix da.cond

def computeOk (c : Compute) : Bool :=
  !c.op.data.isEmpty && c.op.data.all Char.isAlphanum && regOk c.dst &&
    !c.src.isEmpty && c.src.all operandOk && condOk c.condSuffix c.cond

/-- The fragment of `Instruction` on which print followed by parse restores
the value; every restriction is forced by a failure of the general round
trip (see `C6_counterexample`). -/
def wfInst : Instruction → Bool
  | .DataLoad da => daOk da
  | .DataStore da => daOk da
  | .Compute c => computeOk c

/-- The identifier printed for a printable address index. -/
def idxName : AffineExpr → List Char
  | .Var v => v.data
  | _ => []

/-- C6, counterexample.  The claim `parse(print(i)) == i` for every
`Instruction` fails: an address index that is a genuine affine expression
(here `x + y`) prints as `A[x + y]`, but `parse_indices` only accepts plain
identifiers between brackets, so the printed instruction does not re-parse
at all; a `Compute` with an empty operand list fails to re-parse
(`separated_list1` needs at least one operand); and a `DataAccess` with an
empty address list prints without brackets while `parse_indices` demands an
opening bracket. -/
theorem C6_counterexample :
    (printInst (.DataLoad ⟨"A", [.Add (.Var "x") (.Var "y")], "R1", none, none⟩)).map
        parseInstruction = some none ∧
    (printInst (.Compute ⟨"nop", [], "R3", none, none⟩)).map parseInstruction
        = some none ∧
    (printInst (.DataLoad ⟨"A", [], "R1", none, none⟩)).map parseInstruction
        = some none :=
  ⟨by decide, by decide, by decide⟩

/-! ## Token round-trip lemmas for the instruction parser -/

theorem regOk_head {r : String} (h : regOk r = true) :
    ∃ t, r.data = 'R' :: t ∧ t.all Char.isAlphanum = true := by
  unfold regOk at h
  split at h
  · next t heq => exact ⟨t, heq, h⟩
  · simp at h

theorem parseRegId_print {r : String} (h : regOk r = true) {rest : List Char}
    (hx : NoExt rest) : parseRegId (r.data ++ rest) = some (r.data, rest) := by
  obtain ⟨t, heq, hall⟩ := regOk_head h
  have hallm : ∀ x ∈ t, x.isAlphanum = true := by
    simpa [List.all_eq_true] using hall
  have hrt : rest.takeWhile Char.isAlphanum = [] := by
    cases rest with
    | nil => rfl
    | cons y r2 => simp [List.takeWhile_cons, (hx y rfl).1]
  have hrd : rest.dropWhile Char.isAlphanum = rest :=
    dropWhile_head_false fun y hy => (hx y hy).1
  rw [heq, List.cons_append]
  show some ('R' :: (t ++ rest).takeWhile Char.isAlphanum,
    (t ++ rest).dropWhile Char.isAlphanum) = some ('R' :: t, rest)
  rw [takeWhile_append_all rest hallm, dropWhile_append_all rest hallm, hrt, hrd,
    List.append_nil]

theorem parseCondCode_print (cs : ConditionSuffix) (rest : List Char) :
    parseCondCode (printCS cs ++ rest) = some (cs, rest) := by
  cases cs <;> simp [printCS, parseCondCode, parseTag]

theorem parseCondition_print (cs : ConditionSuffix) {c : String} (h : regOk c = true)
    (rest : List Char) :
    parseCondition ('(' :: (printCS cs ++ (' ' :: (c.data ++ (')' :: rest)))))
      = some ((cs, c.data), rest) := by
  obtain ⟨t, heq, _⟩ := regOk_head h
  have hrx : NoExt (')' :: rest) := by
    intro cc hcc
    have h2 : ')' = cc := by simpa using hcc
    subst h2
    exact ⟨by decide, by decide⟩
  have hreg : parseRegId (c.data ++ (')' :: rest)) = some (c.data, ')' :: rest) :=
    parseRegId_print h hrx
  have hm : msp0 (c.data ++ (')' :: rest)) = c.data ++ (')' :: rest) := by
    rw [heq, List.cons_append]
    exact msp0_of_head1 rfl (by decide)
  simp [parseCondition, parseCondCode_print, msp1, hm, hreg, isMSpace]

theorem isAlphanum_not_space {c : Char} (h : c.isAlphanum = true) :
    isMSpace c = false ∧ isSpTab c = false := by
  have h1 : c ≠ ' ' := fun he => by subst he; exact absurd h (by decide)
  have h2 : c ≠ '\t' := fun he => by subst he; exact absurd h (by decide)
  have h3 : c ≠ '\n' := fun he => by subst he; exact absurd h (by decide)
  have h4 : c ≠ '\r' := fun he => by subst he; exact absurd h (by decide)
  constructor <;> simp [isMSpace, isSpTab, h1, h2, h3, h4]

theorem printOperand_head {o : Operand} (h : operandOk o = true) :
    ∃ d t, printOperand o = d :: t ∧ isMSpace d = false := by
  cases o with
  | Reg r =>
    obtain ⟨t, heq, _⟩ := regOk_head h
    exact ⟨'R', t, by simp [printOperand, heq], by decide⟩
  | Imm i => exact ⟨'$', printInt i, rfl, by decide⟩

theorem parseSrcTok_reg {r : String} (h : regOk r = true) {rest : List Char}
    (hx : NoExt rest) : parseSrcTok (r.data ++ rest) = some (r.data, rest) := by
  unfold parseSrcTok
  rw [parseRegId_print h hx]

theorem operandFromTok_reg {r : String} (h : regOk r = true) :
    operandFromTok r.data = some (.Reg r) := by
  obtain ⟨t, heq, _⟩ := regOk_head h
  rw [heq]
  show some (Operand.Reg (String.mk ('R' :: t))) = some (Operand.Reg r)
  rw [← heq, mkData]

theorem parseSrcTok_imm {i : Int} (h0 : 0 ≤ i) {rest : List Char} (hrd : NoDig rest) :
    parseSrcTok (('$' :: printInt i) ++ rest) = some ('$' :: printInt i, rest) := by
  have hpr : printInt i = printNat i.natAbs := by
    rw [printInt, if_neg (by omega)]
  rw [hpr]
  obtain ⟨htk, hdr⟩ := takeWhile_digits_print (n := i.natAbs) hrd
  have hne : printNat i.natAbs ≠ [] := (printNat_sound i.natAbs).2.1
  unfold parseSrcTok
  have hrg : parseRegId (('$' :: printNat i.natAbs) ++ rest) = none := rfl
  rw [hrg]
  show parseImmediate ('$' :: (printNat i.natAbs ++ rest)) = _
  simp only [parseImmediate, htk, hdr]
  rw [if_neg hne]

theorem operandFromTok_imm {i : Int} (h0 : 0 ≤ i) (h1 : i ≤ 2147483647) :
    operandFromTok ('$' :: printInt i) = some (.Imm i) := by
  have hpr : printInt i = printNat i.natAbs := by
    rw [printInt, if_neg (by omega)]
  rw [hpr]
  show (if inI32 (natOfDigits (printNat i.natAbs) : Int) then
      some (Operand.Imm (natOfDigits (printNat i.natAbs) : Int)) else none)
    = some (.Imm i)
  rw [(printNat_sound i.natAbs).1]
  have hv : ((i.natAbs : Nat) : Int) = i := by omega
  rw [hv, if_pos (by simp only [inI32, Bool.and_eq_true, decide_eq_true_eq]; omega)]

theorem addrIdxOk_var {e : AffineExpr} (h : addrIdxOk e = true) :
    ∃ v, e = .Var v ∧ wfName v = true := by
  cases e <;>
    first
    | (exact ⟨_, rfl, by simpa [addrIdxOk] using h⟩)
    | (simp [addrIdxOk] at h)

theorem noExt_rbracket (x : List Char) : NoExt (']' :: x) := by
  intro cc hcc
  have h2 : ']' = cc := by simpa using hcc
  subst h2
  exact ⟨by decide, by decide⟩

theorem printAddrPart_len (addr : List AffineExpr) :
    addr.length ≤ (printAddrPart addr).length := by
  induction addr with
  | nil => simp [printAddrPart]
  | cons e rest ih => simp [printAddrPart]; omega

theorem parseIndicesLoop_print {rest : List AffineExpr}
    (h : ∀ e ∈ rest, addrIdxOk e = true) {cp : List Char}
    (hcp : ∀ c, cp.head? = some c → c ≠ '[') :
    ∀ fuel acc, rest.length + 1 ≤ fuel →
      parseIndicesLoop fuel (']' :: (printAddrPart rest ++ cp)) acc
        = some (acc ++ rest.map idxName, ']' :: cp) := by
  induction rest with
  | nil =>
    intro fuel acc hf
    obtain ⟨k, rfl⟩ : ∃ k, fuel = k + 1 := ⟨fuel - 1, by omega⟩
    have htag : parseTag [']', '['] (']' :: cp) = none := by
      show parseTag ['['] cp = none
      cases cp with
      | nil => rfl
      | cons d t =>
        have hd := hcp d rfl
        show (if '[' = d then parseTag [] t else none) = none
        rw [if_neg (fun he => hd he.symm)]
    simp [parseIndicesLoop, printAddrPart, htag]
  | cons e rest ih =>
    intro fuel acc hf
    obtain ⟨k, rfl⟩ : ∃ k, fuel = k + 1 := ⟨fuel - 1, by omega⟩
    obtain ⟨v, rfl, hwn⟩ := addrIdxOk_var (h e (by simp))
    have hshape : printAddrPart (.Var v :: rest) ++ cp
        = '[' :: (v.data ++ (']' :: (printAddrPart rest ++ cp))) := by
      simp [printAddrPart, printExpr]
    rw [hshape]
    have hid := parseIdent_print hwn (noExt_rbracket (printAddrPart rest ++ cp))
    have hlen : rest.length + 1 ≤ k := by
      simp only [List.length_cons] at hf
      omega
    have htag : parseTag [']', '[']
        (']' :: ('[' :: (v.data ++ (']' :: (printAddrPart rest ++ cp)))))
        = some (v.data ++ (']' :: (printAddrPart rest ++ cp))) := rfl
    simp only [parseIndicesLoop, htag, hid]
    rw [ih (fun x hx => h x (by simp [hx])) k (acc ++ [v.data]) hlen]
    simp [idxName]

theorem parseIndices_print {addr : List AffineExpr} (hne : addr ≠ [])
    (h : ∀ e ∈ addr, addrIdxOk e = true) {cp : List Char}
    (hcp : ∀ c, cp.head? = some c → c ≠ '[') :
    parseIndices (printAddrPart addr ++ cp) = some (addr.map idxName, cp) := by
  cases addr with
  | nil => exact absurd rfl hne
  | cons e rest =>
    obtain ⟨v, rfl, hwn⟩ := addrIdxOk_var (h e (by simp))
    have hshape : printAddrPart (.Var v :: rest) ++ cp
        = '[' :: (v.data ++ (']' :: (printAddrPart rest ++ cp))) := by
      simp [printAddrPart, printExpr]
    rw [hshape]
    have hid := parseIdent_print hwn (noExt_rbracket (printAddrPart rest ++ cp))
    have hlen0 := printAddrPart_len rest
    have hall : ∀ x ∈ rest, addrIdxOk x = true := fun x hx => h x (by simp [hx])
    have hloop := parseIndicesLoop_print hall hcp
      ((']' :: (printAddrPart rest ++ cp)).length + 1) [v.data]
      (by simp only [List.length_cons, List.length_append]; omega)
    simp only [parseIndices, hid]
    rw [hloop]
    simp [idxName]

theorem affParseAll_print {addr : List AffineExpr}
    (h : ∀ e ∈ addr, addrIdxOk e = true) :
    affParseAll (addr.map idxName) = some addr := by
  induction addr with
  | nil => rfl
  | cons e rest ih =>
    obtain ⟨v, rfl, hwn⟩ := addrIdxOk_var (h e (by simp))
    have hrt : parseExprTop v.data = some (.Var v, []) :=
      parse_print_roundTrip (e := .Var v) hwn
    simp [affParseAll, idxName, hrt, ih (fun x hx => h x (by simp [hx]))]

theorem noExt_srcRest {ops : List Operand} {cp : List Char} (hx : NoExt cp) :
    NoExt (printSrcRest ops ++ cp) := by
  cases ops with
  | nil => simpa [printSrcRest] using hx
  | cons o rest =>
    intro cc hcc
    have h2 : ',' = cc := by simpa [printSrcRest] using hcc
    subst h2
    exact ⟨by decide, by decide⟩

theorem noDig_srcRest {ops : List Operand} {cp : List Char} (hd : NoDig cp) :
    NoDig (printSrcRest ops ++ cp) := by
  cases ops with
  | nil => simpa [printSrcRest] using hd
  | cons o rest =>
    intro cc hcc
    have h2 : ',' = cc := by simpa [printSrcRest] using hcc
    subst h2
    decide

theorem parseSrcLoop_print {ops : List Operand} (h : ∀ o ∈ ops, operandOk o = true)
    {cp : List Char} (hstop : ∀ t, msp0 cp ≠ ',' :: t) (hx : NoExt cp)
    (hd : NoDig cp) :
    ∀ fuel acc, ops.length + 1 ≤ fuel →
      parseSrcLoop fuel (printSrcRest ops ++ cp) acc
        = some (acc ++ ops.map printOperand, cp) := by
  induction ops with
  | nil =>
    intro fuel acc hf
    obtain ⟨k, rfl⟩ : ∃ k, fuel = k + 1 := ⟨fuel - 1, by omega⟩
    show parseSrcLoop (k + 1) ([] ++ cp) acc = _
    rw [List.nil_append]
    simp only [parseSrcLoop]
    simp
  | cons o ops ih =>
    intro fuel acc hf
    obtain ⟨k, rfl⟩ : ∃ k, fuel = k + 1 := ⟨fuel - 1, by omega⟩
    have ho := h o (by simp)
    obtain ⟨d, t, hdt, hdm⟩ := printOperand_head ho
    have hshape : printSrcRest (o :: ops) ++ cp
        = ',' :: ' ' :: (printOperand o ++ (printSrcRest ops ++ cp)) := by
      simp [printSrcRest]
    rw [hshape]
    have hm1 : msp0 (',' :: ' ' :: (printOperand o ++ (printSrcRest ops ++ cp)))
        = ',' :: ' ' :: (printOperand o ++ (printSrcRest ops ++ cp)) :=
      msp0_of_head1 rfl (by decide)
    have hm2 : msp0 (' ' :: (printOperand o ++ (printSrcRest ops ++ cp)))
        = printOperand o ++ (printSrcRest ops ++ cp) := by
      rw [msp0_cons_space]
      exact msp0_of_head1 (t := t ++ (printSrcRest ops ++ cp)) (by simp [hdt]) hdm
    have hxx : NoExt (printSrcRest ops ++ cp) := noExt_srcRest hx
    have hdd : NoDig (printSrcRest ops ++ cp) := noDig_srcRest hd
    have htok : parseSrcTok (printOperand o ++ (printSrcRest ops ++ cp))
        = some (printOperand o, printSrcRest ops ++ cp) := by
      cases o with
      | Reg r => exact parseSrcTok_reg ho hxx
      | Imm i =>
        have h0 : 0 ≤ i := by
          simp only [operandOk, Bool.and_eq_true, decide_eq_true_eq] at ho
          exact ho.1
        exact parseSrcTok_imm h0 hdd
    have hlen : ops.length + 1 ≤ k := by
      simp only [List.length_cons] at hf
      omega
    simp only [parseSrcLoop, hm1, hm2, htok]
    rw [ih (fun x hx2 => h x (by simp [hx2])) k (acc ++ [printOperand o]) hlen]
    simp

theorem noExt_addrPart {addr : List AffineExpr} (hne : addr ≠ []) (cp : List Char) :
    NoExt (printAddrPart addr ++ cp) := by
  cases addr with
  | nil => exact absurd rfl hne
  | cons e rest =>
    intro cc hcc
    have h2 : '[' = cc := by simpa [printAddrPart] using hcc
    subst h2
    exact ⟨by decide, by decide⟩

theorem parseSrcTok_print {o : Operand} (ho : operandOk o = true) {r : List Char}
    (hx : NoExt r) (hd : NoDig r) :
    parseSrcTok (printOperand o ++ r) = some (printOperand o, r) := by
  cases o with
  | Reg r2 => exact parseSrcTok_reg ho hx
  | Imm i =>
    have h0 : 0 ≤ i := by
      simp only [operandOk, Bool.and_eq_true, decide_eq_true_eq] at ho
      exact ho.1
    exact parseSrcTok_imm h0 hd

theorem operandFromTok_print {o : Operand} (ho : operandOk o = true) :
    operandFromTok (printOperand o) = some o := by
  cases o with
  | Reg r2 => exact operandFromTok_reg ho
  | Imm i =>
    simp only [operandOk, Bool.and_eq_true, decide_eq_true_eq] at ho
    exact operandFromTok_imm ho.1 ho.2

theorem operandsAll_print {src : List Operand} (h : ∀ o ∈ src, operandOk o = true) :
    operandsAll (src.map printOperand) = some src := by
  induction src with
  | nil => rfl
  | cons o rest ih =>
    simp [operandsAll, operandFromTok_print (h o (by simp)),
      ih (fun x hx => h x (by simp [hx]))]

theorem printSrcRest_len (ops : List Operand) :
    ops.length ≤ (printSrcRest ops).length := by
  induction ops with
  | nil => simp [printSrcRest]
  | cons o rest ih => simp [printSrcRest]; omega

theorem parseRegId_nR {x : Char} (h : x ≠ 'R') (r : List Char) :
    parseRegId (x :: r) = none := by
  unfold parseRegId
  split
  · next heq => exact absurd (List.cons.inj heq).1 h
  · rfl


theorem parseDataLoad_pre {reg arr : String} {addr : List AffineExpr} {cp : List Char}
    (hreg : regOk reg = true) (harr : wfName arr = true) (hne : addr ≠ [])
    (hall : ∀ e ∈ addr, addrIdxOk e = true)
    (hcp : ∀ c, cp.head? = some c → c ≠ '[') :
    parseDataLoad (reg.data ++ ' ' :: '<' :: '=' :: ' ' ::
        (arr.data ++ (printAddrPart addr ++ cp)))
      = match (match msp1 cp with
               | some r5 => parseCondition r5
               | none => none) with
        | some ((cs, creg), r6) =>
          some (.DataLoad ⟨arr, addr, reg, some cs, some (String.mk creg)⟩, r6)
        | none => some (.DataLoad ⟨arr, addr, reg, none, none⟩, cp) := by
  have h1 : parseRegId (reg.data ++ ' ' :: '<' :: '=' :: ' ' ::
      (arr.data ++ (printAddrPart addr ++ cp)))
      = some (reg.data, ' ' :: '<' :: '=' :: ' ' ::
          (arr.data ++ (printAddrPart addr ++ cp))) :=
    parseRegId_print hreg (noExt_space _)
  have h2 : msp0 (' ' :: '<' :: '=' :: ' ' :: (arr.data ++ (printAddrPart addr ++ cp)))
      = '<' :: '=' :: ' ' :: (arr.data ++ (printAddrPart addr ++ cp)) := by
    rw [msp0_cons_space]
    exact msp0_of_head1 rfl (by decide)
  have h3 : parseTag ['<', '='] ('<' :: '=' :: ' ' ::
      (arr.data ++ (printAddrPart addr ++ cp)))
      = some (' ' :: (arr.data ++ (printAddrPart addr ++ cp))) := rfl
  have h4 : msp0 (' ' :: (arr.data ++ (printAddrPart addr ++ cp)))
      = arr.data ++ (printAddrPart addr ++ cp) := by
    rw [msp0_cons_space]
    exact msp0_name harr _
  have h5 : parseIdent (arr.data ++ (printAddrPart addr ++ cp))
      = some (arr.data, printAddrPart addr ++ cp) :=
    parseIdent_print harr (noExt_addrPart hne cp)
  have h6 := parseIndices_print hne hall hcp
  have h7 := affParseAll_print hall
  simp only [parseDataLoad, h1, h2, h3, h4, h5, h6, h7, mkData]

theorem parseDataStore_pre {reg arr : String} {addr : List AffineExpr} {cp : List Char}
    (hreg : regOk reg = true) (harr : wfName arr = true) (hne : addr ≠ [])
    (hall : ∀ e ∈ addr, addrIdxOk e = true)
    (hcp : ∀ c, cp.head? = some c → c ≠ '[') :
    parseDataStore (reg.data ++ ' ' :: '=' :: '>' :: ' ' ::
        (arr.data ++ (printAddrPart addr ++ cp)))
      = match (match msp1 cp with
               | some r5 => parseCondition r5
               | none => none) with
        | some ((cs, creg), r6) =>
          some (.DataStore ⟨arr, addr, reg, some cs, some (String.mk creg)⟩, r6)
        | none => some (.DataStore ⟨arr, addr, reg, none, none⟩, cp) := by
  have h1 : parseRegId (reg.data ++ ' ' :: '=' :: '>' :: ' ' ::
      (arr.data ++ (printAddrPart addr ++ cp)))
      = some (reg.data, ' ' :: '=' :: '>' :: ' ' ::
          (arr.data ++ (printAddrPart addr ++ cp))) :=
    parseRegId_print hreg (noExt_space _)
  have h2 : msp0 (' ' :: '=' :: '>' :: ' ' :: (arr.data ++ (printAddrPart addr ++ cp)))
      = '=' :: '>' :: ' ' :: (arr.data ++ (printAddrPart addr ++ cp)) := by
    rw [msp0_cons_space]
    exact msp0_of_head1 rfl (by decide)
  have h3 : parseTag ['=', '>'] ('=' :: '>' :: ' ' ::
      (arr.data ++ (printAddrPart addr ++ cp)))
      = some (' ' :: (arr.data ++ (printAddrPart addr ++ cp))) := rfl
  have h4 : msp0 (' ' :: (arr.data ++ (printAddrPart addr ++ cp)))
      = arr.data ++ (printAddrPart addr ++ cp) := by
    rw [msp0_cons_space]
    exact msp0_name harr _
  have h5 : parseIdent (arr.data ++ (printAddrPart addr ++ cp))
      = some (arr.data, printAddrPart addr ++ cp) :=
    parseIdent_print harr (noExt_addrPart hne cp)
  have h6 := parseIndices_print hne hall hcp
  have h7 := affParseAll_print hall
  simp only [parseDataStore, h1, h2, h3, h4, h5, h6, h7, mkData]

theorem parseDataLoad_store_none {reg : String} (hreg : regOk reg = true)
    (x : List Char) :
    parseDataLoad (reg.data ++ ' ' :: '=' :: '>' :: ' ' :: x) = none := by
  have h1 : parseRegId (reg.data ++ ' ' :: '=' :: '>' :: ' ' :: x)
      = some (reg.data, ' ' :: '=' :: '>' :: ' ' :: x) :=
    parseRegId_print hreg (noExt_space _)
  have h2 : msp0 (' ' :: '=' :: '>' :: ' ' :: x) = '=' :: '>' :: ' ' :: x := by
    rw [msp0_cons_space]
    exact msp0_of_head1 rfl (by decide)
  have h3 : parseTag ['<', '='] ('=' :: '>' :: ' ' :: x) = none := rfl
  simp only [parseDataLoad, h1, h2, h3]

theorem parseCompute_shape {op dst : String} (hop1 : op.data ≠ [])
    (hop2 : ∀ x ∈ op.data, x.isAlphanum = true) (hdst : regOk dst = true)
    (y : List Char) :
    parseDataLoad (op.data ++ ' ' :: (dst.data ++ y)) = none ∧
    parseDataStore (op.data ++ ' ' :: (dst.data ++ y)) = none := by
  obtain ⟨t2, hdd, _⟩ := regOk_head hdst
  rcases hopd : op.data with _ | ⟨x, t⟩
  · exact absurd hopd hop1
  have hta : ∀ c ∈ t, c.isAlphanum = true := fun c hc => hop2 c (by simp [hopd, hc])
  by_cases hx : x = 'R'
  · subst hx
    have hro : regOk (String.mk ('R' :: t)) = true := by
      show t.all Char.isAlphanum = true
      simpa [List.all_eq_true] using hta
    have h1 : parseRegId (('R' :: t) ++ ' ' :: (dst.data ++ y))
        = some ('R' :: t, ' ' :: (dst.data ++ y)) :=
      parseRegId_print hro (noExt_space _)
    have h2 : msp0 (' ' :: (dst.data ++ y)) = dst.data ++ y := by
      rw [msp0_cons_space]
      exact msp0_of_head1 (d := 'R') (t := t2 ++ y) (by simp [hdd]) (by decide)
    have h3 : parseTag ['<', '='] (dst.data ++ y) = none := by
      rw [hdd]; rfl
    have h4 : parseTag ['=', '>'] (dst.data ++ y) = none := by
      rw [hdd]; rfl
    exact ⟨by simp only [parseDataLoad, h1, h2, h3],
      by simp only [parseDataStore, h1, h2, h4]⟩
  · have h1 : parseRegId ((x :: t) ++ ' ' :: (dst.data ++ y)) = none :=
      parseRegId_nR hx _
    exact ⟨by simp only [parseDataLoad, h1],
      by simp only [parseDataStore, h1]⟩

theorem printOperand_shape {o : Operand} (ho : operandOk o = true) (y : List Char) :
    ∃ d t, printOperand o ++ y = d :: t ∧ isMSpace d = false := by
  cases o with
  | Reg r =>
    obtain ⟨t, heq, _⟩ := regOk_head ho
    exact ⟨'R', t ++ y, by simp [printOperand, heq], by decide⟩
  | Imm i =>
    exact ⟨'$', printInt i ++ y, by simp [printOperand], by decide⟩

theorem parseCompute_pre {op dst : String} {src : List Operand} {cp : List Char}
    (hop1 : op.data ≠ []) (hop2 : ∀ x ∈ op.data, x.isAlphanum = true)
    (hdst : regOk dst = true) (hsrc : src ≠ [])
    (hall : ∀ o ∈ src, operandOk o = true)
    (hstop : ∀ t, msp0 cp ≠ ',' :: t) (hx : NoExt cp) (hd : NoDig cp) :
    parseCompute (op.data ++ ' ' :: (dst.data ++ (printSrcPart src ++ cp)))
      = match parseCondition (msp0 cp) with
        | some ((cs, creg), r6) =>
          some (.Compute ⟨op, src, dst, some cs, some (String.mk creg)⟩, r6)
        | none => some (.Compute ⟨op, src, dst, none, none⟩, cp) := by
  rcases hsd : src with _ | ⟨o1, ops2⟩
  · exact absurd hsd hsrc
  subst hsd
  obtain ⟨x, t, hopd⟩ : ∃ x t, op.data = x :: t := by
    rcases h : op.data with _ | ⟨x, t⟩
    · exact absurd h hop1
    · exact ⟨x, t, rfl⟩
  obtain ⟨t2, hdd, _⟩ := regOk_head hdst
  have hs1 : msp0 (op.data ++ ' ' :: (dst.data ++ (printSrcPart (o1 :: ops2) ++ cp)))
      = op.data ++ ' ' :: (dst.data ++ (printSrcPart (o1 :: ops2) ++ cp)) :=
    msp0_of_head1 (d := x)
      (t := t ++ ' ' :: (dst.data ++ (printSrcPart (o1 :: ops2) ++ cp)))
      (by simp [hopd])
      (isAlphanum_not_space (hop2 x (by simp [hopd]))).1
  have htw : (op.data ++ ' ' :: (dst.data ++ (printSrcPart (o1 :: ops2) ++ cp))).takeWhile
      Char.isAlphanum = op.data := by
    rw [takeWhile_append_all _ hop2]
    simp [List.takeWhile_cons, show Char.isAlphanum ' ' = false from by decide]
  have hdw : (op.data ++ ' ' :: (dst.data ++ (printSrcPart (o1 :: ops2) ++ cp))).dropWhile
      Char.isAlphanum = ' ' :: (dst.data ++ (printSrcPart (o1 :: ops2) ++ cp)) := by
    rw [dropWhile_append_all _ hop2]
    simp [List.dropWhile_cons, show Char.isAlphanum ' ' = false from by decide]
  have hm2 : msp0 (' ' :: (dst.data ++ (printSrcPart (o1 :: ops2) ++ cp)))
      = dst.data ++ (printSrcPart (o1 :: ops2) ++ cp) := by
    rw [msp0_cons_space]
    exact msp0_of_head1 (d := 'R') (t := t2 ++ (printSrcPart (o1 :: ops2) ++ cp))
      (by simp [hdd]) (by decide)
  have hnx1 : NoExt (printSrcPart (o1 :: ops2) ++ cp) := by
    simp only [printSrcPart, List.cons_append]
    exact noExt_space _
  have hrg : parseRegId (dst.data ++ (printSrcPart (o1 :: ops2) ++ cp))
      = some (dst.data, printSrcPart (o1 :: ops2) ++ cp) :=
    parseRegId_print hdst hnx1
  have hguard : ¬((dst.data).head? = some '$') := by
    simp [hdd]
  have hm3 : msp0 (printSrcPart (o1 :: ops2) ++ cp)
      = printOperand o1 ++ (printSrcRest ops2 ++ cp) := by
    simp only [printSrcPart, List.cons_append, List.append_assoc]
    rw [msp0_cons_space]
    obtain ⟨d, dt, hdt, hds⟩ := printOperand_shape (hall o1 (by simp))
      (printSrcRest ops2 ++ cp)
    exact msp0_of_head1 hdt hds
  have htok : parseSrcTok (printOperand o1 ++ (printSrcRest ops2 ++ cp))
      = some (printOperand o1, printSrcRest ops2 ++ cp) :=
    parseSrcTok_print (hall o1 (by simp)) (noExt_srcRest hx) (noDig_srcRest hd)
  have hloop : parseSrcLoop ((printSrcRest ops2 ++ cp).length + 1)
      (printSrcRest ops2 ++ cp) [printOperand o1]
      = some (printOperand o1 :: ops2.map printOperand, cp) := by
    have hall2 : ∀ o ∈ ops2, operandOk o = true := fun o ho => hall o (by simp [ho])
    have hb : ops2.length + 1 ≤ (printSrcRest ops2 ++ cp).length + 1 := by
      have := printSrcRest_len ops2
      simp only [List.length_append]
      omega
    simpa using parseSrcLoop_print hall2 hstop hx hd _ [printOperand o1] hb
  have hops : operandsAll (printOperand o1 :: ops2.map printOperand)
      = some (o1 :: ops2) := operandsAll_print hall
  simp only [parseCompute, hs1, htw, hdw, hm2, hrg, hm3, htok, hloop, hops, mkData]
  rw [if_neg hop1, if_neg hguard]

/-- C6, positive half after amendment: on the printable fragment `wfInst` —
addresses consisting of plain `Var` indices with parseable names, registers
of the form `R` followed by alphanumerics, immediates in `0..=i32::MAX`, a
nonempty operand list and a nonempty alphanumeric opcode for `Compute`, and
a condition suffix and condition register that are both present or both
absent — printing the instruction succeeds, and parsing the printed text
returns the same instruction with no leftover input. -/
theorem C6_roundtrip_amended :
    ∀ i, wfInst i = true →
      ∃ s, printInst i = some s ∧ parseInstruction s = some (i, []) := by
  intro i h
  cases i with
  | DataLoad da =>
    obtain ⟨arr, addr, reg, csf, cnd⟩ := da
    have hd : daOk ⟨arr, addr, reg, csf, cnd⟩ = true := h
    simp only [daOk, Bool.and_eq_true] at hd
    obtain ⟨⟨⟨⟨hreg, harr⟩, hemp⟩, hallb⟩, hcond⟩ := hd
    have hne : addr ≠ [] := by
      intro he
      rw [he] at hemp
      simp at hemp
    have hallm : ∀ e ∈ addr, addrIdxOk e = true := by
      simpa [List.all_eq_true] using hallb
    rcases csf with _ | cs <;> rcases cnd with _ | cg
    · refine ⟨reg.data ++ ' ' :: '<' :: '=' :: ' ' ::
        (arr.data ++ (printAddrPart addr ++ [])), rfl, ?_⟩
      have hpre := @parseDataLoad_pre reg arr addr [] hreg harr hne hallm
        (by intro cc hcc; simp at hcc)
      have hdl : parseDataLoad (reg.data ++ ' ' :: '<' :: '=' :: ' ' ::
          (arr.data ++ (printAddrPart addr ++ [])))
          = some (.DataLoad ⟨arr, addr, reg, none, none⟩, []) := hpre.trans (by rfl)
      simp only [parseInstruction, hdl]
      rfl
    · simp [condOk] at hcond
    · simp [condOk] at hcond
    · have hcreg : regOk cg = true := hcond
      refine ⟨reg.data ++ ' ' :: '<' :: '=' :: ' ' :: (arr.data ++ (printAddrPart addr ++
        (' ' :: '(' :: (printCS cs ++ ' ' :: (cg.data ++ [')']))))), rfl, ?_⟩
      have hcp : ∀ cc, (' ' :: '(' :: (printCS cs ++ ' ' ::
          (cg.data ++ [')']))).head? = some cc → cc ≠ '[' := by
        intro cc hcc
        have h2 : ' ' = cc := by simpa using hcc
        subst h2
        decide
      have hpre := @parseDataLoad_pre reg arr addr
        (' ' :: '(' :: (printCS cs ++ ' ' :: (cg.data ++ [')'])))
        hreg harr hne hallm hcp
      have hm : msp1 (' ' :: '(' :: (printCS cs ++ ' ' :: (cg.data ++ [')'])))
          = some ('(' :: (printCS cs ++ ' ' :: (cg.data ++ [')']))) := by
        show (if isMSpace ' ' then
            some (msp0 ('(' :: (printCS cs ++ ' ' :: (cg.data ++ [')'])))) else none) = _
        rw [if_pos (by decide)]
        rw [msp0_of_head1 (d := '(')
          (t := printCS cs ++ ' ' :: (cg.data ++ [')'])) rfl (by decide)]
      have hc2 : parseCondition ('(' :: (printCS cs ++ ' ' :: (cg.data ++ [')'])))
          = some ((cs, cg.data), []) := parseCondition_print cs hcreg []
      have hdl : parseDataLoad (reg.data ++ ' ' :: '<' :: '=' :: ' ' ::
          (arr.data ++ (printAddrPart addr ++
            (' ' :: '(' :: (printCS cs ++ ' ' :: (cg.data ++ [')']))))))
          = some (.DataLoad ⟨arr, addr, reg, some cs, some cg⟩, []) := by
        simp only [hpre, hm, hc2, mkData]
      simp only [parseInstruction, hdl]
      rfl
  | DataStore da =>
    obtain ⟨arr, addr, reg, csf, cnd⟩ := da
    have hd : daOk ⟨arr, addr, reg, csf, cnd⟩ = true := h
    simp only [daOk, Bool.and_eq_true] at hd
    obtain ⟨⟨⟨⟨hreg, harr⟩, hemp⟩, hallb⟩, hcond⟩ := hd
    have hne : addr ≠ [] := by
      intro he
      rw [he] at hemp
      simp at hemp
    have hallm : ∀ e ∈ addr, addrIdxOk e = true := by
      simpa [List.all_eq_true] using hallb
    rcases csf with _ | cs <;> rcases cnd with _ | cg
    · refine ⟨reg.data ++ ' ' :: '=' :: '>' :: ' ' ::
        (arr.data ++ (printAddrPart addr ++ [])), rfl, ?_⟩
      have hnone := parseDataLoad_store_none hreg
        (arr.data ++ (printAddrPart addr ++ []))
      have hpre := @parseDataStore_pre reg arr addr [] hreg harr hne hallm
        (by intro cc hcc; simp at hcc)
      have hds : parseDataStore (reg.data ++ ' ' :: '=' :: '>' :: ' ' ::
          (arr.data ++ (printAddrPart addr ++ [])))
          = some (.DataStore ⟨arr, addr, reg, none, none⟩, []) := hpre.trans (by rfl)
      simp only [parseInstruction, hnone, hds]
      rfl
    · simp [condOk] at hcond
    · simp [condOk] at hcond
    · have hcreg : regOk cg = true := hcond
      refine ⟨reg.data ++ ' ' :: '=' :: '>' :: ' ' :: (arr.data ++ (printAddrPart addr ++
        (' ' :: '(' :: (printCS cs ++ ' ' :: (cg.data ++ [')']))))), rfl, ?_⟩
      have hnone := parseDataLoad_store_none hreg
        (arr.data ++ (printAddrPart addr ++
          (' ' :: '(' :: (printCS cs ++ ' ' :: (cg.data ++ [')'])))))
      have hcp : ∀ cc, (' ' :: '(' :: (printCS cs ++ ' ' ::
          (cg.data ++ [')']))).head? = some cc → cc ≠ '[' := by
        intro cc hcc
        have h2 : ' ' = cc := by simpa using hcc
        subst h2
        decide
      have hpre := @parseDataStore_pre reg arr addr
        (' ' :: '(' :: (printCS cs ++ ' ' :: (cg.data ++ [')'])))
        hreg harr hne hallm hcp
      have hm : msp1 (' ' :: '(' :: (printCS cs ++ ' ' :: (cg.data ++ [')'])))
          = some ('(' :: (printCS cs ++ ' ' :: (cg.data ++ [')']))) := by
        show (if isMSpace ' ' then
            some (msp0 ('(' :: (printCS cs ++ ' ' :: (cg.data ++ [')'])))) else none) = _
        rw [if_pos (by decide)]
        rw [msp0_of_head1 (d := '(')
          (t := printCS cs ++ ' ' :: (cg.data ++ [')'])) rfl (by decide)]
      have hc2 : parseCondition ('(' :: (printCS cs ++ ' ' :: (cg.data ++ [')'])))
          = some ((cs, cg.data), []) := parseCondition_print cs hcreg []
      have hds : parseDataStore (reg.data ++ ' ' :: '=' :: '>' :: ' ' ::
          (arr.data ++ (printAddrPart addr ++
            (' ' :: '(' :: (printCS cs ++ ' ' :: (cg.data ++ [')']))))))
          = some (.DataStore ⟨arr, addr, reg, some cs, some cg⟩, []) := by
        simp only [hpre, hm, hc2, mkData]
      simp only [parseInstruction, hnone, hds]
      rfl
  | Compute co =>
    obtain ⟨op, src, dst, csf, cnd⟩ := co
    have hc0 : computeOk ⟨op, src, dst, csf, cnd⟩ = true := h
    simp only [computeOk, Bool.and_eq_true] at hc0
    obtain ⟨⟨⟨⟨⟨hop1b, hop2b⟩, hdst⟩, hsrcb⟩, hallb⟩, hcond⟩ := hc0
    have hop1 : op.data ≠ [] := by
      intro he
      rw [he] at hop1b
      simp at hop1b
    have hop2 : ∀ x ∈ op.data, x.isAlphanum = true := by
      simpa [List.all_eq_true] using hop2b
    have hsrc : src ≠ [] := by
      intro he
      rw [he] at hsrcb
      simp at hsrcb
    have hall : ∀ o ∈ src, operandOk o = true := by
      simpa [List.all_eq_true] using hallb
    rcases csf with _ | cs <;> rcases cnd with _ | cg
    · refine ⟨op.data ++ ' ' :: (dst.data ++ (printSrcPart src ++ [])), rfl, ?_⟩
      have hsh := parseCompute_shape hop1 hop2 hdst (printSrcPart src ++ [])
      have hpre := @parseCompute_pre op dst src [] hop1 hop2 hdst hsrc hall
        (by intro t ht; simp [msp0] at ht)
        (by intro cc hcc; simp at hcc)
        (by intro cc hcc; simp at hcc)
      have hcm : parseCompute (op.data ++ ' ' :: (dst.data ++ (printSrcPart src ++ [])))
          = some (.Compute ⟨op, src, dst, none, none⟩, []) := hpre.trans (by rfl)
      simp only [parseInstruction, hsh.1, hsh.2, hcm]
      rfl
    · simp [condOk] at hcond
    · simp [condOk] at hcond
    · have hcreg : regOk cg = true := hcond
      refine ⟨op.data ++ ' ' :: (dst.data ++ (printSrcPart src ++
        (' ' :: '(' :: (printCS cs ++ ' ' :: (cg.data ++ [')']))))), rfl, ?_⟩
      have hsh := parseCompute_shape hop1 hop2 hdst (printSrcPart src ++
        (' ' :: '(' :: (printCS cs ++ ' ' :: (cg.data ++ [')']))))
      have hm : msp0 (' ' :: '(' :: (printCS cs ++ ' ' :: (cg.data ++ [')'])))
          = '(' :: (printCS cs ++ ' ' :: (cg.data ++ [')'])) := by
        rw [msp0_cons_space]
        exact msp0_of_head1 (d := '(')
          (t := printCS cs ++ ' ' :: (cg.data ++ [')'])) rfl (by decide)
      have hstop : ∀ t, msp0 (' ' :: '(' :: (printCS cs ++ ' ' ::
          (cg.data ++ [')']))) ≠ ',' :: t := by
        intro t ht
        rw [hm] at ht
        exact absurd (List.cons.inj ht).1 (by decide)
      have hpre := @parseCompute_pre op dst src
        (' ' :: '(' :: (printCS cs ++ ' ' :: (cg.data ++ [')'])))
        hop1 hop2 hdst hsrc hall hstop (noExt_space _) (noDig_space _)
      have hc2 : parseCondition ('(' :: (printCS cs ++ ' ' :: (cg.data ++ [')'])))
          = some ((cs, cg.data), []) := parseCondition_print cs hcreg []
      have hcm : parseCompute (op.data ++ ' ' :: (dst.data ++ (printSrcPart src ++
          (' ' :: '(' :: (printCS cs ++ ' ' :: (cg.data ++ [')']))))))
          = some (.Compute ⟨op, src, dst, some cs, some cg⟩, []) := by
        simp only [hpre, hm, hc2, mkData]
      simp only [parseInstruction, hsh.1, hsh.2, hcm]
      rfl

theorem C6_witness :
    wfInst (.DataLoad ⟨"A", [.Var "x", .Var "y"], "R1", some .EQ, some "Rcmp"⟩)
        = true ∧
      ∃ s, printInst (.DataLoad ⟨"A", [.Var "x", .Var "y"], "R1", some .EQ,
          some "Rcmp"⟩) = some s ∧
        parseInstruction s = some (.DataLoad ⟨"A", [.Var "x", .Var "y"], "R1",
          some .EQ, some "Rcmp"⟩, []) :=
  ⟨by decide, C6_roundtrip_amended _ (by decide)⟩
